import Mathlib

/-!
# HTCondor `MapFile`: identity canonicalization engine

A shallow embedding of `src/condor_utils/MapFile.cpp` and theorems about it.

Conventions of the embedding

* `Str` is a sequence of characters. For a C string (`const char *`, the
  strings of the pool) it is the text before the terminating NUL; for a
  `std::string` or a `MyString` it is the whole content.
* A pointer that may be `NULL` is an `Option`.
* The intrusive linked list `CanonicalMapList` (`first`, `last`, `next`) is a
  Lean list in `first`-to-`next` order; `last` is its final element.
* The PCRE2 library is a parameter (`Pcre2`): compiling and matching are
  arbitrary deterministic functions.
* Behaviour that C++ leaves undefined, and a failed `ASSERT`, is a `Fault`.
-/

namespace MapFile

/-- Text of a C string, a `MyString` or a `std::string`. -/
abbrev Str := List Char

/-- The character `'\0'`. -/
def NUL : Char := Char.ofNat 0

/-- The character `'\\'`. -/
def BACKSLASH : Char := Char.ofNat 92

/-- The character `'"'`. -/
def DQUOTE : Char := Char.ofNat 34

/-- The character `'/'`. -/
def SLASH : Char := Char.ofNat 47

/-- What the C++ code does where the embedding cannot follow it. -/
inductive Fault where
  /-- A `NULL` pointer is dereferenced (`hm->find` on a hash entry without
  table, `pcre2_match` on a regex entry without compiled code). -/
  | nullDeref
  /-- The scan index of `PerformSubstitution` has moved past the terminating
  NUL of the template; `output` is what had been written by then. -/
  | pastTerminator (output : Str)
  /-- An `ASSERT` failed. -/
  | assertFailed
  deriving DecidableEq, Repr

deriving instance DecidableEq for Except

/-! ## PCRE2 (external library) -/

/-- Option bit `PCRE2_NOTEMPTY` of pcre2.h. -/
def PCRE2_NOTEMPTY : Nat := 0x00000004

/-- Option bit `PCRE2_CASELESS` of pcre2.h. -/
def PCRE2_CASELESS : Nat := 0x00000008

/-- Option bit `PCRE2_UNGREEDY` of pcre2.h. -/
def PCRE2_UNGREEDY : Nat := 0x00040000

/-- The PCRE2 library, as far as `MapFile.cpp` calls it. `Re` is
`pcre2_code`. `pcre2_compile pattern options` gives the compiled code or the
error code and offset. `pcre2_match re subject cch options` gives the return
code `rc` and the output vector of the match data. -/
structure Pcre2 (Re : Type) where
  pcre2_compile : Str → Nat → Except (Int × Nat) Re
  pcre2_match : Re → Str → Nat → Nat → Int × (Nat → Nat)

/-! ## Rule entries -/

/-- The table `LITERAL_HASH` (`std::unordered_map<const YourString, const char *>`):
the stored (key, value) pairs. -/
abbrev LITERAL_HASH := List (Str × Str)

/-- The lookup `hm->find(name)`: the stored pair whose key equals `name`. -/
def LITERAL_HASH.find (hm : LITERAL_HASH) (name : Str) : Option (Str × Str) :=
  List.find? (fun kv => kv.1 == name) hm

/-- The assignment `(*hm)[name] = canon`: overwrite the value of an existing
key, insert a new pair otherwise. -/
def LITERAL_HASH.assign : LITERAL_HASH → Str → Str → LITERAL_HASH
  | [], name, canon => [(name, canon)]
  | kv :: hm, name, canon =>
    if kv.1 = name then (name, canon) :: hm
    else kv :: LITERAL_HASH.assign hm name canon

/-- One entry of a rule list; the constructor is the field `entry_type`
(0 = base, 1 = `CanonicalMapRegexEntry`, 2 = `CanonicalMapHashEntry`). -/
inductive CanonicalMapEntry (Re : Type) where
  | base
  | regex (re_options : Nat) (re : Option Re) (canonicalization : Option Str)
  | hash (hm : Option LITERAL_HASH)

/-- The list of one method, in `first` to `next` order. -/
abbrev CanonicalMapList (Re : Type) := List (CanonicalMapEntry Re)

/-- The pointer `list->last`. -/
def CanonicalMapList.last {Re : Type} (list : CanonicalMapList Re) :
    Option (CanonicalMapEntry Re) :=
  list.getLast?

/-- Function `CanonicalMapList::append`. -/
def CanonicalMapList.append {Re : Type} (list : CanonicalMapList Re)
    (item : CanonicalMapEntry Re) : CanonicalMapList Re :=
  list ++ [item]

/-- Function `CanonicalMapEntry::is_hash_type`. -/
def CanonicalMapEntry.is_hash_type {Re : Type} : CanonicalMapEntry Re → Bool
  | .hash _ => true
  | _ => false

/-- Function `CanonicalMapHashEntry::is_type`: the table pointer of `that` when `that`
is a hash entry, nothing when `that` is `NULL` or of another type. -/
def CanonicalMapHashEntry.is_type {Re : Type} :
    Option (CanonicalMapEntry Re) → Option (Option LITERAL_HASH)
  | some (.hash hm) => some hm
  | _ => none

/-- Function `CanonicalMapHashEntry::add` on the table pointer `hm`: the new table
pointer and the returned flag. -/
def CanonicalMapHashEntry.add (hm : Option LITERAL_HASH) (name canon : Str) :
    Option LITERAL_HASH × Bool :=
  let hm := hm.getD []
  if hm.find name = none then (some (hm.assign name canon), true)
  else (some hm, false)

/-- Function `CanonicalMapRegexEntry::add` on a freshly constructed entry
(`re_options = 0`, `re = NULL`, `canonicalization = NULL`): the entry after
the call and the returned flag. The field `re_options` is not assigned. -/
def CanonicalMapRegexEntry.add {Re : Type} (P : Pcre2 Re) (pattern : Str) (options : Nat)
    (canon : Str) : CanonicalMapEntry Re × Bool :=
  match P.pcre2_compile pattern options with
  | .ok re => (.regex 0 (some re) (some canon), true)
  | .error _ => (.regex 0 none none, false)

/-- The cast `static_cast<int>` of a `PCRE2_SIZE`. -/
def toInt32 (n : Nat) : Int :=
  if n % 2 ^ 32 < 2 ^ 31 then (n % 2 ^ 32 : Nat) else ((n % 2 ^ 32 : Nat) : Int) - 2 ^ 32

/-- Modelled from the spec: `MyString::set(const char *, int)` of
MyString.cpp, called as `set(&principal[ix1], len)`; it is not among the
sources. The text of `len` characters starting at index `ix1`. -/
def MyString.set (principal : Str) (ix1 len : Int) : Str :=
  (principal.drop ix1.toNat).take len.toNat

/-- Outcome of `matches`: `some (canon, groups)` when it returns true
(having written `*pcanon` and `*groups`), `none` when it returns false
(having written nothing). -/
abbrev MatchOutcome := Option (Option Str × List Str)

/-- Function `CanonicalMapHashEntry::matches`. -/
def CanonicalMapHashEntry.matches (hm : Option LITERAL_HASH) (principal : Str) :
    Except Fault MatchOutcome :=
  match hm with
  | none => .error .nullDeref
  | some hm =>
    match hm.find principal with
    | some found => .ok (some (some found.2, [found.1]))
    | none => .ok none

/-- Function `CanonicalMapRegexEntry::matches`. -/
def CanonicalMapRegexEntry.matches {Re : Type} (P : Pcre2 Re) (re_options : Nat)
    (re : Option Re) (canonicalization : Option Str) (principal : Str) (cch : Nat) :
    Except Fault MatchOutcome :=
  match re with
  | none => .error .nullDeref
  | some re =>
    let r := P.pcre2_match re principal cch re_options
    if r.1 ≤ 0 then .ok none
    else
      .ok (some (canonicalization,
        (List.range r.1.toNat).map (fun i =>
          let ix1 := toInt32 (r.2 (i * 2))
          let ix2 := toInt32 (r.2 (i * 2 + 1))
          MyString.set principal ix1 (ix2 - ix1))))

/-- Function `CanonicalMapEntry::matches`: dispatch on `entry_type`. -/
def CanonicalMapEntry.matches {Re : Type} (P : Pcre2 Re) (entry : CanonicalMapEntry Re)
    (principal : Str) (cch : Nat) : Except Fault MatchOutcome :=
  match entry with
  | .regex re_options re canonicalization =>
    CanonicalMapRegexEntry.matches P re_options re canonicalization principal cch
  | .hash hm => CanonicalMapHashEntry.matches hm principal
  | .base => .ok none

/-- Function `MapFile::FindMapping`. -/
def FindMapping {Re : Type} (P : Pcre2 Re) :
    CanonicalMapList Re → Str → Except Fault MatchOutcome
  | [], _ => .ok none
  | entry :: next, input =>
    match entry.matches P input input.length with
    | .error f => .error f
    | .ok (some r) => .ok (some r)
    | .ok none => FindMapping P next input

/-- Function `MapFile::PerformSubstitution`. The scan `pattern[index]` is the
remaining text of the template; the empty text is the terminating NUL.
A backslash right before the terminator makes the code append `pattern[index]`,
the NUL, and then step the index beyond it. -/
def PerformSubstitution (groups : List Str) : Str → Str → Except Fault Str
  | [], output => .ok output
  | c :: rest, output =>
    if c = BACKSLASH then
      match rest with
      | [] => .error (.pastTerminator (output ++ [NUL]))
      | d :: rest2 =>
        if '0' ≤ d ∧ d ≤ '9' ∧ groups.length > d.toNat - '0'.toNat then
          PerformSubstitution groups rest2
            (output ++ groups.getD (d.toNat - '0'.toNat) [])
        else
          PerformSubstitution groups rest2 (output ++ [BACKSLASH] ++ [d])
    else
      PerformSubstitution groups rest (output ++ [c])

/-! ## The method table -/

/-- Modelled from the spec: the type `METHOD_MAP` of MapFile.h, which is not
among the sources: a mapping from method name to rule list, the key `NULL`
(`none`) being the user map; two keys are the same key when the names are
equal. The stored (key, list) pairs. `GetMapList` is the only function that
stores a list pointer and it never stores `NULL`, so the stored value is a
list and the test `found->second` of the lookups always holds. -/
abbrev METHOD_MAP (Re : Type) := List (Option Str × CanonicalMapList Re)

/-- The lookup `methods.find(method)`. -/
def METHOD_MAP.find {Re : Type} (methods : METHOD_MAP Re) (method : Option Str) :
    Option (CanonicalMapList Re) :=
  (List.find? (fun kv => kv.1 == method) methods).map (fun kv => kv.2)

/-- The assignment `methods[key] = list`. -/
def METHOD_MAP.assign {Re : Type} :
    METHOD_MAP Re → Option Str → CanonicalMapList Re → METHOD_MAP Re
  | [], key, list => [(key, list)]
  | kv :: methods, key, list =>
    if kv.1 = key then (key, list) :: methods
    else kv :: METHOD_MAP.assign methods key list

/-- Function `MapFile::GetMapList`: the method table after the call and the list
found or created for `method`. -/
def GetMapList {Re : Type} (methods : METHOD_MAP Re) (method : Option Str) :
    METHOD_MAP Re × CanonicalMapList Re :=
  match methods.find method with
  | some list => (methods, list)
  | none => (methods.assign method [], [])

/-- Function `MapFile::AddEntry`: the list after the call. -/
def AddEntry {Re : Type} (P : Pcre2 Re) (list : CanonicalMapList Re) (regex_opts : Nat)
    (principal canonicalization : Str) : CanonicalMapList Re :=
  let canon := canonicalization
  if regex_opts ≠ 0 then
    let regex_opts := regex_opts &&& (0xFFFFFFFF ^^^ PCRE2_NOTEMPTY)
    let rxme := CanonicalMapRegexEntry.add P principal regex_opts canon
    if ¬ rxme.2 then list
    else list.append rxme.1
  else
    match CanonicalMapHashEntry.is_type list.last with
    | some hm => list.dropLast ++ [.hash (CanonicalMapHashEntry.add hm principal canon).1]
    | none => list.append (.hash (CanonicalMapHashEntry.add none principal canon).1)

/-- Function `MapFile::GetCanonicalization`: the returned code and the caller's
string `canonicalization` after the call. -/
def GetCanonicalization {Re : Type} (P : Pcre2 Re) (methods : METHOD_MAP Re)
    (method principal canonicalization : Str) : Except Fault (Int × Str) :=
  match methods.find (some method) with
  | none => .ok (-1, canonicalization)
  | some list =>
    match FindMapping P list principal with
    | .error f => .error f
    | .ok none => .ok (-1, canonicalization)
    | .ok (some (pcanon, groups)) =>
      match pcanon with
      | none => .error .nullDeref
      | some pattern =>
        match PerformSubstitution groups pattern canonicalization with
        | .error f => .error f
        | .ok output => .ok (0, output)

/-- Function `MapFile::GetUser`: the returned code and the caller's string `user`
after the call. -/
def GetUser {Re : Type} (P : Pcre2 Re) (methods : METHOD_MAP Re)
    (canonicalization user : Str) : Except Fault (Int × Str) :=
  match methods.find none with
  | none => .ok (-1, user)
  | some list =>
    match FindMapping P list canonicalization with
    | .error f => .error f
    | .ok none => .ok (-1, user)
    | .ok (some (pcanon, groups)) =>
      match pcanon with
      | none => .error .nullDeref
      | some pattern =>
        match PerformSubstitution groups pattern user with
        | .error f => .error f
        | .ok output => .ok (0, output)

/-! ## The field tokenizer -/

/-- The test `' ' == c || '\t' == c || '\n' == c` of `ParseField`. -/
def isFieldSpace (c : Char) : Bool :=
  c = ' ' || c = '\t' || c = '\n'

/-- What `ParseField` leaves behind: the returned offset, the string
`field`, and the value behind `popts` (nothing when `popts` is `NULL`). -/
structure ParseResult where
  offset : Nat
  field : Str
  popts : Option Nat
  deriving DecidableEq, Repr

/-- The first loop of `ParseField`, which consumes the leading white space.
`rest` is the line from `offset` on; the result is the rest of the line and
the offset after the loop. -/
def skipLeadingSpace : Str → Nat → Str × Nat
  | [], offset => ([], offset)
  | c :: rest, offset =>
    if isFieldSpace c then skipLeadingSpace rest (offset + 1)
    else (c :: rest, offset)

/-- The loop `while ((ch = line[offset]) != 0)` of `ParseField` over the
letters after the closing slash. `rest` is the line from `offset` on;
`line[line.length()]` is NUL. -/
def scanModifiers : Str → Nat → Option Nat → Nat × Option Nat
  | [], offset, popts => (offset, popts)
  | ch :: rest, offset, popts =>
    if ch = NUL then (offset, popts)
    else if ch = 'i' then
      scanModifiers rest (offset + 1) (popts.map (fun o => o ||| PCRE2_CASELESS))
    else if ch = 'U' then
      scanModifiers rest (offset + 1) (popts.map (fun o => o ||| PCRE2_UNGREEDY))
    else (offset, popts)

/-- The main loop `while (offset < line.length())` of `ParseField`. `rest`
is the line from `offset` on. -/
def fieldLoop (multiword : Bool) (chEnd : Char) : Str → Nat → Str → Option Nat → ParseResult
  | [], offset, field, popts => ⟨offset, field, popts⟩
  | c :: rest, offset, field, popts =>
    if multiword then
      if chEnd = c then
        if chEnd = SLASH then
          let r := scanModifiers rest (offset + 1) popts
          ⟨r.1, field, r.2⟩
        else ⟨offset + 1, field, popts⟩
      else if c = BACKSLASH then
        match rest with
        | [] =>
          -- `++offset < line.length()` fails after the increment: the last
          -- branch appends `line[offset]`, the NUL at the end of the line
          ⟨offset + 1 + 1, field ++ [NUL], popts⟩
        | d :: rest2 =>
          if chEnd = d then fieldLoop multiword chEnd rest2 (offset + 1 + 1) (field ++ [d]) popts
          else if d = BACKSLASH then
            fieldLoop multiword chEnd rest2 (offset + 1 + 1) (field ++ [BACKSLASH]) popts
          else
            fieldLoop multiword chEnd rest2 (offset + 1 + 1) (field ++ [BACKSLASH] ++ [d]) popts
      else fieldLoop multiword chEnd rest (offset + 1) (field ++ [c]) popts
    else
      if isFieldSpace c then ⟨offset, field, popts⟩
      else fieldLoop multiword chEnd rest (offset + 1) (field ++ [c]) popts

/-- Function `MapFile::ParseField`. `popts` is the value behind the pointer `popts`,
`none` when the pointer is `NULL`. -/
def ParseField (line : Str) (offset : Nat) (field : Str) (popts : Option Nat) :
    Except Fault ParseResult :=
  if ¬ offset ≤ line.length then .error .assertFailed
  else
    let s := skipLeadingSpace (line.drop offset) offset
    let ch := s.1.headD NUL
    let multiword := ch = DQUOTE || ch = SLASH
    if multiword then
      if popts.isNone then
        if ch = SLASH then .ok (fieldLoop false NUL s.1 s.2 field popts)
        else .ok (fieldLoop true ch (s.1.drop 1) (s.2 + 1) field popts)
      else
        .ok (fieldLoop true ch (s.1.drop 1) (s.2 + 1) field
          (some (if ch = SLASH then PCRE2_NOTEMPTY else 0)))
    else .ok (fieldLoop false NUL s.1 s.2 field popts)

/-! ## Loading rules -/

/-- One call of `AddEntry` on a rule list: the options, the principal and
the canonicalization passed. -/
structure AddEntryCall where
  regex_opts : Nat
  principal : Str
  canonicalization : Str
  deriving DecidableEq, Repr

/-- The rule list built from the empty list by a sequence of `AddEntry`
calls. -/
def buildList {Re : Type} (P : Pcre2 Re) (calls : List AddEntryCall) : CanonicalMapList Re :=
  calls.foldl (fun list c => AddEntry P list c.regex_opts c.principal c.canonicalization) []

/-- One parsed rule: the method key (`none` for the user map) and the
arguments of `AddEntry`. -/
structure RuleLine where
  method : Option Str
  regex_opts : Nat
  principal : Str
  canonicalization : Str
  deriving DecidableEq, Repr

/-- The statements `list = GetMapList(method); ASSERT(list);
AddEntry(list, regex_opts, principal, canonicalization)` that end the loop
body of `ParseCanonicalization` and of `ParseUsermap`. `AddEntry` extends the
list through the pointer held by the table, so the table afterwards maps the
method to the extended list. -/
def loadRule {Re : Type} (P : Pcre2 Re) (methods : METHOD_MAP Re) (r : RuleLine) :
    METHOD_MAP Re :=
  let g := GetMapList methods r.method
  g.1.assign r.method (AddEntry P g.2 r.regex_opts r.principal r.canonicalization)

/-- The method table after loading a sequence of rules into `methods`. -/
def loadRules {Re : Type} (P : Pcre2 Re) (methods : METHOD_MAP Re) (rules : List RuleLine) :
    METHOD_MAP Re :=
  rules.foldl (loadRule P) methods

/-- The rule list the table holds for `key`; the empty list when the key is
absent. -/
def METHOD_MAP.listOf {Re : Type} (methods : METHOD_MAP Re) (key : Option Str) :
    CanonicalMapList Re :=
  (methods.find key).getD []

/-- Some rule matches: the table holds a list for `key` and `matches`
returns true for an entry of that list. -/
def someRuleMatches {Re : Type} (P : Pcre2 Re) (methods : METHOD_MAP Re) (key : Option Str)
    (input : Str) : Prop :=
  ∃ list, methods.find key = some list ∧
    ∃ e ∈ list, ∃ r, CanonicalMapEntry.matches P e input input.length = .ok (some r)

/-- The lookup of `input` under `key` stays within defined behaviour: every
entry of the list has its table or compiled code, and the template found is
not `NULL` and does not end in a lone backslash. -/
def lookupDefined {Re : Type} (P : Pcre2 Re) (methods : METHOD_MAP Re) (key : Option Str)
    (input output : Str) : Prop :=
  ∀ list, methods.find key = some list →
    (∀ e ∈ list, ∃ o, CanonicalMapEntry.matches P e input input.length = .ok o) ∧
    (∀ pcanon groups, FindMapping P list input = .ok (some (pcanon, groups)) →
      ∃ pattern out, pcanon = some pattern ∧
        PerformSubstitution groups pattern output = .ok out)

/-! ## Loading a source -/

/-- The conversion `c_str()` of a `std::string` whose result is read as a C
string: the text before the first NUL. -/
def c_str (s : Str) : Str :=
  s.takeWhile (fun c => c != NUL)

/-- The text `@include`. -/
def INCLUDE : Str := ['@', 'i', 'n', 'c', 'l', 'u', 'd', 'e']

/-- How a load call ends: it returns `code` with the method table as it is
then, or an `ASSERT` aborts the process, or the nesting budget of the
embedding is used up. -/
inductive LoadOutcome (Re : Type) where
  | returned (code : Int) (methods : METHOD_MAP Re)
  | aborted (fault : Fault)
  | outOfFuel

/-- Modelled from the spec: the files and directories that `@include` reaches
through `safe_fopen_wrapper_follow`, `MyStringFpSource`, `readLine`,
`StatInfo`, `get_config_dir_file_list`, `fullpath`, `condor_basename` and
`dircat`, none of which is among the sources. `readFile name` is the sequence
of lines that `readLine` delivers from the file until `isEof`, nothing when
the file cannot be opened; `isDirectory path` is `StatInfo::IsDirectory`;
`dirFileList path` is the file list of a directory, nothing when it cannot
be listed; `includePath srcname path` is the path of an `@include` line made
absolute against the directory of the including file. -/
structure FileSystem where
  readFile : Str → Option (List Str)
  isDirectory : Str → Bool
  dirFileList : Str → Option (List Str)
  includePath : Str → Str → Str

/-- The loop `while ((fname = file_list.next()))` of `ParseCanonicalization`
over the files of an included directory; `nested fname` is the call
`ParseCanonicalizationFile(fname, assume_hash, false)`, whose returned code
is ignored. -/
def includeFiles {Re : Type} (nested : Str → METHOD_MAP Re → LoadOutcome Re) :
    List Str → METHOD_MAP Re → LoadOutcome Re
  | [], methods => .returned 0 methods
  | fname :: file_list, methods =>
    match nested fname methods with
    | .returned _ methods2 => includeFiles nested file_list methods2
    | .aborted f => .aborted f
    | .outOfFuel => .outOfFuel

/-- The loop `while ( ! src.isEof())` of `ParseCanonicalization` over the
lines that `readLine` delivers; `nested name` is the call
`ParseCanonicalizationFile(name, assume_hash, false)`. -/
def canonicalizationLoop {Re : Type} (fs : FileSystem) (P : Pcre2 Re)
    (nested : Str → METHOD_MAP Re → LoadOutcome Re) (srcname : Str)
    (assume_hash allow_include : Bool) : List Str → METHOD_MAP Re → LoadOutcome Re
  | [], methods => .returned 0 methods
  | input_line :: src, methods =>
    if input_line = [] then
      canonicalizationLoop fs P nested srcname assume_hash allow_include src methods
    else
      match ParseField input_line 0 [] none with
      | .error f => .aborted f
      | .ok method =>
        if method.field = INCLUDE then
          if ¬ allow_include then
            canonicalizationLoop fs P nested srcname assume_hash allow_include src methods
          else
            match ParseField input_line method.offset [] none with
            | .error f => .aborted f
            | .ok path =>
              if path.field = [] then
                canonicalizationLoop fs P nested srcname assume_hash allow_include src methods
              else if fs.isDirectory (fs.includePath srcname (c_str path.field)) then
                match fs.dirFileList (fs.includePath srcname (c_str path.field)) with
                | none =>
                  canonicalizationLoop fs P nested srcname assume_hash allow_include src methods
                | some file_list =>
                  match includeFiles nested file_list methods with
                  | .returned _ methods2 =>
                    canonicalizationLoop fs P nested srcname assume_hash allow_include src
                      methods2
                  | .aborted f => .aborted f
                  | .outOfFuel => .outOfFuel
              else
                match nested (fs.includePath srcname (c_str path.field)) methods with
                | .returned _ methods2 =>
                  canonicalizationLoop fs P nested srcname assume_hash allow_include src
                    methods2
                | .aborted f => .aborted f
                | .outOfFuel => .outOfFuel
        else if method.field.length = 0 ∨ method.field.head? = some '#' then
          canonicalizationLoop fs P nested srcname assume_hash allow_include src methods
        else
          match ParseField input_line method.offset []
              (if assume_hash then some 0 else none) with
          | .error f => .aborted f
          | .ok principal =>
            match ParseField input_line principal.offset [] none with
            | .error f => .aborted f
            | .ok canonicalization =>
              if method.field = [] ∨ principal.field = [] ∨ canonicalization.field = [] then
                canonicalizationLoop fs P nested srcname assume_hash allow_include src methods
              else
                canonicalizationLoop fs P nested srcname assume_hash allow_include src
                  (loadRule P methods
                    ⟨some (c_str method.field),
                     principal.popts.getD (if assume_hash then 0 else PCRE2_NOTEMPTY),
                     c_str principal.field, c_str canonicalization.field⟩)

/-- Function `MapFile::ParseCanonicalization` on the lines `src` of the source
`srcname`, together with `MapFile::ParseCanonicalizationFile` for the nested
calls. The first argument bounds the nesting of calls: a call made with no
budget left ends as `outOfFuel`. -/
def ParseCanonicalization {Re : Type} (fs : FileSystem) (P : Pcre2 Re) :
    Nat → List Str → Str → Bool → Bool → METHOD_MAP Re → LoadOutcome Re
  | 0, _, _, _, _, _ => .outOfFuel
  | fuel + 1, src, srcname, assume_hash, allow_include, methods =>
    canonicalizationLoop fs P
      (fun filename methods2 =>
        match fs.readFile filename with
        | none => .returned (-1) methods2
        | some lines => ParseCanonicalization fs P fuel lines filename assume_hash false methods2)
      srcname assume_hash allow_include src methods

/-- Function `MapFile::ParseCanonicalizationFile`. -/
def ParseCanonicalizationFile {Re : Type} (fs : FileSystem) (P : Pcre2 Re) (fuel : Nat)
    (filename : Str) (assume_hash allow_include : Bool) (methods : METHOD_MAP Re) :
    LoadOutcome Re :=
  match fs.readFile filename with
  | none => .returned (-1) methods
  | some lines => ParseCanonicalization fs P fuel lines filename assume_hash allow_include methods

/-- The statement `line++` on the `int` counter of `ParseUsermap`: the value
after the increment. An `int` has 32 bits; the increment of `INT_MAX`, which
C++ leaves undefined, is taken as the wrap-around to `INT_MIN`. -/
def incrementInt (line : Int) : Int :=
  if line + 1 < 2 ^ 31 then line + 1 else line + 1 - 2 ^ 32

/-- The loop `while ( ! src.isEof())` of `ParseUsermap` over the lines that
`readLine` delivers; `line` is the `int` counter `line` before the statement
`line++`, which every pass executes first. -/
def usermapLoop {Re : Type} (P : Pcre2 Re) (assume_hash : Bool) :
    List Str → Int → METHOD_MAP Re → LoadOutcome Re
  | [], _, methods => .returned 0 methods
  | input_line :: src, line, methods =>
    if input_line = [] then usermapLoop P assume_hash src (incrementInt line) methods
    else
      match ParseField input_line 0 [] (if assume_hash then some 0 else none) with
      | .error f => .aborted f
      | .ok canonicalization =>
        if canonicalization.field.length = 0 ∨ canonicalization.field.head? = some '#' then
          usermapLoop P assume_hash src (incrementInt line) methods
        else
          match ParseField input_line canonicalization.offset [] none with
          | .error f => .aborted f
          | .ok user =>
            if canonicalization.field = [] ∨ user.field = [] then
              .returned (incrementInt line) methods
            else
              usermapLoop P assume_hash src (incrementInt line)
                (loadRule P methods
                  ⟨none, canonicalization.popts.getD (if assume_hash then 0 else PCRE2_NOTEMPTY),
                   c_str canonicalization.field, c_str user.field⟩)

/-- Function `MapFile::ParseUsermap` on the lines `src`. -/
def ParseUsermap {Re : Type} (P : Pcre2 Re) (src : List Str) (assume_hash : Bool)
    (methods : METHOD_MAP Re) : LoadOutcome Re :=
  usermapLoop P assume_hash src 0 methods

/-- Sequencing of loads: when `first` returns, the load `next` goes on from
the table it left; an abort or an exhausted budget ends both. -/
def LoadOutcome.andThen {Re : Type} (first : LoadOutcome Re)
    (next : METHOD_MAP Re → LoadOutcome Re) : LoadOutcome Re :=
  match first with
  | .returned _ methods => next methods
  | .aborted f => .aborted f
  | .outOfFuel => .outOfFuel

/-! ## What one line of a source contributes -/

/-- Whether `ParseCanonicalization` reads the line as an `@include` line:
its first field is the text `@include`. -/
def isIncludeLine (input_line : Str) : Bool :=
  match ParseField input_line 0 [] none with
  | .ok method => decide (method.field = INCLUDE)
  | .error _ => false

/-- What a line that is not an `@include` line contributes in
`ParseCanonicalization`: a fault when an `ASSERT` of `ParseField` fails,
nothing when the line is empty, blank, a comment or lacks a field, else the
rule handed to `GetMapList` and `AddEntry`. -/
def canonicalizationRule (assume_hash : Bool) (input_line : Str) :
    Except Fault (Option RuleLine) :=
  if input_line = [] then .ok none
  else
    match ParseField input_line 0 [] none with
    | .error f => .error f
    | .ok method =>
      if method.field.length = 0 ∨ method.field.head? = some '#' then .ok none
      else
        match ParseField input_line method.offset [] (if assume_hash then some 0 else none) with
        | .error f => .error f
        | .ok principal =>
          match ParseField input_line principal.offset [] none with
          | .error f => .error f
          | .ok canonicalization =>
            if method.field = [] ∨ principal.field = [] ∨ canonicalization.field = [] then
              .ok none
            else
              .ok (some
                ⟨some (c_str method.field),
                 principal.popts.getD (if assume_hash then 0 else PCRE2_NOTEMPTY),
                 c_str principal.field, c_str canonicalization.field⟩)

/-- The rule that `ParseCanonicalization` takes from a line that is not an
`@include` line, nothing for a line without rule. -/
def canonicalizationRule? (assume_hash : Bool) (input_line : Str) : Option RuleLine :=
  match canonicalizationRule assume_hash input_line with
  | .ok r => r
  | .error _ => none

/-- A line of a canonicalization source that is not an `@include` line and in
which no `ASSERT` of `ParseField` fails. -/
def canonicalizationLinePlain (assume_hash : Bool) (input_line : Str) : Prop :=
  isIncludeLine input_line = false
    ∧ ∃ r, canonicalizationRule assume_hash input_line = .ok r

/-- What `ParseUsermap` does with one line. -/
inductive UsermapLine where
  /-- The line is empty, blank or a comment: the loop continues. -/
  | skipped
  /-- The key field is there and the user field is empty: the call returns
  the line number. -/
  | malformed
  /-- The rule handed to `GetMapList` and `AddEntry`. -/
  | rule (r : RuleLine)
  deriving DecidableEq, Repr

/-- What one line contributes in `ParseUsermap`, or the fault when an
`ASSERT` of `ParseField` fails. -/
def usermapLine (assume_hash : Bool) (input_line : Str) : Except Fault UsermapLine :=
  if input_line = [] then .ok .skipped
  else
    match ParseField input_line 0 [] (if assume_hash then some 0 else none) with
    | .error f => .error f
    | .ok canonicalization =>
      if canonicalization.field.length = 0 ∨ canonicalization.field.head? = some '#' then
        .ok .skipped
      else
        match ParseField input_line canonicalization.offset [] none with
        | .error f => .error f
        | .ok user =>
          if canonicalization.field = [] ∨ user.field = [] then .ok .malformed
          else
            .ok (.rule
              ⟨none, canonicalization.popts.getD (if assume_hash then 0 else PCRE2_NOTEMPTY),
               c_str canonicalization.field, c_str user.field⟩)

/-- The rule of a line of `ParseUsermap`, nothing for a line without rule. -/
def UsermapLine.rule? : UsermapLine → Option RuleLine
  | .rule r => some r
  | _ => none

/-- The rule that `ParseUsermap` takes from a line, nothing for a line
without rule. -/
def usermapRule? (assume_hash : Bool) (input_line : Str) : Option RuleLine :=
  match usermapLine assume_hash input_line with
  | .ok line => line.rule?
  | .error _ => none

/-- A line that `ParseUsermap` passes: it is skipped or it gives a rule. -/
def usermapLineAccepted (assume_hash : Bool) (input_line : Str) : Prop :=
  usermapLine assume_hash input_line = .ok .skipped
    ∨ ∃ r, usermapLine assume_hash input_line = .ok (.rule r)

/-- The last entry of the list is a literal group that holds the key. -/
def lastGroupHasKey {Re : Type} (list : CanonicalMapList Re) (key : Str) : Prop :=
  ∃ hm, list.last = some (.hash (some hm)) ∧ hm.find key ≠ none

/-- A bare word of a map file: a non-empty text without space, tab, newline
or NUL that does not start with a double quote. -/
def bareWord (w : Str) : Prop :=
  w ≠ [] ∧ (∀ c ∈ w, isFieldSpace c = false) ∧ NUL ∉ w ∧ w.head? ≠ some DQUOTE

instance bareWord.decidable (w : Str) : Decidable (bareWord w) :=
  inferInstanceAs
    (Decidable (w ≠ [] ∧ (∀ c ∈ w, isFieldSpace c = false) ∧ NUL ∉ w ∧ w.head? ≠ some DQUOTE))

/-- The first pair with the key `x`, as the outcome of a lookup: the template
is the value of the pair and the only group is its key. -/
def firstLiteral (entries : List (Str × Str)) (x : Str) : Except Fault MatchOutcome :=
  .ok ((entries.find? (fun e => e.1 == x)).map (fun e => (some e.2, [e.1])))

/-! ## The text inside a quoted or regex field -/

/-- One element of the text between the delimiters of a quoted or regex
field, as the tokenizer reads it: a character that is neither the delimiter
nor a backslash, or a backslash together with the character behind it. -/
inductive FieldToken where
  | plain (c : Char)
  | escaped (d : Char)
  deriving DecidableEq, Repr

/-- The characters of the line that make up the token. -/
def FieldToken.source : FieldToken → Str
  | .plain c => [c]
  | .escaped d => [BACKSLASH, d]

/-- What the token stands for in a field closed by `chEnd`: backslash and
delimiter stand for the delimiter, two backslashes for one backslash, any
other pair and any plain character for themselves. -/
def FieldToken.value (chEnd : Char) : FieldToken → Str
  | .plain c => [c]
  | .escaped d =>
    if d = chEnd then [d] else if d = BACKSLASH then [BACKSLASH] else [BACKSLASH, d]

/-- A plain token is neither the delimiter nor a backslash. -/
def FieldToken.wellFormed (chEnd : Char) : FieldToken → Prop
  | .plain c => c ≠ chEnd ∧ c ≠ BACKSLASH
  | .escaped _ => True

instance FieldToken.decidableWellFormed (chEnd : Char) :
    (t : FieldToken) → Decidable (t.wellFormed chEnd)
  | .plain c => inferInstanceAs (Decidable (c ≠ chEnd ∧ c ≠ BACKSLASH))
  | .escaped _ => inferInstanceAs (Decidable True)

/-- The characters of the line that make up a sequence of tokens. -/
def tokensSource : List FieldToken → Str
  | [] => []
  | t :: ts => t.source ++ tokensSource ts

/-- The text a sequence of tokens stands for. -/
def tokensValue (chEnd : Char) : List FieldToken → Str
  | [] => []
  | t :: ts => t.value chEnd ++ tokensValue chEnd ts

/-- The options of a regex literal: require-non-empty, with case-insensitive
and ungreedy as selected. -/
def modifierOptions (caseless ungreedy : Bool) : Nat :=
  PCRE2_NOTEMPTY ||| (if caseless then PCRE2_CASELESS else 0)
    ||| (if ungreedy then PCRE2_UNGREEDY else 0)

/-! ## Reference lookup without coalescing -/

/-- A rule of the reference list: a literal rule of its own, or a pattern
rule holding the regex entry that `CanonicalMapRegexEntry::add` produced. -/
inductive NaiveRule (Re : Type) where
  | literal (key value : Str)
  | pattern (rxme : CanonicalMapEntry Re)

/-- Whether a reference rule matches: a literal rule `(k, v)` exactly when
the principal is `k`, with template `v` and groups `[k]`; a pattern rule
when its regex entry matches. -/
def NaiveRule.matches {Re : Type} (P : Pcre2 Re) (rule : NaiveRule Re) (principal : Str) :
    Except Fault MatchOutcome :=
  match rule with
  | .literal k v => .ok (if principal = k then some (some v, [k]) else none)
  | .pattern rxme => rxme.matches P principal principal.length

/-- The reference lookup: the first rule, in list order, that matches. -/
def naiveFind {Re : Type} (P : Pcre2 Re) : List (NaiveRule Re) → Str → Except Fault MatchOutcome
  | [], _ => .ok none
  | rule :: rules, principal =>
    match rule.matches P principal with
    | .error f => .error f
    | .ok (some r) => .ok (some r)
    | .ok none => naiveFind P rules principal

/-- Whether a reference rule is a literal rule. -/
def NaiveRule.isLiteral {Re : Type} : NaiveRule Re → Bool
  | .literal _ _ => true
  | .pattern _ => false

/-- The key of a literal reference rule. -/
def NaiveRule.key {Re : Type} : NaiveRule Re → Option Str
  | .literal k _ => some k
  | .pattern _ => none

/-- The keys of the literal rules that follow the last pattern rule of a
reference list. -/
def recentKeys {Re : Type} (rules : List (NaiveRule Re)) : List Str :=
  (rules.reverse.takeWhile NaiveRule.isLiteral).filterMap NaiveRule.key

/-- The reference list after one `AddEntry` call. A pattern that compiles
and every literal become one element each, in call order; when
`skipDuplicates` is set, a literal whose key repeats one of the literals
added since the last pattern (the rule that `CanonicalMapHashEntry::add`
rejects) is left out. -/
def naiveAdd {Re : Type} (P : Pcre2 Re) (skipDuplicates : Bool) (rules : List (NaiveRule Re))
    (c : AddEntryCall) : List (NaiveRule Re) :=
  if c.regex_opts ≠ 0 then
    let rxme := CanonicalMapRegexEntry.add P c.principal
      (c.regex_opts &&& (0xFFFFFFFF ^^^ PCRE2_NOTEMPTY)) c.canonicalization
    if rxme.2 then rules ++ [.pattern rxme.1] else rules
  else if skipDuplicates ∧ c.principal ∈ recentKeys rules then rules
  else rules ++ [.literal c.principal c.canonicalization]

/-- The reference list of a sequence of `AddEntry` calls. -/
def naiveBuild {Re : Type} (P : Pcre2 Re) (skipDuplicates : Bool) (calls : List AddEntryCall) :
    List (NaiveRule Re) :=
  calls.foldl (naiveAdd P skipDuplicates) []

/-- The lookup of `first` when it decides (a match or a fault), else that
of `second`. -/
def MatchOutcome.orElse (first second : Except Fault MatchOutcome) : Except Fault MatchOutcome :=
  match first with
  | .ok none => second
  | r => r

/-- A rule list none of whose hash entries lacks its table. -/
def tablesAllocated {Re : Type} (list : CanonicalMapList Re) : Prop :=
  ∀ e ∈ list, e ≠ CanonicalMapEntry.hash none

/-! ## Quoting -/

/-- The quoting `esc`: every backslash becomes two backslashes and every
double quote becomes backslash, double quote. -/
def escapeQuoted : Str → Str
  | [] => []
  | c :: s =>
    if c = BACKSLASH then BACKSLASH :: BACKSLASH :: escapeQuoted s
    else if c = DQUOTE then BACKSLASH :: DQUOTE :: escapeQuoted s
    else c :: escapeQuoted s

/-! ## A stand-in for PCRE2 in examples -/

/-- A small regular-expression engine for examples. The compiled code is the
pattern text; the pattern `(` does not compile (error 114 at offset 1); the
pattern `.*` matches every subject and any other pattern matches the subject
equal to it; the only group is the whole subject. -/
def examplePcre2 : Pcre2 Str where
  pcre2_compile := fun pattern _ =>
    if pattern = ['('] then .error (114, 1) else .ok pattern
  pcre2_match := fun re subject cch _ =>
    if re = ['.', '*'] ∨ re = subject then (1, fun i => if i = 0 then 0 else cch)
    else (-1, fun _ => 0)

/-- The regular expression `^(.*)@EXAMPLE\.COM$` of the example. -/
def exampleKerberosRegex : Str :=
  "^(.*)@EXAMPLE".toList ++ BACKSLASH :: ".COM$".toList

/-- The line `KERBEROS /^(.*)@EXAMPLE\.COM$/ \1` of the example. -/
def exampleKerberosLine : Str :=
  "KERBEROS /".toList ++ exampleKerberosRegex ++ "/ ".toList ++ [BACKSLASH, '1']

/-- The line `KERBEROS someuser unused` of the example. -/
def exampleSomeuserLine : Str := "KERBEROS someuser unused".toList

/-- A file system without files and directories, for examples. -/
def exampleFileSystem : FileSystem where
  readFile := fun _ => none
  isDirectory := fun _ => false
  dirFileList := fun _ => none
  includePath := fun _ path => path

deriving instance DecidableEq for CanonicalMapEntry

deriving instance DecidableEq for LoadOutcome

/-! ## Accounting and reset -/

/-- The counters `cRegex`, `cHash` and `cEntries` of `MapFile::size`, each a
`size_t` that starts at 0. -/
structure SizeCounters where
  cRegex : Nat
  cHash : Nat
  cEntries : Nat
  deriving DecidableEq, Repr

/-- The loop `while (item)` of `MapFile::size` over the items of one list:
every item counts as an entry, a hash item adds `hm->size()` keys when its
table is there, an item of type 1 counts as a regex. -/
def sizeItems {Re : Type} : CanonicalMapList Re → SizeCounters → SizeCounters
  | [], c => c
  | item :: next, c =>
    let c : SizeCounters := ⟨c.cRegex, c.cHash, c.cEntries + 1⟩
    if item.is_hash_type then
      match item with
      | .hash (some hm) => sizeItems next ⟨c.cRegex, c.cHash + hm.length, c.cEntries⟩
      | _ => sizeItems next c
    else
      match item with
      | .regex _ _ _ => sizeItems next ⟨c.cRegex + 1, c.cHash, c.cEntries⟩
      | _ => sizeItems next c

/-- The loop of `MapFile::size` over the method table. -/
def sizeMethods {Re : Type} : METHOD_MAP Re → SizeCounters → SizeCounters
  | [], c => c
  | it :: methods, c => sizeMethods methods (sizeItems it.2 c)

/-- Modelled from the spec: the structure `MapFileUsage` of MapFile.h, which
is not among the sources; the fields that `size` fills from its counters and
from `methods.size()`, each through the cast `(int)`. The byte and allocation
counts `cbStrings`, `cbStructs`, `cbWaste` and `cAllocations` come from
`sizeof`, the string pool and `pcre2_pattern_info` and are left out. -/
structure MapFileUsage where
  cRegex : Int
  cHash : Int
  cEntries : Int
  cMethods : Int
  deriving DecidableEq, Repr

/-- Function `MapFile::size`: the returned value `(int)(cRegex + cHash)` and
what it writes to `*pusage` when `pusage` is given. -/
def size {Re : Type} (methods : METHOD_MAP Re) : Int × MapFileUsage :=
  let c := sizeMethods methods ⟨0, 0, 0⟩
  (toInt32 (c.cRegex + c.cHash),
    ⟨toInt32 c.cRegex, toInt32 c.cHash, toInt32 c.cEntries, toInt32 methods.length⟩)

/-- Function `MapFile::reset`: the loop takes the entries of the method table
in turn, deletes the items of the list, erases the entry from the table and
deletes the list. The strings stay in the pool; the embedding holds them by
value. -/
def reset {Re : Type} : METHOD_MAP Re → METHOD_MAP Re
  | [] => []
  | _ :: methods => reset methods

/-- Function `MapFile::clear`: `reset()`, then the pool is emptied. -/
def clear {Re : Type} (methods : METHOD_MAP Re) : METHOD_MAP Re :=
  reset methods

/-- The flag that the `add` call made by `AddEntry` returns:
`CanonicalMapRegexEntry::add` for a pattern, `CanonicalMapHashEntry::add` for
a literal. It is true when the call stores a rule. -/
def AddEntry.stored {Re : Type} (P : Pcre2 Re) (list : CanonicalMapList Re) (regex_opts : Nat)
    (principal canonicalization : Str) : Bool :=
  if regex_opts ≠ 0 then
    (CanonicalMapRegexEntry.add P principal (regex_opts &&& (0xFFFFFFFF ^^^ PCRE2_NOTEMPTY))
      canonicalization).2
  else
    match CanonicalMapHashEntry.is_type list.last with
    | some hm => (CanonicalMapHashEntry.add hm principal canonicalization).2
    | none => (CanonicalMapHashEntry.add none principal canonicalization).2

/-- The number of rules of a sequence, loaded into `methods` in order, whose
`AddEntry` call stores a rule. -/
def storedRules {Re : Type} (P : Pcre2 Re) : METHOD_MAP Re → List RuleLine → Nat
  | _, [] => 0
  | methods, r :: rules =>
    (if AddEntry.stored P (GetMapList methods r.method).2 r.regex_opts r.principal
        r.canonicalization then 1 else 0)
      + storedRules P (loadRule P methods r) rules

/-- The number of pattern rules an entry holds: 1 for a regex entry. -/
def CanonicalMapEntry.patterns {Re : Type} : CanonicalMapEntry Re → Nat
  | .regex _ _ _ => 1
  | _ => 0

/-- The number of literal rules an entry holds: the keys of a literal
group. -/
def CanonicalMapEntry.keys {Re : Type} : CanonicalMapEntry Re → Nat
  | .hash (some hm) => hm.length
  | _ => 0

/-- The number of pattern entries in all lists of the method table, the user
map included. -/
def totalPatterns {Re : Type} (methods : METHOD_MAP Re) : Nat :=
  (methods.map (fun it => (it.2.map CanonicalMapEntry.patterns).sum)).sum

/-- The number of keys in all literal groups of the method table, the user
map included. -/
def totalKeys {Re : Type} (methods : METHOD_MAP Re) : Nat :=
  (methods.map (fun it => (it.2.map CanonicalMapEntry.keys).sum)).sum

/-- The number of list positions in all lists of the method table. -/
def totalEntries {Re : Type} (methods : METHOD_MAP Re) : Nat :=
  (methods.map (fun it => it.2.length)).sum

/-! ## Blank lines, comment lines and include lines -/

/-- A blank or comment line of a map file, read with the options pointer
`popts` for its first field: the line is empty, or holds only spaces, tabs
and newlines, or its first field starts with `#`. -/
def blankOrComment (popts : Option Nat) (input_line : Str) : Prop :=
  input_line = []
    ∨ (∀ c ∈ input_line, isFieldSpace c = true)
    ∨ ∃ first, ParseField input_line 0 [] popts = .ok first ∧ first.field.head? = some '#'

/-- A file system for examples in which every path is a file that holds an
`@include` of the file `map` and one rule. -/
def exampleLoopFileSystem : FileSystem where
  readFile := fun _ => some ["@include map".toList, "FS alice A".toList]
  isDirectory := fun _ => false
  dirFileList := fun _ => none
  includePath := fun _ path => path

/-- A regular-expression engine for examples that shows the options it is
given. The compiled code is the pattern text with the options of the compile
call; the pattern `.*` matches every subject, the empty subject only when
`PCRE2_NOTEMPTY` is not among the options of the match call; no other
pattern matches. -/
def optionsPcre2 : Pcre2 (Str × Nat) where
  pcre2_compile := fun pattern options => .ok (pattern, options)
  pcre2_match := fun re _ cch options =>
    if re.1 = ['.', '*'] ∧ ¬ (cch = 0 ∧ options &&& PCRE2_NOTEMPTY ≠ 0) then
      (1, fun i => if i = 0 then 0 else cch)
    else (-1, fun _ => 0)

/-! ## The rule-list invariant and the pointers of a list -/

/-- The invariant of a rule list: no two neighbours are both hash entries, and
every hash entry has its table, with at least one key and no key twice. -/
def ruleListInvariant {Re : Type} (list : CanonicalMapList Re) : Prop :=
  List.Chain' (fun a b => ¬ (a.is_hash_type = true ∧ b.is_hash_type = true)) list
    ∧ ∀ e ∈ list, e.is_hash_type = true →
        ∃ hm : LITERAL_HASH, e = .hash (some hm) ∧ hm ≠ [] ∧ (hm.map Prod.fst).Nodup

/-- The pointers of class `CanonicalMapList` and the field `next` of the
entries, the entries named by their addresses; `none` is `NULL`. -/
structure ListPointers where
  first : Option Nat
  last : Option Nat
  next : Nat → Option Nat

/-- Constructor `CanonicalMapList()`: `first(NULL), last(NULL)`. -/
def ListPointers.empty : ListPointers := ⟨none, none, fun _ => none⟩

/-- Function `CanonicalMapList::append` on the pointers, for an `item` that is
not `NULL`: the assertion, then `first = item` or `last->next = item`, then
`last = item; item->next = NULL`. -/
def ListPointers.append (l : ListPointers) (item : Nat) : Except Fault ListPointers :=
  if some item = l.first ∨ some item = l.last then .error .assertFailed
  else
    match l.first with
    | none => .ok ⟨some item, some item, fun a => if a = item then none else l.next a⟩
    | some first =>
      match l.last with
      | none => .error .nullDeref
      | some last =>
        .ok ⟨some first, some item,
          fun a => if a = item then none else if a = last then some item else l.next a⟩

/-- The calls `append(item)` for the items of a sequence, in order. -/
def ListPointers.appendAll : ListPointers → List Nat → Except Fault ListPointers
  | l, [] => .ok l
  | l, item :: items =>
    match l.append item with
    | .ok l2 => ListPointers.appendAll l2 items
    | .error f => .error f

/-- The entries reached from the pointer `p` by following `next`, at most
`fuel` of them. -/
def ListPointers.entries (next : Nat → Option Nat) : Nat → Option Nat → List Nat
  | 0, _ => []
  | _ + 1, none => []
  | fuel + 1, some a => a :: ListPointers.entries next fuel (next a)

/-- The pointer `p` starts a chain of `next` fields that passes the entries
`items` in order and ends with `NULL`. -/
def ListPointers.chain (next : Nat → Option Nat) : Option Nat → List Nat → Prop
  | p, [] => p = none
  | p, a :: items => p = some a ∧ ListPointers.chain next (next a) items

/-! # Theorems -/

/-! ## Lemmas: `PerformSubstitution` -/

theorem PerformSubstitution_char (groups : List Str) (c : Char) (T out : Str)
    (hc : c ≠ BACKSLASH) :
    PerformSubstitution groups (c :: T) out = PerformSubstitution groups T (out ++ [c]) := by
  cases T <;> simp [PerformSubstitution, hc]

theorem PerformSubstitution_hit (groups : List Str) (d : Char) (T out : Str)
    (h : '0' ≤ d ∧ d ≤ '9' ∧ groups.length > d.toNat - '0'.toNat) :
    PerformSubstitution groups (BACKSLASH :: d :: T) out
      = PerformSubstitution groups T (out ++ groups.getD (d.toNat - '0'.toNat) []) := by
  rw [PerformSubstitution]
  simp only [if_true]
  rw [if_pos h]

theorem PerformSubstitution_miss (groups : List Str) (d : Char) (T out : Str)
    (h : ¬ ('0' ≤ d ∧ d ≤ '9' ∧ groups.length > d.toNat - '0'.toNat)) :
    PerformSubstitution groups (BACKSLASH :: d :: T) out
      = PerformSubstitution groups T (out ++ [BACKSLASH] ++ [d]) := by
  rw [PerformSubstitution]
  simp only [if_true]
  rw [if_neg h]

theorem PerformSubstitution_compose (groups : List Str) (P out : Str) :
    ∀ (T o : Str), PerformSubstitution groups P out = .ok o →
      PerformSubstitution groups (P ++ T) out = PerformSubstitution groups T o := by
  induction P, out using PerformSubstitution.induct groups with
  | case1 output =>
    intro T o h
    simp only [PerformSubstitution, Except.ok.injEq] at h
    subst h; rfl
  | case2 output =>
    intro T o h
    simp [PerformSubstitution] at h
  | case3 output d rest2 hd ih =>
    intro T o h
    rw [PerformSubstitution_hit groups d _ _ hd] at h
    rw [List.cons_append, List.cons_append, PerformSubstitution_hit groups d _ _ hd]
    exact ih T o h
  | case4 output d rest2 hd ih =>
    intro T o h
    rw [PerformSubstitution_miss groups d _ _ hd] at h
    rw [List.cons_append, List.cons_append, PerformSubstitution_miss groups d _ _ hd]
    exact ih T o h
  | case5 c rest output hc ih =>
    intro T o h
    rw [PerformSubstitution_char groups c _ _ hc] at h
    rw [List.cons_append, PerformSubstitution_char groups c _ _ hc]
    exact ih T o h

theorem PerformSubstitution_plain (groups : List Str) (P : Str) :
    ∀ out : Str, BACKSLASH ∉ P → PerformSubstitution groups P out = .ok (out ++ P) := by
  induction P with
  | nil => intro out _; simp [PerformSubstitution]
  | cons c rest ih =>
    intro out h
    have hc : c ≠ BACKSLASH := fun e => h (by simp [e])
    have hr : BACKSLASH ∉ rest := fun e => h (by simp [e])
    rw [PerformSubstitution_char groups c _ _ hc, ih _ hr]
    simp

/-! ## Lemmas: `FindMapping` -/

theorem FindMapping_cons {Re : Type} (P : Pcre2 Re) (e : CanonicalMapEntry Re)
    (l : CanonicalMapList Re) (p : Str) :
    FindMapping P (e :: l) p =
      match e.matches P p p.length with
      | .error f => .error f
      | .ok (some r) => .ok (some r)
      | .ok none => FindMapping P l p := by
  rw [FindMapping]

theorem FindMapping_eq_some_iff {Re : Type} (P : Pcre2 Re) (list : CanonicalMapList Re)
    (p : Str) (r : Option Str × List Str) :
    FindMapping P list p = .ok (some r) ↔
      ∃ pre e post, list = pre ++ e :: post ∧
        (∀ x ∈ pre, x.matches P p p.length = .ok none) ∧
        e.matches P p p.length = .ok (some r) := by
  induction list with
  | nil => simp [FindMapping]
  | cons a l ih =>
    rw [FindMapping_cons]
    constructor
    · intro h
      split at h
      · cases h
      · rename_i r2 hr
        simp only [Except.ok.injEq, Option.some.injEq] at h
        subst h
        exact ⟨[], a, l, rfl, by simp, hr⟩
      · rename_i hr
        obtain ⟨pre, e, post, hl, hpre, he⟩ := ih.mp h
        refine ⟨a :: pre, e, post, by simp [hl], ?_, he⟩
        intro x hx
        rcases List.mem_cons.mp hx with rfl | hx
        · exact hr
        · exact hpre x hx
    · rintro ⟨pre, e, post, hl, hpre, he⟩
      cases pre with
      | nil =>
        simp only [List.nil_append, List.cons.injEq] at hl
        obtain ⟨rfl, rfl⟩ := hl
        rw [he]
      | cons b pre =>
        simp only [List.cons_append, List.cons.injEq] at hl
        obtain ⟨rfl, rfl⟩ := hl
        rw [hpre a (by simp)]
        exact ih.mpr ⟨pre, e, post, rfl, fun x hx => hpre x (by simp [hx]), he⟩

theorem FindMapping_eq_none_iff {Re : Type} (P : Pcre2 Re) (list : CanonicalMapList Re)
    (p : Str) :
    FindMapping P list p = .ok none ↔ ∀ e ∈ list, e.matches P p p.length = .ok none := by
  induction list with
  | nil => simp [FindMapping]
  | cons a l ih =>
    rw [FindMapping_cons]
    constructor
    · intro h
      split at h
      · cases h
      · cases h
      · rename_i hr
        intro e he
        rcases List.mem_cons.mp he with rfl | he
        · exact hr
        · exact ih.mp h e he
    · intro h
      rw [h a (by simp)]
      exact ih.mpr fun e he => h e (by simp [he])

theorem FindMapping_total {Re : Type} (P : Pcre2 Re) (list : CanonicalMapList Re) (p : Str)
    (h : ∀ e ∈ list, ∃ o, e.matches P p p.length = .ok o) :
    ∃ o, FindMapping P list p = .ok o := by
  induction list with
  | nil => exact ⟨none, rfl⟩
  | cons a l ih =>
    rw [FindMapping_cons]
    obtain ⟨o, ho⟩ := h a (by simp)
    rw [ho]
    cases o with
    | none => exact ih fun e he => h e (by simp [he])
    | some r => exact ⟨some r, rfl⟩

/-! ## Lemmas: sequencing of lookups, literal tables -/

theorem orElse_ok_none_right (a : Except Fault MatchOutcome) :
    MatchOutcome.orElse a (.ok none) = a := by
  unfold MatchOutcome.orElse
  split <;> rfl

theorem orElse_ok_none_left (b : Except Fault MatchOutcome) :
    MatchOutcome.orElse (.ok none) b = b := rfl

theorem orElse_assoc (a b c : Except Fault MatchOutcome) :
    MatchOutcome.orElse (MatchOutcome.orElse a b) c
      = MatchOutcome.orElse a (MatchOutcome.orElse b c) := by
  rcases a with f | (_ | r) <;> rfl

theorem orElse_of_ne_none (a b : Except Fault MatchOutcome) (h : a ≠ .ok none) :
    MatchOutcome.orElse a b = a := by
  rcases a with f | (_ | r)
  · rfl
  · exact absurd rfl h
  · rfl

theorem FindMapping_cons_orElse {Re : Type} (P : Pcre2 Re) (e : CanonicalMapEntry Re)
    (l : CanonicalMapList Re) (p : Str) :
    FindMapping P (e :: l) p
      = MatchOutcome.orElse (e.matches P p p.length) (FindMapping P l p) := by
  rw [FindMapping_cons]
  rcases e.matches P p p.length with f | (_ | r) <;> rfl

theorem FindMapping_append {Re : Type} (P : Pcre2 Re) (l1 l2 : CanonicalMapList Re) (p : Str) :
    FindMapping P (l1 ++ l2) p
      = MatchOutcome.orElse (FindMapping P l1 p) (FindMapping P l2 p) := by
  induction l1 with
  | nil => rfl
  | cons e l ih =>
    rw [List.cons_append, FindMapping_cons_orElse, FindMapping_cons_orElse, ih, orElse_assoc]

theorem FindMapping_singleton {Re : Type} (P : Pcre2 Re) (e : CanonicalMapEntry Re) (p : Str) :
    FindMapping P [e] p = e.matches P p p.length := by
  rw [FindMapping_cons_orElse]
  exact orElse_ok_none_right _

theorem naiveFind_cons_orElse {Re : Type} (P : Pcre2 Re) (r : NaiveRule Re)
    (l : List (NaiveRule Re)) (p : Str) :
    naiveFind P (r :: l) p = MatchOutcome.orElse (r.matches P p) (naiveFind P l p) := by
  rw [naiveFind]
  rcases r.matches P p with f | (_ | x) <;> rfl

theorem naiveFind_append {Re : Type} (P : Pcre2 Re) (l1 l2 : List (NaiveRule Re)) (p : Str) :
    naiveFind P (l1 ++ l2) p
      = MatchOutcome.orElse (naiveFind P l1 p) (naiveFind P l2 p) := by
  induction l1 with
  | nil => rfl
  | cons e l ih =>
    rw [List.cons_append, naiveFind_cons_orElse, naiveFind_cons_orElse, ih, orElse_assoc]

theorem naiveFind_singleton {Re : Type} (P : Pcre2 Re) (r : NaiveRule Re) (p : Str) :
    naiveFind P [r] p = r.matches P p := by
  rw [naiveFind_cons_orElse]
  exact orElse_ok_none_right _

/-- The table after `assign` of a key that `find` does not find. -/
theorem LITERAL_HASH_assign_of_find_none (hm : LITERAL_HASH) (k v : Str)
    (h : hm.find k = none) : hm.assign k v = hm ++ [(k, v)] := by
  induction hm with
  | nil => rfl
  | cons kv hm ih =>
    have hk : kv.1 ≠ k := by
      intro e
      simp [LITERAL_HASH.find, List.find?, e] at h
    have hr : LITERAL_HASH.find hm k = none := by
      unfold LITERAL_HASH.find at h ⊢
      rwa [List.find?_cons_of_neg _ (by simpa using hk)] at h
    simp [LITERAL_HASH.assign, hk, ih hr]

theorem LITERAL_HASH_find_append (hm : LITERAL_HASH) (k v p : Str) :
    LITERAL_HASH.find (hm ++ [(k, v)]) p
      = match hm.find p with
        | some x => some x
        | none => if k = p then some (k, v) else none := by
  unfold LITERAL_HASH.find
  rw [List.find?_append]
  cases List.find? (fun kv => kv.1 == p) hm with
  | some x => rfl
  | none =>
    by_cases hkp : k = p
    · simp [hkp]
    · have hb : (k == p) = false := by simpa using hkp
      simp [List.find?, hkp, hb]

theorem hash_matches_add (hm : LITERAL_HASH) (k v p : Str) :
    CanonicalMapHashEntry.matches (CanonicalMapHashEntry.add (some hm) k v).1 p
      = MatchOutcome.orElse (CanonicalMapHashEntry.matches (some hm) p)
          (.ok (if p = k then some (some v, [k]) else none)) := by
  unfold CanonicalMapHashEntry.add
  simp only [Option.getD_some]
  by_cases hf : hm.find k = none
  · rw [if_pos hf]
    simp only [CanonicalMapHashEntry.matches]
    rw [LITERAL_HASH_assign_of_find_none hm k v hf, LITERAL_HASH_find_append]
    cases hm.find p with
    | some x => rfl
    | none =>
      by_cases hkp : k = p
      · subst hkp; simp [MatchOutcome.orElse]
      · have : ¬ p = k := fun e => hkp e.symm
        simp [MatchOutcome.orElse, hkp, this]
  · rw [if_neg hf]
    simp only [CanonicalMapHashEntry.matches]
    by_cases hpk : p = k
    · subst hpk
      cases hfp : hm.find p with
      | none => exact absurd hfp hf
      | some x => rfl
    · simp only [if_neg hpk]
      exact (orElse_ok_none_right _).symm

theorem hash_matches_add_none (k v p : Str) :
    CanonicalMapHashEntry.matches (CanonicalMapHashEntry.add none k v).1 p
      = .ok (if p = k then some (some v, [k]) else none) := by
  by_cases hpk : p = k
  · subst hpk
    simp [CanonicalMapHashEntry.add, CanonicalMapHashEntry.matches, LITERAL_HASH.find,
      LITERAL_HASH.assign, List.find?]
  · have hkp : ¬ k = p := fun e => hpk e.symm
    simp only [CanonicalMapHashEntry.add, Option.getD_none, LITERAL_HASH.find, List.find?_nil,
      if_true, LITERAL_HASH.assign, CanonicalMapHashEntry.matches, if_neg hpk]
    rw [List.find?_cons_of_neg _ (by simpa using hkp)]
    rfl

/-! ## Lemmas: `AddEntry` -/

theorem naiveAdd_eq_append {Re : Type} (P : Pcre2 Re) (rules : List (NaiveRule Re))
    (c : AddEntryCall) : naiveAdd P false rules c = rules ++ naiveAdd P false [] c := by
  unfold naiveAdd
  by_cases h : c.regex_opts ≠ 0
  · simp only [if_pos h]
    split <;> simp
  · simp [if_neg h]

/-- The lookup contributed by one `AddEntry` call taken as a rule of its own. -/
theorem naiveFind_single_literal {Re : Type} (P : Pcre2 Re) (c : AddEntryCall) (p : Str)
    (h : c.regex_opts = 0) :
    naiveFind P (naiveAdd P false [] c) p
      = .ok (if p = c.principal then some (some c.canonicalization, [c.principal]) else none) := by
  simp [naiveAdd, h, naiveFind_singleton, NaiveRule.matches]

theorem hash_add_ne_none (hm : Option LITERAL_HASH) (k v : Str) :
    (CanonicalMapHashEntry.add hm k v).1 ≠ none := by
  unfold CanonicalMapHashEntry.add
  by_cases hf : LITERAL_HASH.find (hm.getD []) k = none
  · simp [hf]
  · simp [hf]

theorem AddEntry_tablesAllocated {Re : Type} (P : Pcre2 Re) (list : CanonicalMapList Re)
    (regex_opts : Nat) (k v : Str) (h : tablesAllocated list) :
    tablesAllocated (AddEntry P list regex_opts k v) := by
  unfold AddEntry
  by_cases ho : regex_opts ≠ 0
  · simp only [if_pos ho]
    split
    · exact h
    · intro e he
      rcases List.mem_append.mp he with he | he
      · exact h e he
      · simp only [List.mem_singleton] at he
        subst he
        unfold CanonicalMapRegexEntry.add
        split <;> simp
  · simp only [if_neg ho]
    split
    · intro e he
      rcases List.mem_append.mp he with he | he
      · exact h e (List.mem_of_mem_dropLast he)
      · simp only [List.mem_singleton] at he
        subst he
        intro hc
        exact hash_add_ne_none _ k v (by simpa using hc)
    · intro e he
      rcases List.mem_append.mp he with he | he
      · exact h e he
      · simp only [List.mem_singleton] at he
        subst he
        intro hc
        exact hash_add_ne_none _ k v (by simpa using hc)

theorem is_type_eq_some {Re : Type} (last : Option (CanonicalMapEntry Re))
    (hm : Option LITERAL_HASH) (h : CanonicalMapHashEntry.is_type last = some hm) :
    last = some (.hash hm) := by
  unfold CanonicalMapHashEntry.is_type at h
  split at h
  · simp only [Option.some.injEq] at h
    subst h; rfl
  · cases h

/-- One `AddEntry` call extends the lookup by the rule it was called with. -/
theorem FindMapping_AddEntry {Re : Type} (P : Pcre2 Re) (list : CanonicalMapList Re)
    (c : AddEntryCall) (p : Str) (h : tablesAllocated list) :
    FindMapping P (AddEntry P list c.regex_opts c.principal c.canonicalization) p
      = MatchOutcome.orElse (FindMapping P list p) (naiveFind P (naiveAdd P false [] c) p) := by
  by_cases ho : c.regex_opts ≠ 0
  · unfold AddEntry naiveAdd
    simp only [if_pos ho]
    by_cases hc : (CanonicalMapRegexEntry.add P c.principal
        (c.regex_opts &&& (0xFFFFFFFF ^^^ PCRE2_NOTEMPTY)) c.canonicalization).2 = true
    · simp only [hc, not_true_eq_false, if_false, if_true, List.nil_append,
        CanonicalMapList.append]
      rw [FindMapping_append, FindMapping_singleton, naiveFind_singleton]
      rfl
    · simp only [hc, not_false_eq_true, if_true, if_false]
      exact (orElse_ok_none_right _).symm
  · have ho0 : c.regex_opts = 0 := by simpa using ho
    rw [naiveFind_single_literal P c p ho0]
    unfold AddEntry
    simp only [if_neg ho]
    split
    · rename_i hm hlast
      have hl := is_type_eq_some _ _ hlast
      have hsplit : list.dropLast ++ [CanonicalMapEntry.hash hm] = list :=
        List.dropLast_append_getLast? _ (by simpa [CanonicalMapList.last] using hl)
      have hmem : CanonicalMapEntry.hash hm ∈ list := by
        rw [← hsplit]; simp
      cases hm with
      | none => exact absurd rfl (h _ hmem)
      | some t =>
        rw [FindMapping_append, FindMapping_singleton]
        conv_rhs => rw [← hsplit, FindMapping_append, FindMapping_singleton]
        rw [orElse_assoc]
        congr 1
        exact hash_matches_add t c.principal c.canonicalization p
    · simp only [CanonicalMapList.append]
      rw [FindMapping_append, FindMapping_singleton]
      congr 1
      exact hash_matches_add_none c.principal c.canonicalization p

theorem buildList_snoc {Re : Type} (P : Pcre2 Re) (calls : List AddEntryCall) (c : AddEntryCall) :
    buildList P (calls ++ [c])
      = AddEntry P (buildList P calls) c.regex_opts c.principal c.canonicalization := by
  simp [buildList, List.foldl_append]

theorem naiveBuild_snoc {Re : Type} (P : Pcre2 Re) (b : Bool) (calls : List AddEntryCall)
    (c : AddEntryCall) :
    naiveBuild P b (calls ++ [c]) = naiveAdd P b (naiveBuild P b calls) c := by
  simp [naiveBuild, List.foldl_append]

theorem buildList_tablesAllocated {Re : Type} (P : Pcre2 Re) (calls : List AddEntryCall) :
    tablesAllocated (buildList P calls) := by
  induction calls using List.reverseRecOn with
  | nil => intro e he; cases he
  | append_singleton cs c ih =>
    rw [buildList_snoc]
    exact AddEntry_tablesAllocated P _ _ _ _ ih

theorem FindMapping_buildList_all {Re : Type} (P : Pcre2 Re) (calls : List AddEntryCall)
    (p : Str) :
    FindMapping P (buildList P calls) p = naiveFind P (naiveBuild P false calls) p := by
  induction calls using List.reverseRecOn with
  | nil => rfl
  | append_singleton cs c ih =>
    rw [buildList_snoc, naiveBuild_snoc, naiveAdd_eq_append, naiveFind_append,
      FindMapping_AddEntry P _ c p (buildList_tablesAllocated P cs), ih]

/-! ## Lemmas: the reference lists -/

theorem naiveFind_ne_none_of_literal {Re : Type} (P : Pcre2 Re) (rules : List (NaiveRule Re))
    (k v : Str) (h : NaiveRule.literal k v ∈ rules) : naiveFind P rules k ≠ .ok none := by
  induction rules with
  | nil => cases h
  | cons r rs ih =>
    rw [naiveFind_cons_orElse]
    rcases List.mem_cons.mp h with h | h
    · subst h
      simp [NaiveRule.matches, MatchOutcome.orElse]
    · rcases hr : r.matches P k with f | (_ | x)
      · simp [MatchOutcome.orElse]
      · exact ih h
      · simp [MatchOutcome.orElse]

theorem literal_of_mem_recentKeys {Re : Type} (rules : List (NaiveRule Re)) (k : Str)
    (h : k ∈ recentKeys rules) : ∃ v, NaiveRule.literal k v ∈ rules := by
  unfold recentKeys at h
  obtain ⟨r, hr, hk⟩ := List.mem_filterMap.mp h
  have hmem : r ∈ rules := List.mem_reverse.mp ((List.takeWhile_sublist _).subset hr)
  cases r with
  | literal k2 v =>
    simp only [NaiveRule.key, Option.some.injEq] at hk
    subst hk
    exact ⟨v, hmem⟩
  | pattern rxme => simp [NaiveRule.key] at hk

theorem naiveFind_naiveAdd {Re : Type} (P : Pcre2 Re) (b : Bool) (rules : List (NaiveRule Re))
    (c : AddEntryCall) (p : Str) :
    naiveFind P (naiveAdd P b rules c) p
      = MatchOutcome.orElse (naiveFind P rules p) (naiveFind P (naiveAdd P false [] c) p) := by
  by_cases hskip : c.regex_opts = 0 ∧ b = true ∧ c.principal ∈ recentKeys rules
  · obtain ⟨h0, hb, hk⟩ := hskip
    have hleft : naiveAdd P b rules c = rules := by
      simp [naiveAdd, h0, hb, hk]
    rw [hleft, naiveFind_single_literal P c p h0]
    by_cases hp : p = c.principal
    · subst hp
      obtain ⟨v, hv⟩ := literal_of_mem_recentKeys rules _ hk
      exact (orElse_of_ne_none _ _ (naiveFind_ne_none_of_literal P rules _ v hv)).symm
    · simp only [if_neg hp]
      exact (orElse_ok_none_right _).symm
  · have hsame : naiveAdd P b rules c = rules ++ naiveAdd P false [] c := by
      unfold naiveAdd
      by_cases h0 : c.regex_opts = 0
      · have hnot : ¬ (b = true ∧ c.principal ∈ recentKeys rules) := fun hh => hskip ⟨h0, hh⟩
        simp [h0, hnot]
      · simp only [ne_eq, h0, not_false_eq_true, if_true]
        split <;> simp
    rw [hsame, naiveFind_append]

theorem naiveFind_naiveBuild {Re : Type} (P : Pcre2 Re) (b : Bool) (calls : List AddEntryCall)
    (p : Str) :
    naiveFind P (naiveBuild P b calls) p = naiveFind P (naiveBuild P false calls) p := by
  induction calls using List.reverseRecOn with
  | nil => rfl
  | append_singleton cs c ih =>
    rw [naiveBuild_snoc, naiveBuild_snoc, naiveFind_naiveAdd P b (naiveBuild P b cs),
      naiveFind_naiveAdd P false (naiveBuild P false cs), ih]

/-! ## Lemmas: the method table -/

theorem METHOD_MAP_find_assign {Re : Type} (m : METHOD_MAP Re) (k k2 : Option Str)
    (l : CanonicalMapList Re) :
    (m.assign k l).find k2 = if k = k2 then some l else m.find k2 := by
  induction m with
  | nil =>
    by_cases h : k = k2
    · simp [METHOD_MAP.assign, METHOD_MAP.find, h]
    · have hb : (k == k2) = false := by simpa using h
      simp [METHOD_MAP.assign, METHOD_MAP.find, List.find?, h, hb]
  | cons kv m ih =>
    unfold METHOD_MAP.find at ih ⊢
    by_cases hk : kv.1 = k
    · simp only [METHOD_MAP.assign, if_pos hk]
      by_cases h : k = k2
      · simp [h]
      · have h2 : ¬ kv.1 = k2 := by rw [hk]; exact h
        rw [List.find?_cons_of_neg _ (by simpa using h),
          List.find?_cons_of_neg _ (by simpa using h2), if_neg h]
    · simp only [METHOD_MAP.assign, if_neg hk]
      by_cases h2 : kv.1 = k2
      · have hne : ¬ k = k2 := fun e => hk (h2.trans e.symm)
        rw [List.find?_cons_of_pos _ (by simpa using h2),
          List.find?_cons_of_pos _ (by simpa using h2), if_neg hne]
      · rw [List.find?_cons_of_neg _ (by simpa using h2),
          List.find?_cons_of_neg _ (by simpa using h2)]
        exact ih

theorem listOf_loadRule {Re : Type} (P : Pcre2 Re) (m : METHOD_MAP Re) (r : RuleLine)
    (k : Option Str) :
    (loadRule P m r).listOf k
      = if r.method = k then
          AddEntry P (m.listOf k) r.regex_opts r.principal r.canonicalization
        else m.listOf k := by
  unfold loadRule METHOD_MAP.listOf GetMapList
  simp only [METHOD_MAP_find_assign]
  by_cases h : r.method = k
  · subst h
    simp only [if_true, Option.getD_some]
    cases hf : METHOD_MAP.find m r.method <;> simp
  · simp only [if_neg h]
    cases hf : METHOD_MAP.find m r.method
    · simp [METHOD_MAP_find_assign, h]
    · simp

theorem listOf_nil {Re : Type} (k : Option Str) :
    METHOD_MAP.listOf ([] : METHOD_MAP Re) k = [] := rfl

theorem loadRule_tablesAllocated {Re : Type} (P : Pcre2 Re) (m : METHOD_MAP Re) (r : RuleLine)
    (h : ∀ k, tablesAllocated (m.listOf k)) :
    ∀ k, tablesAllocated ((loadRule P m r).listOf k) := by
  intro k
  rw [listOf_loadRule]
  split
  · exact AddEntry_tablesAllocated P _ _ _ _ (h k)
  · exact h k

theorem loadRules_tablesAllocated {Re : Type} (P : Pcre2 Re) (rules : List RuleLine) :
    ∀ (m : METHOD_MAP Re), (∀ k, tablesAllocated (m.listOf k)) →
      ∀ k, tablesAllocated ((loadRules P m rules).listOf k) := by
  induction rules with
  | nil => intro m h; exact h
  | cons r rs ih =>
    intro m h
    exact ih (loadRule P m r) (loadRule_tablesAllocated P m r h)

theorem loadRules_append {Re : Type} (P : Pcre2 Re) (m : METHOD_MAP Re) (a b : List RuleLine) :
    loadRules P m (a ++ b) = loadRules P (loadRules P m a) b := by
  simp [loadRules, List.foldl_append]

/-- A match found for a principal stays the match after further rules are loaded. -/
theorem FindMapping_loadRules_of_some {Re : Type} (P : Pcre2 Re) (rules : List RuleLine)
    (k : Option Str) (p : Str) (x : Option Str × List Str) :
    ∀ (m : METHOD_MAP Re), (∀ k, tablesAllocated (m.listOf k)) →
      FindMapping P (m.listOf k) p = .ok (some x) →
      FindMapping P ((loadRules P m rules).listOf k) p = .ok (some x) := by
  induction rules with
  | nil => intro m _ h; exact h
  | cons r rs ih =>
    intro m hm h
    apply ih (loadRule P m r) (loadRule_tablesAllocated P m r hm)
    rw [listOf_loadRule]
    split
    · rw [FindMapping_AddEntry P _ ⟨r.regex_opts, r.principal, r.canonicalization⟩ p (hm k), h]
      rfl
    · exact h

theorem GetCanonicalization_eq {Re : Type} (P : Pcre2 Re) (m : METHOD_MAP Re)
    (method principal out : Str) :
    GetCanonicalization P m method principal out
      = match FindMapping P (m.listOf (some method)) principal with
        | .error f => .error f
        | .ok none => .ok (-1, out)
        | .ok (some (pcanon, groups)) =>
          match pcanon with
          | none => .error .nullDeref
          | some pattern =>
            match PerformSubstitution groups pattern out with
            | .error f => .error f
            | .ok output => .ok (0, output) := by
  unfold GetCanonicalization METHOD_MAP.listOf
  cases METHOD_MAP.find m (some method) with
  | none => rfl
  | some list => rfl

theorem GetUser_eq {Re : Type} (P : Pcre2 Re) (m : METHOD_MAP Re)
    (canonicalization out : Str) :
    GetUser P m canonicalization out
      = match FindMapping P (m.listOf none) canonicalization with
        | .error f => .error f
        | .ok none => .ok (-1, out)
        | .ok (some (pcanon, groups)) =>
          match pcanon with
          | none => .error .nullDeref
          | some pattern =>
            match PerformSubstitution groups pattern out with
            | .error f => .error f
            | .ok output => .ok (0, output) := by
  unfold GetUser METHOD_MAP.listOf
  cases METHOD_MAP.find m none with
  | none => rfl
  | some list => rfl

theorem FindMapping_of_GetCanonicalization_miss {Re : Type} (P : Pcre2 Re) (m : METHOD_MAP Re)
    (method principal out out2 : Str)
    (h : GetCanonicalization P m method principal out = .ok (-1, out2)) :
    FindMapping P (m.listOf (some method)) principal = .ok none := by
  rw [GetCanonicalization_eq] at h
  rcases hf : FindMapping P (m.listOf (some method)) principal with f | (_ | ⟨pcanon, groups⟩)
  · rw [hf] at h; cases h
  · rfl
  · rw [hf] at h
    cases pcanon with
    | none => cases h
    | some pattern =>
      simp only at h
      cases hs : PerformSubstitution groups pattern out with
      | error f => rw [hs] at h; cases h
      | ok o => rw [hs] at h; simp at h

/-- The amended C3 at the level of lookups. -/
theorem FindMapping_loaded_literal {Re : Type} (P : Pcre2 Re) (pre post : List RuleLine)
    (method key canon : Str)
    (hfirst : GetCanonicalization P (loadRules P [] pre) method key [] = .ok (-1, [])) :
    FindMapping P
      ((loadRules P [] (pre ++ ⟨some method, 0, key, canon⟩ :: post)).listOf (some method)) key
      = .ok (some (some canon, [key])) := by
  have h0 := FindMapping_of_GetCanonicalization_miss P _ _ _ _ _ hfirst
  have hinv : ∀ k, tablesAllocated ((loadRules P ([] : METHOD_MAP Re) pre).listOf k) :=
    loadRules_tablesAllocated P pre [] (fun k => by rw [listOf_nil]; intro e he; cases he)
  rw [loadRules_append]
  show FindMapping P ((loadRules P (loadRule P (loadRules P [] pre) _) post).listOf _) key = _
  apply FindMapping_loadRules_of_some P post _ _ _ _
    (loadRule_tablesAllocated P _ _ hinv)
  rw [listOf_loadRule, if_pos rfl,
    FindMapping_AddEntry P _ ⟨0, key, canon⟩ key (hinv _), h0,
    naiveFind_single_literal P _ _ rfl]
  simp [MatchOutcome.orElse]

/-! ## Lemmas: `ParseField` on quoted fields -/

theorem DQUOTE_ne_BACKSLASH : DQUOTE ≠ BACKSLASH := by decide
theorem DQUOTE_ne_SLASH : DQUOTE ≠ SLASH := by decide

theorem fieldLoop_quote_close (rest : Str) (offset : Nat) (field : Str) (popts : Option Nat) :
    fieldLoop true DQUOTE (DQUOTE :: rest) offset field popts = ⟨offset + 1, field, popts⟩ := by
  cases rest <;> simp [fieldLoop, DQUOTE_ne_SLASH]

theorem fieldLoop_quote_char (c : Char) (rest : Str) (offset : Nat) (field : Str)
    (popts : Option Nat) (hq : c ≠ DQUOTE) (hb : c ≠ BACKSLASH) :
    fieldLoop true DQUOTE (c :: rest) offset field popts
      = fieldLoop true DQUOTE rest (offset + 1) (field ++ [c]) popts := by
  have hq2 : ¬ DQUOTE = c := fun e => hq e.symm
  cases rest <;> simp [fieldLoop, hq2, hb]

theorem fieldLoop_quote_escaped_quote (rest : Str) (offset : Nat) (field : Str)
    (popts : Option Nat) :
    fieldLoop true DQUOTE (BACKSLASH :: DQUOTE :: rest) offset field popts
      = fieldLoop true DQUOTE rest (offset + 1 + 1) (field ++ [DQUOTE]) popts := by
  simp [fieldLoop, DQUOTE_ne_BACKSLASH]

theorem fieldLoop_quote_escaped_backslash (rest : Str) (offset : Nat) (field : Str)
    (popts : Option Nat) :
    fieldLoop true DQUOTE (BACKSLASH :: BACKSLASH :: rest) offset field popts
      = fieldLoop true DQUOTE rest (offset + 1 + 1) (field ++ [BACKSLASH]) popts := by
  simp [fieldLoop, DQUOTE_ne_BACKSLASH]

theorem fieldLoop_quote_escaped_other (x : Char) (rest : Str) (offset : Nat) (field : Str)
    (popts : Option Nat) (hq : x ≠ DQUOTE) (hb : x ≠ BACKSLASH) :
    fieldLoop true DQUOTE (BACKSLASH :: x :: rest) offset field popts
      = fieldLoop true DQUOTE rest (offset + 1 + 1) (field ++ [BACKSLASH] ++ [x]) popts := by
  have hq2 : ¬ DQUOTE = x := fun e => hq e.symm
  simp [fieldLoop, DQUOTE_ne_BACKSLASH, hq2, hb]

theorem fieldLoop_escapeQuoted (s : Str) :
    ∀ (rest : Str) (offset : Nat) (field : Str) (popts : Option Nat),
      fieldLoop true DQUOTE (escapeQuoted s ++ rest) offset field popts
        = fieldLoop true DQUOTE rest (offset + (escapeQuoted s).length) (field ++ s) popts := by
  induction s with
  | nil => intro rest offset field popts; simp [escapeQuoted]
  | cons c s ih =>
    intro rest offset field popts
    by_cases hb : c = BACKSLASH
    · subst hb
      simp only [escapeQuoted, if_true, List.cons_append, fieldLoop_quote_escaped_backslash, ih,
        List.length_cons]
      congr 1
      · omega
      · simp
    · by_cases hq : c = DQUOTE
      · subst hq
        simp only [escapeQuoted, if_neg hb, if_true, List.cons_append,
          fieldLoop_quote_escaped_quote, ih, List.length_cons]
        congr 1
        · omega
        · simp
      · simp only [escapeQuoted, if_neg hb, if_neg hq, List.cons_append,
          fieldLoop_quote_char c _ _ _ _ hq hb, ih, List.length_cons]
        congr 1
        · omega
        · simp

theorem ParseField_quoted (body : Str) (field : Str) (popts : Option Nat) :
    ParseField (DQUOTE :: body) 0 field popts
      = .ok (fieldLoop true DQUOTE body 1 field (popts.map (fun _ => 0))) := by
  unfold ParseField
  cases popts with
  | none => simp [skipLeadingSpace, isFieldSpace, DQUOTE, SLASH]
  | some v => simp [skipLeadingSpace, isFieldSpace, DQUOTE, SLASH]

/-! ## Lemmas: the result of a lookup -/

theorem someRuleMatches_iff_FindMapping {Re : Type} (P : Pcre2 Re) (m : METHOD_MAP Re)
    (key : Option Str) (input : Str) :
    (∀ r, FindMapping P (m.listOf key) input = .ok (some r) → someRuleMatches P m key input)
    ∧ (FindMapping P (m.listOf key) input = .ok none → ¬ someRuleMatches P m key input) := by
  unfold someRuleMatches METHOD_MAP.listOf
  cases hf : METHOD_MAP.find m key with
  | none =>
    constructor
    · intro r h
      simp [FindMapping] at h
    · rintro _ ⟨list, hl, _⟩
      cases hl
  | some list =>
    simp only [Option.getD_some]
    constructor
    · intro r h
      obtain ⟨pre, e, post, hl, _, he⟩ := (FindMapping_eq_some_iff P list input r).mp h
      exact ⟨list, rfl, e, by simp [hl], r, he⟩
    · rintro h ⟨list2, hl, e, he, r, hr⟩
      simp only [Option.some.injEq] at hl
      subst hl
      rw [(FindMapping_eq_none_iff P _ input).mp h e he] at hr
      cases hr

/-- What the body shared by the two lookups returns. -/
theorem lookup_outcome {Re : Type} (P : Pcre2 Re) (m : METHOD_MAP Re) (key : Option Str)
    (input output : Str) (f : Except Fault (Int × Str))
    (hf : f = match FindMapping P (m.listOf key) input with
        | .error e => .error e
        | .ok none => .ok (-1, output)
        | .ok (some (pcanon, groups)) =>
          match pcanon with
          | none => .error .nullDeref
          | some pattern =>
            match PerformSubstitution groups pattern output with
            | .error e => .error e
            | .ok out => .ok (0, out)) :
    (∀ rc out, f = .ok (rc, out) →
        (rc = 0 ∧ someRuleMatches P m key input)
        ∨ (rc = -1 ∧ out = output ∧ ¬ someRuleMatches P m key input))
    ∧ (lookupDefined P m key input output → ∃ rc out, f = .ok (rc, out)) := by
  have hs := someRuleMatches_iff_FindMapping P m key input
  constructor
  · intro rc out h
    rw [hf] at h
    rcases hfm : FindMapping P (m.listOf key) input with e | (_ | ⟨pcanon, groups⟩)
    · rw [hfm] at h; cases h
    · rw [hfm] at h
      simp only [Except.ok.injEq, Prod.mk.injEq] at h
      exact Or.inr ⟨h.1.symm, h.2.symm, hs.2 hfm⟩
    · rw [hfm] at h
      cases pcanon with
      | none => cases h
      | some pattern =>
        simp only at h
        cases hps : PerformSubstitution groups pattern output with
        | error e => rw [hps] at h; cases h
        | ok o =>
          rw [hps] at h
          simp only [Except.ok.injEq, Prod.mk.injEq] at h
          exact Or.inl ⟨h.1.symm, hs.1 _ hfm⟩
  · intro hdef
    rw [hf]
    unfold lookupDefined at hdef
    unfold METHOD_MAP.listOf
    cases hfind : METHOD_MAP.find m key with
    | none => exact ⟨-1, output, rfl⟩
    | some list =>
      simp only [Option.getD_some]
      obtain ⟨hall, hsub⟩ := hdef list hfind
      obtain ⟨o, ho⟩ := FindMapping_total P list input hall
      rw [ho]
      cases o with
      | none => exact ⟨-1, output, rfl⟩
      | some r =>
        obtain ⟨pcanon, groups⟩ := r
        obtain ⟨pattern, out, hp, hps⟩ := hsub pcanon groups ho
        subst hp
        simp only [hps]
        exact ⟨0, out, rfl⟩

/-! # The claims -/

/-- C1: `FindMapping` returns true with the template and groups of the first
entry, in list order, that matches the principal, and false exactly when no
entry matches. When entries `A` and `B` both match and `A` stands before `B`
(nothing before `A` matching), the result is that of `A`. -/
theorem FindMapping_first_match {Re : Type} (P : Pcre2 Re) (list : CanonicalMapList Re)
    (principal : Str) :
    (∀ r, FindMapping P list principal = .ok (some r) ↔
        ∃ pre e post, list = pre ++ e :: post ∧
          (∀ x ∈ pre, x.matches P principal principal.length = .ok none) ∧
          e.matches P principal principal.length = .ok (some r))
    ∧ (FindMapping P list principal = .ok none ↔
        ∀ e ∈ list, e.matches P principal principal.length = .ok none)
    ∧ (∀ pre A mid B post rA rB, list = pre ++ A :: (mid ++ B :: post) →
        (∀ x ∈ pre, x.matches P principal principal.length = .ok none) →
        A.matches P principal principal.length = .ok (some rA) →
        B.matches P principal principal.length = .ok (some rB) →
        FindMapping P list principal = .ok (some rA))
    ∧ ((∀ e ∈ list, ∃ o, e.matches P principal principal.length = .ok o) →
        (∃ o, FindMapping P list principal = .ok o) ∧
        (FindMapping P list principal = .ok none ↔
          ¬ ∃ e ∈ list, ∃ r, e.matches P principal principal.length = .ok (some r))) := by
  refine ⟨fun r => FindMapping_eq_some_iff P list principal r,
    FindMapping_eq_none_iff P list principal, ?_, ?_⟩
  · intro pre A mid B post rA rB hl hpre hA _
    exact (FindMapping_eq_some_iff P list principal rA).mpr ⟨pre, A, _, hl, hpre, hA⟩
  · intro hall
    refine ⟨FindMapping_total P list principal hall, ?_⟩
    rw [FindMapping_eq_none_iff]
    constructor
    · rintro h ⟨e, he, r, hr⟩
      rw [h e he] at hr
      cases hr
    · intro h e he
      obtain ⟨o, ho⟩ := hall e he
      cases o with
      | none => exact ho
      | some r => exact absurd ⟨e, he, r, ho⟩ h

/-- Witness of C1: a pattern rule that matches `alice` stands before a literal
rule for `alice`; the template of the pattern rule is returned. -/
theorem FindMapping_first_match_witness :
    FindMapping examplePcre2
      [.hash (some [("bob".toList, "B".toList)]),
       .regex 0 (some ".*".toList) (some "first".toList),
       .hash (some [("alice".toList, "second".toList)])] "alice".toList
      = .ok (some (some "first".toList, ["alice".toList])) :=
  (FindMapping_first_match examplePcre2 _ "alice".toList).2.2.1
    [.hash (some [("bob".toList, "B".toList)])]
    (.regex 0 (some ".*".toList) (some "first".toList)) []
    (.hash (some [("alice".toList, "second".toList)])) []
    (some "first".toList, ["alice".toList]) (some "second".toList, ["alice".toList])
    rfl (by decide) (by decide) (by decide)

/-- C2: coalescing adjacent literal rules into one hash group does not change
lookups. For every sequence of `AddEntry` calls on an empty list and every
principal, `FindMapping` on the built list gives what the reference gives
that keeps each stored rule as an element of its own, in call order, and
returns the first that matches; the same holds for the reference that also
keeps the literals `CanonicalMapHashEntry::add` rejected. -/
theorem FindMapping_buildList_eq_naiveFind {Re : Type} (P : Pcre2 Re)
    (calls : List AddEntryCall) (principal : Str) :
    FindMapping P (buildList P calls) principal
        = naiveFind P (naiveBuild P true calls) principal
    ∧ FindMapping P (buildList P calls) principal
        = naiveFind P (naiveBuild P false calls) principal := by
  refine ⟨?_, FindMapping_buildList_all P calls principal⟩
  rw [naiveFind_naiveBuild P true calls principal]
  exact FindMapping_buildList_all P calls principal

/-- Counterexample to C3: a literal rule `alice` with canonicalization
`alice_canon`, loaded after a pattern rule that matches `alice`, is not the
rule that answers (the output is `anyone`); and a literal rule `alice` with
canonicalization `\0!`, loaded alone, gives the output `alice!`. -/
theorem GetCanonicalization_loaded_literal_counterexample :
    (GetCanonicalization examplePcre2
        (loadRules examplePcre2 []
          [⟨some "FS".toList, PCRE2_NOTEMPTY, ".*".toList, "anyone".toList⟩,
           ⟨some "FS".toList, 0, "alice".toList, "alice_canon".toList⟩])
        "FS".toList "alice".toList []
      = .ok (0, "anyone".toList))
    ∧ (GetCanonicalization examplePcre2
        (loadRules examplePcre2 []
          [⟨some "FS".toList, PCRE2_NOTEMPTY, ".*".toList, "anyone".toList⟩,
           ⟨some "FS".toList, 0, "alice".toList, "alice_canon".toList⟩])
        "FS".toList "alice".toList []
      ≠ .ok (0, "alice_canon".toList))
    ∧ (GetCanonicalization examplePcre2
        (loadRules examplePcre2 []
          [⟨some "FS".toList, 0, "alice".toList, [BACKSLASH, '0', '!']⟩])
        "FS".toList "alice".toList []
      = .ok (0, "alice!".toList))
    ∧ (GetCanonicalization examplePcre2
        (loadRules examplePcre2 []
          [⟨some "FS".toList, 0, "alice".toList, [BACKSLASH, '0', '!']⟩])
        "FS".toList "alice".toList []
      ≠ .ok (0, [BACKSLASH, '0', '!'])) := by
  decide

/-- C3, amended: for every literal rule (method, key, canonicalization)
loaded into a fresh engine such that no rule loaded before it for that method
matches the key (the lookup of the key on the table loaded so far returns
-1), `GetCanonicalization(method, key)` with an empty output returns 0 and
sets the output to the canonicalization expanded against the single group
`key`, which is the canonicalization itself when it has no backslash;
whatever rules are loaded after it. -/
theorem GetCanonicalization_loaded_literal {Re : Type} (P : Pcre2 Re)
    (pre post : List RuleLine) (method key canon : Str)
    (hfirst : GetCanonicalization P (loadRules P [] pre) method key [] = .ok (-1, [])) :
    (∀ out, PerformSubstitution [key] canon [] = .ok out →
        GetCanonicalization P
          (loadRules P [] (pre ++ ⟨some method, 0, key, canon⟩ :: post)) method key []
          = .ok (0, out))
    ∧ (BACKSLASH ∉ canon →
        GetCanonicalization P
          (loadRules P [] (pre ++ ⟨some method, 0, key, canon⟩ :: post)) method key []
          = .ok (0, canon)) := by
  have hfind := FindMapping_loaded_literal P pre post method key canon hfirst
  have hout : ∀ out, PerformSubstitution [key] canon [] = .ok out →
      GetCanonicalization P
        (loadRules P [] (pre ++ ⟨some method, 0, key, canon⟩ :: post)) method key []
        = .ok (0, out) := by
    intro out hps
    rw [GetCanonicalization_eq, hfind]
    simp only [hps]
  refine ⟨hout, fun hb => hout canon ?_⟩
  simpa using PerformSubstitution_plain [key] canon [] hb

/-- Witness of C3: the literal rule `alice` stands between a literal rule
`bob`, a pattern rule that does not match `alice`, and a pattern rule that
matches everything. -/
theorem GetCanonicalization_loaded_literal_witness :
    GetCanonicalization examplePcre2
      (loadRules examplePcre2 []
        ([⟨some "FS".toList, 0, "bob".toList, "bob_canon".toList⟩,
          ⟨some "FS".toList, PCRE2_NOTEMPTY, "carol".toList, "carol_canon".toList⟩]
          ++ ⟨some "FS".toList, 0, "alice".toList, "alice_canon".toList⟩
            :: [⟨some "FS".toList, PCRE2_NOTEMPTY, ".*".toList, "anyone".toList⟩]))
      "FS".toList "alice".toList []
      = .ok (0, "alice_canon".toList) :=
  (GetCanonicalization_loaded_literal examplePcre2
    [⟨some "FS".toList, 0, "bob".toList, "bob_canon".toList⟩,
     ⟨some "FS".toList, PCRE2_NOTEMPTY, "carol".toList, "carol_canon".toList⟩]
    [⟨some "FS".toList, PCRE2_NOTEMPTY, ".*".toList, "anyone".toList⟩]
    "FS".toList "alice".toList "alice_canon".toList (by decide)).2 (by decide)

/-- C4: a backreference to an existing group is replaced by that group's
text. For every group list `g`, every decimal digit `d` whose number is below
the length of `g` and every texts `P` and `S` without backslash, expanding
`P ++ "\d" ++ S` into an empty output yields `P ++ g[d] ++ S`. -/
theorem PerformSubstitution_existing_group (g : List Str) (d : Char) (P S : Str)
    (hd0 : '0' ≤ d) (hd9 : d ≤ '9') (hlen : d.toNat - '0'.toNat < g.length)
    (hP : BACKSLASH ∉ P) (hS : BACKSLASH ∉ S) :
    PerformSubstitution g (P ++ [BACKSLASH, d] ++ S) []
      = .ok (P ++ g[d.toNat - '0'.toNat] ++ S) := by
  have hPok : PerformSubstitution g P [] = .ok P := by
    simpa using PerformSubstitution_plain g P [] hP
  rw [List.append_assoc, PerformSubstitution_compose g P [] _ P hPok]
  show PerformSubstitution g (BACKSLASH :: d :: S) P = _
  rw [PerformSubstitution_hit g d S P ⟨hd0, hd9, hlen⟩, PerformSubstitution_plain g S _ hS,
    List.getD_eq_getElem _ _ hlen]

/-- Witness of C4: the template `\1@EXAMPLE` with the groups `alice@X`,
`alice` yields `alice@EXAMPLE`. -/
theorem PerformSubstitution_existing_group_witness :
    PerformSubstitution ["alice@X".toList, "alice".toList]
      ([] ++ [BACKSLASH, '1'] ++ "@EXAMPLE".toList) [] = .ok "alice@EXAMPLE".toList :=
  PerformSubstitution_existing_group ["alice@X".toList, "alice".toList] '1' []
    "@EXAMPLE".toList (by decide) (by decide) (by decide) (by decide) (by decide)

/-- C5: a backreference to a missing group stays literal text. For every
group list `g` and every decimal digit `d` whose number is not below the
length of `g`: where the scan of a template reaches `\d`, the two characters
backslash and `d` are appended to the output and the scan goes on behind
them; between texts without backslash the whole template is returned
unchanged. -/
theorem PerformSubstitution_missing_group (g : List Str) (d : Char)
    (_hd0 : '0' ≤ d) (_hd9 : d ≤ '9') (hmiss : g.length ≤ d.toNat - '0'.toNat) :
    (∀ P T out o : Str, PerformSubstitution g P out = .ok o →
        PerformSubstitution g (P ++ BACKSLASH :: d :: T) out
          = PerformSubstitution g T (o ++ [BACKSLASH, d]))
    ∧ (∀ P S : Str, BACKSLASH ∉ P → BACKSLASH ∉ S →
        PerformSubstitution g (P ++ [BACKSLASH, d] ++ S) []
          = .ok (P ++ [BACKSLASH, d] ++ S)) := by
  have hcond : ¬ ('0' ≤ d ∧ d ≤ '9' ∧ g.length > d.toNat - '0'.toNat) := by
    rintro ⟨_, _, h⟩
    omega
  have hstep : ∀ P T out o : Str, PerformSubstitution g P out = .ok o →
      PerformSubstitution g (P ++ BACKSLASH :: d :: T) out
        = PerformSubstitution g T (o ++ [BACKSLASH, d]) := by
    intro P T out o h
    rw [PerformSubstitution_compose g P out _ o h, PerformSubstitution_miss g d T o hcond]
    simp
  refine ⟨hstep, ?_⟩
  intro P S hP hS
  have hPok : PerformSubstitution g P [] = .ok P := by
    simpa using PerformSubstitution_plain g P [] hP
  rw [List.append_assoc]
  show PerformSubstitution g (P ++ BACKSLASH :: d :: S) [] = _
  rw [hstep P S [] P hPok, PerformSubstitution_plain g S _ hS]
  simp

/-- Witness of C5: the template `\9` with three groups yields the text `\9`. -/
theorem PerformSubstitution_missing_group_witness :
    PerformSubstitution ["a".toList, "b".toList, "c".toList] ([] ++ [BACKSLASH, '9'] ++ []) []
      = .ok ([] ++ [BACKSLASH, '9'] ++ []) :=
  (PerformSubstitution_missing_group ["a".toList, "b".toList, "c".toList] '9'
    (by decide) (by decide) (by decide)).2 [] [] (by decide) (by decide)

/-- C6: a backslash followed by a character `c` that is not a decimal digit
is emitted as backslash, `c`, and the scan goes on behind `c` (so a `c` that
is a backslash starts no escape); a character other than a backslash, met
outside such a pair, is copied; a template without backslash expands to
itself. -/
theorem PerformSubstitution_escape_pair (g : List Str) :
    (∀ (c : Char) (P T out o : Str), ¬ ('0' ≤ c ∧ c ≤ '9') →
        PerformSubstitution g P out = .ok o →
        PerformSubstitution g (P ++ BACKSLASH :: c :: T) out
          = PerformSubstitution g T (o ++ [BACKSLASH, c]))
    ∧ (∀ (c : Char) (P T out o : Str), c ≠ BACKSLASH →
        PerformSubstitution g P out = .ok o →
        PerformSubstitution g (P ++ c :: T) out = PerformSubstitution g T (o ++ [c]))
    ∧ (∀ P out : Str, BACKSLASH ∉ P → PerformSubstitution g P out = .ok (out ++ P)) := by
  refine ⟨?_, ?_, ?_⟩
  · intro c P T out o hc h
    have hcond : ¬ ('0' ≤ c ∧ c ≤ '9' ∧ g.length > c.toNat - '0'.toNat) :=
      fun hh => hc ⟨hh.1, hh.2.1⟩
    rw [PerformSubstitution_compose g P out _ o h, PerformSubstitution_miss g c T o hcond]
    simp
  · intro c P T out o hc h
    rw [PerformSubstitution_compose g P out _ o h, PerformSubstitution_char g c T o hc]
  · intro P out hP
    exact PerformSubstitution_plain g P out hP

/-- Witness of C6: in `a\\0` the second backslash is consumed with the
first, so `\0` is not read as a backreference. -/
theorem PerformSubstitution_escape_pair_witness :
    PerformSubstitution ["alice".toList] ("a".toList ++ BACKSLASH :: BACKSLASH :: "0".toList) []
      = PerformSubstitution ["alice".toList] "0".toList ("a".toList ++ [BACKSLASH, BACKSLASH]) :=
  (PerformSubstitution_escape_pair ["alice".toList]).1 BACKSLASH "a".toList "0".toList []
    "a".toList (by decide) (by decide)

/-- Counterexample to C7: the template of two backslashes does not expand to
a single backslash. -/
theorem PerformSubstitution_double_backslash_counterexample :
    PerformSubstitution [] [BACKSLASH, BACKSLASH] [] ≠ .ok [BACKSLASH] := by
  decide

/-- C7, amended: for every group list the template of two backslashes
expands to two backslashes. -/
theorem PerformSubstitution_double_backslash (g : List Str) :
    PerformSubstitution g [BACKSLASH, BACKSLASH] [] = .ok [BACKSLASH, BACKSLASH] := by
  have hcond : ¬ ('0' ≤ BACKSLASH ∧ BACKSLASH ≤ '9' ∧
      g.length > BACKSLASH.toNat - '0'.toNat) := by
    rintro ⟨_, h, _⟩
    exact absurd h (by decide)
  rw [PerformSubstitution_miss g BACKSLASH [] [] hcond]
  rfl

/-- C8: a literal group matches a principal exactly when the principal is
one of its keys; on a hit the template is the value stored for the key and
the groups are the principal alone, so that `\0` expands to the principal and
`\1` to `\9` are emitted as they stand. -/
theorem hash_entry_matches {Re : Type} (P : Pcre2 Re) (hm : LITERAL_HASH) (principal : Str)
    (cch : Nat) :
    ((∃ r, (CanonicalMapEntry.hash (some hm) : CanonicalMapEntry Re).matches P principal cch
        = .ok (some r)) ↔ principal ∈ hm.map Prod.fst)
    ∧ ((CanonicalMapEntry.hash (some hm) : CanonicalMapEntry Re).matches P principal cch
        = .ok none ↔ principal ∉ hm.map Prod.fst)
    ∧ (∀ pcanon groups,
        (CanonicalMapEntry.hash (some hm) : CanonicalMapEntry Re).matches P principal cch
          = .ok (some (pcanon, groups)) →
        groups = [principal]
        ∧ (∃ value, pcanon = some value ∧ hm.find principal = some (principal, value)
            ∧ (principal, value) ∈ hm)
        ∧ (∀ T out : Str, PerformSubstitution groups (BACKSLASH :: '0' :: T) out
            = PerformSubstitution groups T (out ++ principal))
        ∧ (∀ (d : Char) (T out : Str), '1' ≤ d → d ≤ '9' →
            PerformSubstitution groups (BACKSLASH :: d :: T) out
              = PerformSubstitution groups T (out ++ [BACKSLASH, d]))) := by
  have hsome : ∀ kv : Str × Str, hm.find principal = some kv →
      kv.1 = principal ∧ kv ∈ hm := by
    intro kv h
    unfold LITERAL_HASH.find at h
    exact ⟨by simpa using List.find?_some h, List.mem_of_find?_eq_some h⟩
  have hnone : hm.find principal = none ↔ principal ∉ hm.map Prod.fst := by
    unfold LITERAL_HASH.find
    rw [List.find?_eq_none]
    simp only [List.mem_map, not_exists, not_and, beq_iff_eq]
  simp only [CanonicalMapEntry.matches, CanonicalMapHashEntry.matches]
  refine ⟨?_, ?_, ?_⟩
  · cases hf : hm.find principal with
    | none =>
      have := hnone.mp hf
      simp [this]
    | some kv =>
      have hk := hsome kv hf
      constructor
      · intro _
        exact List.mem_map.mpr ⟨kv, hk.2, hk.1⟩
      · intro _
        exact ⟨_, rfl⟩
  · cases hf : hm.find principal with
    | none => simpa using hnone.mp hf
    | some kv =>
      have hk := hsome kv hf
      have hmem : principal ∈ hm.map Prod.fst := List.mem_map.mpr ⟨kv, hk.2, hk.1⟩
      simp [hmem]
  · intro pcanon groups h
    cases hf : hm.find principal with
    | none => rw [hf] at h; cases h
    | some kv =>
      rw [hf] at h
      obtain ⟨k, v⟩ := kv
      have hk := hsome (k, v) hf
      simp only at hk
      obtain ⟨hk1, hk2⟩ := hk
      subst hk1
      simp only [Except.ok.injEq, Option.some.injEq, Prod.mk.injEq] at h
      obtain ⟨rfl, rfl⟩ := h
      refine ⟨rfl, ⟨v, rfl, rfl, hk2⟩, ?_, ?_⟩
      · intro T out
        rw [PerformSubstitution_hit [k] '0' T out ⟨by decide, by decide, by simp⟩]
        rfl
      · intro d T out h1 h9
        have h49 : 49 ≤ d.toNat := h1
        have hcond : ¬ ('0' ≤ d ∧ d ≤ '9' ∧ [k].length > d.toNat - '0'.toNat) := by
          rintro ⟨_, _, h⟩
          have h48 : '0'.toNat = 48 := rfl
          simp only [List.length_singleton, h48] at h
          omega
        rw [PerformSubstitution_miss [k] d T out hcond]
        simp

/-- Witness of C8: with the key `alice` matched, `\1` is emitted as it
stands. -/
theorem hash_entry_matches_witness :
    PerformSubstitution ["alice".toList] (BACKSLASH :: '1' :: "x".toList) []
      = PerformSubstitution ["alice".toList] "x".toList ([] ++ [BACKSLASH, '1']) :=
  ((hash_entry_matches examplePcre2 [("alice".toList, "A".toList)] "alice".toList 5).2.2
    (some "A".toList) ["alice".toList] (by decide)).2.2.2 '1' "x".toList []
    (by decide) (by decide)

/-- C9: `GetCanonicalization` returns 0 if and only if the method is in the
method table and some rule of its list matches the principal; otherwise it
returns -1 and leaves the caller's string as it was. `GetUser` does the same
on the user map. A call that returns has one of these two results, and a
call that stays within defined behaviour returns. -/
theorem GetCanonicalization_GetUser_result {Re : Type} (P : Pcre2 Re) (methods : METHOD_MAP Re)
    (method principal canonicalization user : Str) :
    (∀ rc out, GetCanonicalization P methods method principal canonicalization = .ok (rc, out) →
        (rc = 0 ∧ someRuleMatches P methods (some method) principal)
        ∨ (rc = -1 ∧ out = canonicalization
            ∧ ¬ someRuleMatches P methods (some method) principal))
    ∧ (lookupDefined P methods (some method) principal canonicalization →
        ((∃ out, GetCanonicalization P methods method principal canonicalization = .ok (0, out))
            ↔ someRuleMatches P methods (some method) principal)
        ∧ (GetCanonicalization P methods method principal canonicalization
              = .ok (-1, canonicalization)
            ↔ ¬ someRuleMatches P methods (some method) principal))
    ∧ (∀ rc out, GetUser P methods canonicalization user = .ok (rc, out) →
        (rc = 0 ∧ someRuleMatches P methods none canonicalization)
        ∨ (rc = -1 ∧ out = user ∧ ¬ someRuleMatches P methods none canonicalization))
    ∧ (lookupDefined P methods none canonicalization user →
        ((∃ out, GetUser P methods canonicalization user = .ok (0, out))
            ↔ someRuleMatches P methods none canonicalization)
        ∧ (GetUser P methods canonicalization user = .ok (-1, user)
            ↔ ¬ someRuleMatches P methods none canonicalization)) := by
  have key : ∀ (k : Option Str) (input output : Str) (f : Except Fault (Int × Str)),
      ((∀ rc out, f = .ok (rc, out) →
          (rc = 0 ∧ someRuleMatches P methods k input)
          ∨ (rc = -1 ∧ out = output ∧ ¬ someRuleMatches P methods k input))
        ∧ (lookupDefined P methods k input output → ∃ rc out, f = .ok (rc, out))) →
      (lookupDefined P methods k input output →
        ((∃ out, f = .ok (0, out)) ↔ someRuleMatches P methods k input)
        ∧ (f = .ok (-1, output) ↔ ¬ someRuleMatches P methods k input)) := by
    intro k input output f ⟨h1, h2⟩ hdef
    obtain ⟨rc, out, hret⟩ := h2 hdef
    constructor
    · constructor
      · rintro ⟨o, ho⟩
        rcases h1 0 o ho with h | h
        · exact h.2
        · exact absurd h.1 (by decide)
      · intro hm
        rcases h1 rc out hret with h | h
        · exact ⟨out, by rw [hret, h.1]⟩
        · exact absurd hm h.2.2
    · constructor
      · intro ho
        rcases h1 (-1) output ho with h | h
        · exact absurd h.1 (by decide)
        · exact h.2.2
      · intro hm
        rcases h1 rc out hret with h | h
        · exact absurd h.2 hm
        · rw [hret, h.1, h.2.1]
  have hc := lookup_outcome P methods (some method) principal canonicalization _
    (GetCanonicalization_eq P methods method principal canonicalization)
  have hu := lookup_outcome P methods none canonicalization user _
    (GetUser_eq P methods canonicalization user)
  exact ⟨hc.1, key _ _ _ _ hc, hu.1, key _ _ _ _ hu⟩

/-- Witness of C9: on a table with a rule `alice` for the method `FS` and a
user-map rule `alice`, the lookup of `alice` under `FS` returns 0 and a rule
matches; the user lookup of `bob` returns -1 and no rule matches. -/
theorem GetCanonicalization_GetUser_result_witness :
    someRuleMatches examplePcre2
        (loadRules examplePcre2 []
          [⟨some "FS".toList, 0, "alice".toList, "A".toList⟩,
           ⟨none, 0, "alice".toList, "alice_local".toList⟩])
        (some "FS".toList) "alice".toList
    ∧ ¬ someRuleMatches examplePcre2
        (loadRules examplePcre2 []
          [⟨some "FS".toList, 0, "alice".toList, "A".toList⟩,
           ⟨none, 0, "alice".toList, "alice_local".toList⟩])
        none "bob".toList :=
  ⟨((GetCanonicalization_GetUser_result examplePcre2
        (loadRules examplePcre2 []
          [⟨some "FS".toList, 0, "alice".toList, "A".toList⟩,
           ⟨none, 0, "alice".toList, "alice_local".toList⟩])
        "FS".toList "alice".toList [] []).1 0 "A".toList (by decide)).elim
      (fun h => h.2) (fun h => absurd h.1 (by decide)),
    ((GetCanonicalization_GetUser_result examplePcre2
        (loadRules examplePcre2 []
          [⟨some "FS".toList, 0, "alice".toList, "A".toList⟩,
           ⟨none, 0, "alice".toList, "alice_local".toList⟩])
        "FS".toList "alice".toList "bob".toList "x".toList).2.2.1 (-1) "x".toList
        (by decide)).elim
      (fun h => absurd h.1 (by decide)) (fun h => h.2.2)⟩

/-- C10: quoting round trip. With `esc` replacing every backslash by two
backslashes and every double quote by backslash, double quote: for every text
`s`, `ParseField` at offset 0 on the line `"` ++ `esc s` ++ `"` with an empty
field yields the field `s` and returns the length of the line. Inside a
quoted field `\"` yields `"`, `\\` yields `\`, and `\x` for any other `x`
yields `\x`. -/
theorem ParseField_quoting_round_trip (popts : Option Nat) :
    (∀ s : Str,
        ParseField (DQUOTE :: (escapeQuoted s ++ [DQUOTE])) 0 [] popts
          = .ok ⟨(DQUOTE :: (escapeQuoted s ++ [DQUOTE])).length, s, popts.map (fun _ => 0)⟩)
    ∧ (∀ s t : Str,
        ParseField (DQUOTE :: (escapeQuoted s ++ BACKSLASH :: DQUOTE :: (escapeQuoted t ++ [DQUOTE])))
            0 [] popts
          = .ok ⟨(DQUOTE :: (escapeQuoted s ++ BACKSLASH :: DQUOTE ::
                (escapeQuoted t ++ [DQUOTE]))).length,
              s ++ DQUOTE :: t, popts.map (fun _ => 0)⟩)
    ∧ (∀ s t : Str,
        ParseField (DQUOTE :: (escapeQuoted s ++ BACKSLASH :: BACKSLASH ::
              (escapeQuoted t ++ [DQUOTE]))) 0 [] popts
          = .ok ⟨(DQUOTE :: (escapeQuoted s ++ BACKSLASH :: BACKSLASH ::
                (escapeQuoted t ++ [DQUOTE]))).length,
              s ++ BACKSLASH :: t, popts.map (fun _ => 0)⟩)
    ∧ (∀ (s t : Str) (x : Char), x ≠ DQUOTE → x ≠ BACKSLASH →
        ParseField (DQUOTE :: (escapeQuoted s ++ BACKSLASH :: x ::
              (escapeQuoted t ++ [DQUOTE]))) 0 [] popts
          = .ok ⟨(DQUOTE :: (escapeQuoted s ++ BACKSLASH :: x ::
                (escapeQuoted t ++ [DQUOTE]))).length,
              s ++ BACKSLASH :: x :: t, popts.map (fun _ => 0)⟩) := by
  refine ⟨?_, ?_, ?_, ?_⟩
  · intro s
    rw [ParseField_quoted, fieldLoop_escapeQuoted, fieldLoop_quote_close]
    simp only [List.nil_append, List.length_cons, List.length_append, List.length_nil]
    congr 2
    omega
  · intro s t
    rw [ParseField_quoted, fieldLoop_escapeQuoted, fieldLoop_quote_escaped_quote,
      fieldLoop_escapeQuoted, fieldLoop_quote_close]
    simp only [List.nil_append, List.length_cons, List.length_append, List.length_nil,
      List.append_assoc, List.singleton_append]
    congr 2
    omega
  · intro s t
    rw [ParseField_quoted, fieldLoop_escapeQuoted, fieldLoop_quote_escaped_backslash,
      fieldLoop_escapeQuoted, fieldLoop_quote_close]
    simp only [List.nil_append, List.length_cons, List.length_append, List.length_nil,
      List.append_assoc, List.singleton_append]
    congr 2
    omega
  · intro s t x hq hb
    rw [ParseField_quoted, fieldLoop_escapeQuoted, fieldLoop_quote_escaped_other x _ _ _ _ hq hb,
      fieldLoop_escapeQuoted, fieldLoop_quote_close]
    simp only [List.nil_append, List.length_cons, List.length_append, List.length_nil,
      List.append_assoc, List.singleton_append]
    congr 2
    omega

/-- Witness of C10: the quoted field `"a\xb"` yields the field `a\xb`. -/
theorem ParseField_quoting_round_trip_witness :
    ParseField (DQUOTE :: (escapeQuoted "a".toList ++ BACKSLASH :: 'x' ::
        (escapeQuoted "b".toList ++ [DQUOTE]))) 0 [] none
      = .ok ⟨(DQUOTE :: (escapeQuoted "a".toList ++ BACKSLASH :: 'x' ::
            (escapeQuoted "b".toList ++ [DQUOTE]))).length,
          "a".toList ++ BACKSLASH :: 'x' :: "b".toList, none⟩ :=
  (ParseField_quoting_round_trip none).2.2.2 "a".toList "b".toList 'x' (by decide) (by decide)

/-! # Theorems of the second part -/

/-! ## Lemmas: `ParseField` on bare words -/

theorem drop_append_append {α : Type} (a b c : List α) :
    (a ++ (b ++ c)).drop (a.length + b.length) = c := by
  rw [← List.append_assoc, ← List.length_append, List.drop_left]

theorem skipLeadingSpace_eq (l : Str) :
    ∀ offset : Nat, skipLeadingSpace l offset
      = (l.dropWhile isFieldSpace, offset + (l.takeWhile isFieldSpace).length) := by
  induction l with
  | nil => intro offset; rfl
  | cons c rest ih =>
    intro offset
    by_cases hc : isFieldSpace c = true
    · simp only [skipLeadingSpace, hc, if_true, List.dropWhile_cons_of_pos,
        List.takeWhile_cons_of_pos, List.length_cons, ih]
      congr 1
      omega
    · simp only [skipLeadingSpace, hc, if_false, List.dropWhile_cons_of_neg hc,
        List.takeWhile_cons_of_neg hc, List.length_nil, Nat.add_zero]
      simp

theorem fieldLoop_bare (chEnd : Char) (l : Str) :
    ∀ (offset : Nat) (field : Str) (popts : Option Nat),
      fieldLoop false chEnd l offset field popts
        = ⟨offset + (l.takeWhile (fun c => !isFieldSpace c)).length,
            field ++ l.takeWhile (fun c => !isFieldSpace c), popts⟩ := by
  induction l with
  | nil => intro offset field popts; simp [fieldLoop]
  | cons c rest ih =>
    intro offset field popts
    have hstep : fieldLoop false chEnd (c :: rest) offset field popts
        = if isFieldSpace c then ⟨offset, field, popts⟩
          else fieldLoop false chEnd rest (offset + 1) (field ++ [c]) popts := by
      cases rest <;> simp [fieldLoop]
    rw [hstep]
    by_cases hc : isFieldSpace c = true
    · simp [hc]
    · have htw : List.takeWhile (fun c => !isFieldSpace c) (c :: rest)
          = c :: List.takeWhile (fun c => !isFieldSpace c) rest := by
        simp [List.takeWhile_cons, hc]
      rw [if_neg hc, ih, htw]
      simp only [List.length_cons, List.append_assoc, List.singleton_append]
      congr 1
      omega

theorem ParseField_bare (line : Str) (offset : Nat) (field : Str) (popts : Option Nat)
    (hoff : offset ≤ line.length)
    (hq : ((line.drop offset).dropWhile isFieldSpace).head? ≠ some DQUOTE)
    (hs : popts.isSome → ((line.drop offset).dropWhile isFieldSpace).head? ≠ some SLASH) :
    ParseField line offset field popts
      = .ok ⟨offset + ((line.drop offset).takeWhile isFieldSpace).length
              + (((line.drop offset).dropWhile isFieldSpace).takeWhile
                  (fun c => !isFieldSpace c)).length,
            field ++ ((line.drop offset).dropWhile isFieldSpace).takeWhile
                  (fun c => !isFieldSpace c),
            popts⟩ := by
  unfold ParseField
  rw [if_neg (by simpa using hoff)]
  simp only [skipLeadingSpace_eq]
  generalize hrest : (line.drop offset).dropWhile isFieldSpace = rest at hq hs
  cases rest with
  | nil => simp [fieldLoop, NUL, DQUOTE, SLASH]
  | cons ch tl =>
    have hq2 : ch ≠ DQUOTE := fun e => hq (by simp [e])
    simp only [List.headD_cons, hq2, decide_False, Bool.false_or]
    by_cases hsl : ch = SLASH
    · have hnone : popts = none := by
        cases popts with
        | none => rfl
        | some v => exact absurd (by simp [hsl]) (hs rfl)
      subst hnone
      simp only [hsl, decide_True, if_true, Option.isNone_none, fieldLoop_bare]
    · simp only [hsl, decide_False, Bool.false_eq_true, if_false, fieldLoop_bare]

/-! ## Lemmas: `ParseField` on regex literals and quoted fields -/

theorem modifierOptions_caseless (a b : Bool) :
    modifierOptions a b ||| PCRE2_CASELESS = modifierOptions true b := by
  cases a <;> cases b <;> decide

theorem modifierOptions_ungreedy (a b : Bool) :
    modifierOptions a b ||| PCRE2_UNGREEDY = modifierOptions a true := by
  cases a <;> cases b <;> decide

theorem scanModifiers_run (mods : Str) :
    ∀ (post : Str) (offset : Nat) (a b : Bool),
      (∀ c ∈ mods, c = 'i' ∨ c = 'U') →
      (∀ c, post.head? = some c → c ≠ 'i' ∧ c ≠ 'U') →
      scanModifiers (mods ++ post) offset (some (modifierOptions a b))
        = (offset + mods.length,
            some (modifierOptions (a || decide ('i' ∈ mods)) (b || decide ('U' ∈ mods)))) := by
  induction mods with
  | nil =>
    intro post offset a b _ hpost
    cases post with
    | nil => simp [scanModifiers]
    | cons c tl =>
      obtain ⟨hi, hu⟩ := hpost c rfl
      simp [scanModifiers, hi, hu]
  | cons m mods ih =>
    intro post offset a b hmods hpost
    have hrest : ∀ c ∈ mods, c = 'i' ∨ c = 'U' := fun c hc => hmods c (by simp [hc])
    rcases hmods m (by simp) with hm | hm
    · subst hm
      have hstep : scanModifiers ('i' :: (mods ++ post)) offset (some (modifierOptions a b))
          = scanModifiers (mods ++ post) (offset + 1)
              (some (modifierOptions a b ||| PCRE2_CASELESS)) := by
        have hN : ('i' : Char) ≠ NUL := by decide
        simp [scanModifiers, hN]
      rw [List.cons_append, hstep, modifierOptions_caseless,
        ih post (offset + 1) true b hrest hpost]
      have hU : ('U' : Char) ≠ 'i' := by decide
      refine Prod.ext (by simp only [List.length_cons]; omega) ?_
      simp [hU]
    · subst hm
      have hstep : scanModifiers ('U' :: (mods ++ post)) offset (some (modifierOptions a b))
          = scanModifiers (mods ++ post) (offset + 1)
              (some (modifierOptions a b ||| PCRE2_UNGREEDY)) := by
        have hN : ('U' : Char) ≠ NUL := by decide
        have hI : ('U' : Char) ≠ 'i' := by decide
        simp [scanModifiers, hN, hI]
      rw [List.cons_append, hstep, modifierOptions_ungreedy,
        ih post (offset + 1) a true hrest hpost]
      have hI2 : ('i' : Char) ≠ 'U' := by decide
      refine Prod.ext (by simp only [List.length_cons]; omega) ?_
      simp [hI2]

theorem fieldLoop_token (chEnd : Char) (t : FieldToken) (rest : Str) (offset : Nat)
    (field : Str) (popts : Option Nat) (ht : t.wellFormed chEnd) (hne : chEnd ≠ BACKSLASH) :
    fieldLoop true chEnd (t.source ++ rest) offset field popts
      = fieldLoop true chEnd rest (offset + t.source.length) (field ++ t.value chEnd) popts := by
  cases t with
  | plain c =>
    obtain ⟨h1, h2⟩ := ht
    have h1b : ¬ chEnd = c := fun e => h1 e.symm
    cases rest <;> simp [FieldToken.source, FieldToken.value, fieldLoop, h1b, h2]
  | escaped d =>
    have hb : ¬ chEnd = BACKSLASH := hne
    by_cases hd : d = chEnd
    · subst hd
      simp [FieldToken.source, FieldToken.value, fieldLoop, hb]
    · have hd2 : ¬ chEnd = d := fun e => hd e.symm
      by_cases hbs : d = BACKSLASH
      · subst hbs
        simp [FieldToken.source, FieldToken.value, fieldLoop, hb]
      · simp [FieldToken.source, FieldToken.value, fieldLoop, hb, hd, hd2, hbs]

theorem fieldLoop_tokens (chEnd : Char) (hne : chEnd ≠ BACKSLASH) (tokens : List FieldToken) :
    ∀ (rest : Str) (offset : Nat) (field : Str) (popts : Option Nat),
      (∀ t ∈ tokens, t.wellFormed chEnd) →
      fieldLoop true chEnd (tokensSource tokens ++ rest) offset field popts
        = fieldLoop true chEnd rest (offset + (tokensSource tokens).length)
            (field ++ tokensValue chEnd tokens) popts := by
  induction tokens with
  | nil => intro rest offset field popts _; simp [tokensSource, tokensValue]
  | cons t ts ih =>
    intro rest offset field popts h
    simp only [tokensSource, tokensValue, List.append_assoc]
    rw [fieldLoop_token chEnd t _ _ _ _ (h t (by simp)) hne,
      ih _ _ _ _ (fun t2 h2 => h t2 (by simp [h2]))]
    simp only [List.length_append, List.append_assoc]
    congr 1
    omega

theorem fieldLoop_slash_close (after : Str) (offset : Nat) (field : Str) (popts : Option Nat) :
    fieldLoop true SLASH (SLASH :: after) offset field popts
      = ⟨(scanModifiers after (offset + 1) popts).1, field,
          (scanModifiers after (offset + 1) popts).2⟩ := by
  cases after <;> simp [fieldLoop]

/-- The main loop of a quoted field leaves the options as they are. -/
theorem fieldLoop_quote_popts (l : Str) :
    ∀ (offset : Nat) (field : Str) (popts : Option Nat),
      (fieldLoop true DQUOTE l offset field popts).popts = popts := by
  intro offset field popts
  induction l, offset, field, popts using fieldLoop.induct true DQUOTE with
  | case1 offset field popts => simp [fieldLoop]
  | case2 rest offset field popts _ h => exact absurd h (by decide)
  | case3 rest offset field popts _ h => cases rest <;> simp [fieldLoop, h]
  | case4 offset field popts _ h => simp [fieldLoop, h]
  | case5 offset field popts _ rest2 h ih => simpa [fieldLoop, h] using ih
  | case6 offset field popts _ rest2 h _ ih => simpa [fieldLoop, h] using ih
  | case7 offset field popts _ d rest2 h1 h2 h3 ih => simpa [fieldLoop, h1, h2, h3] using ih
  | case8 c rest offset field popts _ h1 h2 ih =>
    have : fieldLoop true DQUOTE (c :: rest) offset field popts
        = fieldLoop true DQUOTE rest (offset + 1) (field ++ [c]) popts := by
      cases rest <;> simp [fieldLoop, h1, h2]
    rw [this]; exact ih
  | case9 c rest offset field popts h _ => exact absurd rfl h
  | case10 c rest offset field popts h _ _ => exact absurd rfl h

theorem ParseField_delimited (line : Str) (offset : Nat) (field : Str) (v : Nat)
    (ch : Char) (tl : Str) (hoff : offset ≤ line.length)
    (hrest : (line.drop offset).dropWhile isFieldSpace = ch :: tl)
    (hch : ch = DQUOTE ∨ ch = SLASH) :
    ParseField line offset field (some v)
      = .ok (fieldLoop true ch tl
          (offset + ((line.drop offset).takeWhile isFieldSpace).length + 1) field
          (some (if ch = SLASH then PCRE2_NOTEMPTY else 0))) := by
  unfold ParseField
  rw [if_neg (by simpa using hoff)]
  simp only [skipLeadingSpace_eq, hrest, List.headD_cons]
  have hm : (decide (ch = DQUOTE) || decide (ch = SLASH)) = true := by
    rcases hch with h | h <;> simp [h]
  simp [hm]

/-! ## Lemmas: the loops of the loaders -/

theorem canonicalizationLoop_nil {Re : Type} (fs : FileSystem) (P : Pcre2 Re)
    (nested : Str → METHOD_MAP Re → LoadOutcome Re) (srcname : Str)
    (assume_hash allow_include : Bool) (methods : METHOD_MAP Re) :
    canonicalizationLoop fs P nested srcname assume_hash allow_include [] methods
      = .returned 0 methods := by
  rw [canonicalizationLoop]

theorem canonicalizationLoop_cons {Re : Type} (fs : FileSystem) (P : Pcre2 Re)
    (nested : Str → METHOD_MAP Re → LoadOutcome Re) (srcname : Str)
    (assume_hash allow_include : Bool) (line : Str) (src : List Str)
    (methods : METHOD_MAP Re) :
    canonicalizationLoop fs P nested srcname assume_hash allow_include (line :: src) methods
      = (canonicalizationLoop fs P nested srcname assume_hash allow_include [line]
            methods).andThen
          (canonicalizationLoop fs P nested srcname assume_hash allow_include src) := by
  rw [canonicalizationLoop, canonicalizationLoop]
  simp only [canonicalizationLoop_nil]
  repeat' split
  all_goals rfl

theorem canonicalizationLoop_append {Re : Type} (fs : FileSystem) (P : Pcre2 Re)
    (nested : Str → METHOD_MAP Re → LoadOutcome Re) (srcname : Str)
    (assume_hash allow_include : Bool) (pre src : List Str) :
    ∀ methods : METHOD_MAP Re,
      canonicalizationLoop fs P nested srcname assume_hash allow_include (pre ++ src) methods
        = (canonicalizationLoop fs P nested srcname assume_hash allow_include pre
              methods).andThen
            (canonicalizationLoop fs P nested srcname assume_hash allow_include src) := by
  induction pre with
  | nil => intro methods; rw [canonicalizationLoop_nil]; rfl
  | cons line pre ih =>
    intro methods
    rw [List.cons_append, canonicalizationLoop_cons, canonicalizationLoop_cons _ _ _ _ _ _ line pre]
    cases canonicalizationLoop fs P nested srcname assume_hash allow_include [line] methods with
    | returned code m => exact ih m
    | aborted f => rfl
    | outOfFuel => rfl

/-- A call of the loop that returns, returns 0. -/
theorem canonicalizationLoop_code {Re : Type} (fs : FileSystem) (P : Pcre2 Re)
    (nested : Str → METHOD_MAP Re → LoadOutcome Re) (srcname : Str)
    (assume_hash allow_include : Bool) (src : List Str) :
    ∀ (methods : METHOD_MAP Re) (code : Int) (m : METHOD_MAP Re),
      canonicalizationLoop fs P nested srcname assume_hash allow_include src methods
        = .returned code m → code = 0 := by
  induction src with
  | nil =>
    intro methods code m h
    rw [canonicalizationLoop_nil] at h
    cases h
    rfl
  | cons line src ih =>
    intro methods code m h
    rw [canonicalizationLoop_cons] at h
    cases h1 : canonicalizationLoop fs P nested srcname assume_hash allow_include [line]
        methods with
    | returned c m1 =>
      rw [h1] at h
      exact ih m1 code m h
    | aborted f => rw [h1] at h; cases h
    | outOfFuel => rw [h1] at h; cases h

/-- What a line that is not an `@include` line does in the loop. -/
theorem canonicalizationLoop_line {Re : Type} (fs : FileSystem) (P : Pcre2 Re)
    (nested : Str → METHOD_MAP Re → LoadOutcome Re) (srcname : Str)
    (assume_hash allow_include : Bool) (line : Str) (methods : METHOD_MAP Re)
    (hinc : isIncludeLine line = false) :
    canonicalizationLoop fs P nested srcname assume_hash allow_include [line] methods
      = match canonicalizationRule assume_hash line with
        | .error f => .aborted f
        | .ok none => .returned 0 methods
        | .ok (some r) => .returned 0 (loadRule P methods r) := by
  unfold isIncludeLine at hinc
  rw [canonicalizationLoop]
  unfold canonicalizationRule
  simp only [canonicalizationLoop_nil]
  by_cases he : line = []
  · simp [he]
  · simp only [he, if_false]
    cases hm : ParseField line 0 [] none with
    | error f => rfl
    | ok method =>
      rw [hm] at hinc
      have hne : method.field ≠ INCLUDE := by simpa using hinc
      simp only [hne, if_false]
      by_cases hc : method.field.length = 0 ∨ method.field.head? = some '#'
      · rw [if_pos hc, if_pos hc]
      · rw [if_neg hc, if_neg hc]
        cases hp : ParseField line method.offset [] (if assume_hash then some 0 else none) with
        | error f => rfl
        | ok principal =>
          simp only []
          cases hcn : ParseField line principal.offset [] none with
          | error f => rfl
          | ok canonicalization =>
            simp only []
            by_cases hempty : method.field = [] ∨ principal.field = []
                ∨ canonicalization.field = []
            · rw [if_pos hempty, if_pos hempty]
            · rw [if_neg hempty, if_neg hempty]

/-- What one line does in the loop of `ParseUsermap`. -/
theorem usermapLoop_cons {Re : Type} (P : Pcre2 Re) (assume_hash : Bool) (line : Str)
    (src : List Str) (n : Int) (methods : METHOD_MAP Re) :
    usermapLoop P assume_hash (line :: src) n methods
      = match usermapLine assume_hash line with
        | .error f => .aborted f
        | .ok .skipped => usermapLoop P assume_hash src (incrementInt n) methods
        | .ok .malformed => .returned (incrementInt n) methods
        | .ok (.rule r) =>
          usermapLoop P assume_hash src (incrementInt n) (loadRule P methods r) := by
  rw [usermapLoop]
  unfold usermapLine
  by_cases he : line = []
  · simp [he]
  · simp only [he, if_false]
    cases hm : ParseField line 0 [] (if assume_hash then some 0 else none) with
    | error f => rfl
    | ok canonicalization =>
      simp only []
      by_cases hc : canonicalization.field.length = 0 ∨ canonicalization.field.head? = some '#'
      · rw [if_pos hc, if_pos hc]
      · rw [if_neg hc, if_neg hc]
        cases hu : ParseField line canonicalization.offset [] none with
        | error f => rfl
        | ok user =>
          simp only []
          by_cases hempty : canonicalization.field = [] ∨ user.field = []
          · rw [if_pos hempty, if_pos hempty]
          · rw [if_neg hempty, if_neg hempty]

theorem ParseCanonicalization_succ {Re : Type} (fs : FileSystem) (P : Pcre2 Re) (fuel : Nat)
    (src : List Str) (srcname : Str) (assume_hash allow_include : Bool)
    (methods : METHOD_MAP Re) :
    ParseCanonicalization fs P (fuel + 1) src srcname assume_hash allow_include methods
      = canonicalizationLoop fs P
          (fun filename methods2 =>
            match fs.readFile filename with
            | none => .returned (-1) methods2
            | some lines =>
              ParseCanonicalization fs P fuel lines filename assume_hash false methods2)
          srcname assume_hash allow_include src methods := by
  rw [ParseCanonicalization]

theorem usermapLoop_accepted {Re : Type} (P : Pcre2 Re) (assume_hash : Bool) (pre : List Str) :
    ∀ (rest : List Str) (n : Int) (methods : METHOD_MAP Re),
      (∀ l ∈ pre, usermapLineAccepted assume_hash l) →
      usermapLoop P assume_hash (pre ++ rest) n methods
        = usermapLoop P assume_hash rest (Nat.iterate incrementInt pre.length n)
            (loadRules P methods (pre.filterMap (usermapRule? assume_hash))) := by
  induction pre with
  | nil => intro rest n methods _; simp [loadRules]
  | cons line pre ih =>
    intro rest n methods h
    have hrest : ∀ l ∈ pre, usermapLineAccepted assume_hash l :=
      fun l hl => h l (by simp [hl])
    rw [List.cons_append, usermapLoop_cons]
    rcases h line (by simp) with hl | ⟨r, hl⟩
    · rw [hl]
      simp only []
      rw [ih rest (incrementInt n) methods hrest]
      have hr : usermapRule? assume_hash line = none := by
        simp [usermapRule?, hl, UsermapLine.rule?]
      rw [List.filterMap_cons_none hr]
      rfl
    · rw [hl]
      simp only []
      rw [ih rest (incrementInt n) (loadRule P methods r) hrest]
      have hr : usermapRule? assume_hash line = some r := by
        simp [usermapRule?, hl, UsermapLine.rule?]
      rw [List.filterMap_cons_some hr]
      rfl

theorem usermapLoop_nil {Re : Type} (P : Pcre2 Re) (assume_hash : Bool) (n : Int)
    (methods : METHOD_MAP Re) :
    usermapLoop P assume_hash [] n methods = .returned 0 methods := by
  rw [usermapLoop]

/-! ## Lemmas: duplicate keys and failed patterns -/

theorem AddEntry_of_duplicate {Re : Type} (P : Pcre2 Re) (list : CanonicalMapList Re)
    (key canon : Str) (h : lastGroupHasKey list key) : AddEntry P list 0 key canon = list := by
  obtain ⟨hm, hlast, hdup⟩ := h
  unfold AddEntry
  simp only [ne_eq, not_true_eq_false, if_false, hlast, CanonicalMapHashEntry.is_type]
  have hadd : (CanonicalMapHashEntry.add (some hm) key canon).1 = some hm := by
    simp [CanonicalMapHashEntry.add, hdup]
  rw [hadd]
  exact List.dropLast_append_getLast? _ (by simpa [CanonicalMapList.last] using hlast)

theorem find_assign_self (hm : LITERAL_HASH) (k v : Str) :
    LITERAL_HASH.find (hm.assign k v) k ≠ none := by
  induction hm with
  | nil => simp [LITERAL_HASH.assign, LITERAL_HASH.find]
  | cons kv hm ih =>
    unfold LITERAL_HASH.find at ih ⊢
    by_cases hk : kv.1 = k
    · simp [LITERAL_HASH.assign, hk]
    · simp only [LITERAL_HASH.assign, if_neg hk]
      rw [List.find?_cons_of_neg _ (by simpa using hk)]
      exact ih

theorem find_add_of_find (hm : Option LITERAL_HASH) (k v key : Str) (t : LITERAL_HASH)
    (ht : hm = some t) (h : t.find key ≠ none) :
    ∃ t2, (CanonicalMapHashEntry.add hm k v).1 = some t2 ∧ t2.find key ≠ none := by
  subst ht
  unfold CanonicalMapHashEntry.add
  simp only [Option.getD_some]
  by_cases hf : t.find k = none
  · rw [if_pos hf]
    refine ⟨t.assign k v, rfl, ?_⟩
    rw [LITERAL_HASH_assign_of_find_none t k v hf, LITERAL_HASH_find_append]
    cases hfk : t.find key with
    | none => exact absurd hfk h
    | some x => simp
  · rw [if_neg hf]
    exact ⟨t, rfl, h⟩

theorem find_add_self (hm : Option LITERAL_HASH) (k v : Str) :
    ∃ t2, (CanonicalMapHashEntry.add hm k v).1 = some t2 ∧ t2.find k ≠ none := by
  unfold CanonicalMapHashEntry.add
  by_cases hf : LITERAL_HASH.find (hm.getD []) k = none
  · simp only [hf, if_true]
    exact ⟨_, rfl, find_assign_self _ k v⟩
  · simp only [hf, if_false]
    exact ⟨_, rfl, hf⟩

/-- After a literal is added the last group holds its key. -/
theorem lastGroupHasKey_AddEntry_self {Re : Type} (P : Pcre2 Re) (list : CanonicalMapList Re)
    (k v : Str) : lastGroupHasKey (AddEntry P list 0 k v) k := by
  unfold AddEntry
  simp only [ne_eq, not_true_eq_false, if_false]
  split
  · rename_i hm _
    obtain ⟨t2, ht2, hf⟩ := find_add_self hm k v
    exact ⟨t2, by simp [CanonicalMapList.last, ht2], hf⟩
  · obtain ⟨t2, ht2, hf⟩ := find_add_self none k v
    exact ⟨t2, by simp [CanonicalMapList.last, CanonicalMapList.append, ht2], hf⟩

/-- Adding a further literal keeps the keys of the last group. -/
theorem lastGroupHasKey_AddEntry {Re : Type} (P : Pcre2 Re) (list : CanonicalMapList Re)
    (k v key : Str) (h : lastGroupHasKey list key) :
    lastGroupHasKey (AddEntry P list 0 k v) key := by
  obtain ⟨hm, hlast, hf⟩ := h
  unfold AddEntry
  simp only [ne_eq, not_true_eq_false, if_false, hlast, CanonicalMapHashEntry.is_type]
  obtain ⟨t2, ht2, hf2⟩ := find_add_of_find (some hm) k v key hm rfl hf
  exact ⟨t2, by simp [CanonicalMapList.last, ht2], hf2⟩

theorem buildList_append {Re : Type} (P : Pcre2 Re) (a b : List AddEntryCall) :
    buildList P (a ++ b)
      = b.foldl (fun list c => AddEntry P list c.regex_opts c.principal c.canonicalization)
          (buildList P a) := by
  simp [buildList, List.foldl_append]

theorem lastGroupHasKey_literals {Re : Type} (P : Pcre2 Re) (lits : List AddEntryCall)
    (key : Str) (hl : ∀ c ∈ lits, c.regex_opts = 0) :
    ∀ list : CanonicalMapList Re, lastGroupHasKey list key →
      lastGroupHasKey
        (lits.foldl (fun list c => AddEntry P list c.regex_opts c.principal c.canonicalization)
          list) key := by
  induction lits with
  | nil => intro list h; exact h
  | cons c lits ih =>
    intro list h
    simp only [List.foldl_cons]
    apply ih (fun c2 h2 => hl c2 (by simp [h2]))
    rw [hl c (by simp)]
    exact lastGroupHasKey_AddEntry P list _ _ key h

theorem AddEntry_of_compile_error {Re : Type} (P : Pcre2 Re) (list : CanonicalMapList Re)
    (regex_opts : Nat) (principal canon : Str) (hopts : regex_opts ≠ 0)
    (hfail : ∀ re, P.pcre2_compile principal (regex_opts &&& (0xFFFFFFFF ^^^ PCRE2_NOTEMPTY))
      ≠ .ok re) :
    AddEntry P list regex_opts principal canon = list := by
  unfold AddEntry CanonicalMapRegexEntry.add
  simp only [if_pos hopts]
  cases hc : P.pcre2_compile principal (regex_opts &&& (0xFFFFFFFF ^^^ PCRE2_NOTEMPTY)) with
  | ok re => exact absurd hc (hfail re)
  | error e => simp

/-! ## Lemmas: the options a field leaves behind -/

theorem modifierOptions_ne_zero (a b : Bool) : modifierOptions a b ≠ 0 := by
  cases a <;> cases b <;> decide

theorem scanModifiers_cons_i (rest : Str) (offset : Nat) (popts : Option Nat) :
    scanModifiers ('i' :: rest) offset popts
      = scanModifiers rest (offset + 1) (popts.map (fun o => o ||| PCRE2_CASELESS)) := by
  have hN : ('i' : Char) ≠ NUL := by decide
  simp [scanModifiers, hN]

theorem scanModifiers_cons_U (rest : Str) (offset : Nat) (popts : Option Nat) :
    scanModifiers ('U' :: rest) offset popts
      = scanModifiers rest (offset + 1) (popts.map (fun o => o ||| PCRE2_UNGREEDY)) := by
  have hN : ('U' : Char) ≠ NUL := by decide
  have hI : ('U' : Char) ≠ 'i' := by decide
  simp [scanModifiers, hN, hI]

theorem scanModifiers_cons_other (ch : Char) (rest : Str) (offset : Nat) (popts : Option Nat)
    (h : ch = NUL ∨ (ch ≠ 'i' ∧ ch ≠ 'U')) :
    scanModifiers (ch :: rest) offset popts = (offset, popts) := by
  rcases h with h | ⟨h1, h2⟩
  · simp [scanModifiers, h]
  · simp [scanModifiers, h1, h2]

theorem scanModifiers_options (l : Str) :
    ∀ (offset : Nat) (a b : Bool), ∃ a2 b2,
      (scanModifiers l offset (some (modifierOptions a b))).2 = some (modifierOptions a2 b2) := by
  induction l with
  | nil => intro offset a b; exact ⟨a, b, rfl⟩
  | cons ch rest ih =>
    intro offset a b
    by_cases hi : ch = 'i'
    · subst hi
      rw [scanModifiers_cons_i, Option.map_some', modifierOptions_caseless]
      exact ih (offset + 1) true b
    · by_cases hu : ch = 'U'
      · subst hu
        rw [scanModifiers_cons_U, Option.map_some', modifierOptions_ungreedy]
        exact ih (offset + 1) a true
      · rw [scanModifiers_cons_other ch rest offset _ (Or.inr ⟨hi, hu⟩)]
        exact ⟨a, b, rfl⟩

theorem scanModifiers_none (l : Str) :
    ∀ offset : Nat, (scanModifiers l offset none).2 = none := by
  induction l with
  | nil => intro offset; rfl
  | cons ch rest ih =>
    intro offset
    by_cases hi : ch = 'i'
    · subst hi
      rw [scanModifiers_cons_i]
      exact ih (offset + 1)
    · by_cases hu : ch = 'U'
      · subst hu
        rw [scanModifiers_cons_U]
        exact ih (offset + 1)
      · rw [scanModifiers_cons_other ch rest offset _ (Or.inr ⟨hi, hu⟩)]

/-- What the main loop appends to: the head step of the loop. -/
theorem fieldLoop_cons (multiword : Bool) (chEnd c : Char) (rest : Str) (offset : Nat)
    (field : Str) (popts : Option Nat) :
    fieldLoop multiword chEnd (c :: rest) offset field popts
      = if multiword then
          if chEnd = c then
            if chEnd = SLASH then
              ⟨(scanModifiers rest (offset + 1) popts).1, field,
                (scanModifiers rest (offset + 1) popts).2⟩
            else ⟨offset + 1, field, popts⟩
          else if c = BACKSLASH then
            match rest with
            | [] => ⟨offset + 1 + 1, field ++ [NUL], popts⟩
            | d :: rest2 =>
              if chEnd = d then
                fieldLoop multiword chEnd rest2 (offset + 1 + 1) (field ++ [d]) popts
              else if d = BACKSLASH then
                fieldLoop multiword chEnd rest2 (offset + 1 + 1) (field ++ [BACKSLASH]) popts
              else
                fieldLoop multiword chEnd rest2 (offset + 1 + 1) (field ++ [BACKSLASH] ++ [d])
                  popts
          else fieldLoop multiword chEnd rest (offset + 1) (field ++ [c]) popts
        else
          if isFieldSpace c then ⟨offset, field, popts⟩
          else fieldLoop multiword chEnd rest (offset + 1) (field ++ [c]) popts := by
  cases rest <;> simp [fieldLoop]

theorem fieldLoop_slash_options_aux (n : Nat) :
    ∀ (l : Str), l.length ≤ n → ∀ (offset : Nat) (field : Str) (a b : Bool), ∃ a2 b2,
      (fieldLoop true SLASH l offset field (some (modifierOptions a b))).popts
        = some (modifierOptions a2 b2) := by
  induction n with
  | zero =>
    intro l hl offset field a b
    have : l = [] := List.length_eq_zero.mp (by omega)
    subst this
    exact ⟨a, b, by simp [fieldLoop]⟩
  | succ n ih =>
    intro l hl offset field a b
    cases l with
    | nil => exact ⟨a, b, by simp [fieldLoop]⟩
    | cons c rest =>
      have hrest : rest.length ≤ n := by simp only [List.length_cons] at hl; omega
      rw [fieldLoop_cons]
      simp only [if_true]
      by_cases hc : SLASH = c
      · simp only [hc, if_true]
        exact scanModifiers_options rest (offset + 1) a b
      · simp only [hc, if_false]
        by_cases hb : c = BACKSLASH
        · simp only [hb, if_true]
          cases rest with
          | nil => exact ⟨a, b, rfl⟩
          | cons d rest2 =>
            have hlt : rest2.length ≤ n := by simp only [List.length_cons] at hrest; omega
            simp only []
            split
            · exact ih rest2 hlt _ _ a b
            · split
              · exact ih rest2 hlt _ _ a b
              · exact ih rest2 hlt _ _ a b
        · simp only [hb, if_false]
          exact ih rest hrest _ _ a b

theorem fieldLoop_slash_options (l : Str) (offset : Nat) (field : Str) (a b : Bool) :
    ∃ a2 b2, (fieldLoop true SLASH l offset field (some (modifierOptions a b))).popts
      = some (modifierOptions a2 b2) :=
  fieldLoop_slash_options_aux l.length l (le_refl _) offset field a b

theorem fieldLoop_none_aux (multiword : Bool) (chEnd : Char) (n : Nat) :
    ∀ (l : Str), l.length ≤ n → ∀ (offset : Nat) (field : Str),
      (fieldLoop multiword chEnd l offset field none).popts = none := by
  induction n with
  | zero =>
    intro l hl offset field
    have : l = [] := List.length_eq_zero.mp (by omega)
    subst this
    simp [fieldLoop]
  | succ n ih =>
    intro l hl offset field
    cases l with
    | nil => simp [fieldLoop]
    | cons c rest =>
      have hrest : rest.length ≤ n := by simp only [List.length_cons] at hl; omega
      rw [fieldLoop_cons]
      cases multiword with
      | false =>
        simp only [Bool.false_eq_true, if_false]
        split
        · rfl
        · exact ih rest hrest _ _
      | true =>
        simp only [if_true]
        split
        · split
          · exact scanModifiers_none rest _
          · rfl
        · split
          · cases rest with
            | nil => rfl
            | cons d rest2 =>
              have hlt : rest2.length ≤ n := by simp only [List.length_cons] at hrest; omega
              simp only []
              split
              · exact ih rest2 hlt _ _
              · split
                · exact ih rest2 hlt _ _
                · exact ih rest2 hlt _ _
          · exact ih rest hrest _ _

theorem fieldLoop_none (multiword : Bool) (chEnd : Char) (l : Str) (offset : Nat)
    (field : Str) : (fieldLoop multiword chEnd l offset field none).popts = none :=
  fieldLoop_none_aux multiword chEnd l.length l (le_refl _) offset field

theorem ParseField_ok_offset (line : Str) (offset : Nat) (field : Str) (popts : Option Nat)
    (r : ParseResult) (h : ParseField line offset field popts = .ok r) :
    offset ≤ line.length := by
  unfold ParseField at h
  by_contra hlt
  rw [if_pos hlt] at h
  cases h

theorem ParseField_none_popts (line : Str) (offset : Nat) (field : Str) (r : ParseResult)
    (h : ParseField line offset field none = .ok r) : r.popts = none := by
  unfold ParseField at h
  split at h
  · cases h
  · simp only [Option.isNone_none, if_true] at h
    split at h
    · split at h
      · simp only [Except.ok.injEq] at h
        rw [← h]; exact fieldLoop_none _ _ _ _ _
      · simp only [Except.ok.injEq] at h
        rw [← h]; exact fieldLoop_none _ _ _ _ _
    · simp only [Except.ok.injEq] at h
      rw [← h]; exact fieldLoop_none _ _ _ _ _

/-- With an options output that holds 0, the options written are not 0
exactly when the field starts with a slash. -/
theorem ParseField_options_iff_slash (line : Str) (offset : Nat) (field : Str)
    (r : ParseResult) (h : ParseField line offset field (some 0) = .ok r) :
    (∃ o, r.popts = some o)
    ∧ (r.popts.getD 0 ≠ 0
        ↔ ((line.drop offset).dropWhile isFieldSpace).head? = some SLASH) := by
  have hoff := ParseField_ok_offset line offset field _ r h
  cases hrest : (line.drop offset).dropWhile isFieldSpace with
  | nil =>
    have hb := ParseField_bare line offset field (some 0) hoff (by simp [hrest])
      (by simp [hrest])
    rw [hb] at h
    simp only [Except.ok.injEq] at h
    subst h
    simp
  | cons ch tl =>
    by_cases hs : ch = SLASH
    · subst hs
      have hd := ParseField_delimited line offset field 0 SLASH tl hoff hrest (Or.inr rfl)
      rw [hd] at h
      simp only [Except.ok.injEq, if_true] at h
      obtain ⟨a2, b2, hopt⟩ := fieldLoop_slash_options tl
        (offset + ((line.drop offset).takeWhile isFieldSpace).length + 1) field false false
      have h0 : modifierOptions false false = PCRE2_NOTEMPTY := by decide
      rw [h0, h] at hopt
      rw [hopt]
      simp [modifierOptions_ne_zero]
    · by_cases hq : ch = DQUOTE
      · subst hq
        have hd := ParseField_delimited line offset field 0 DQUOTE tl hoff hrest (Or.inl rfl)
        rw [hd] at h
        simp only [Except.ok.injEq] at h
        have hp := fieldLoop_quote_popts tl
          (offset + ((line.drop offset).takeWhile isFieldSpace).length + 1) field
          (some (if DQUOTE = SLASH then PCRE2_NOTEMPTY else 0))
        rw [h] at hp
        rw [hp]
        simp [DQUOTE_ne_SLASH, hs]
      · have hb := ParseField_bare line offset field (some 0) hoff
          (by simp [hrest, hq]) (by simp [hrest, hs])
        rw [hb] at h
        simp only [Except.ok.injEq] at h
        subst h
        simp [hs]

theorem canonicalizationRule_eq_some (assume_hash : Bool) (line : Str) (r : RuleLine)
    (h : canonicalizationRule assume_hash line = .ok (some r)) :
    ∃ method principal canonicalization,
      ParseField line 0 [] none = .ok method
      ∧ ParseField line method.offset [] (if assume_hash then some 0 else none) = .ok principal
      ∧ ParseField line principal.offset [] none = .ok canonicalization
      ∧ method.field ≠ [] ∧ principal.field ≠ [] ∧ canonicalization.field ≠ []
      ∧ r = ⟨some (c_str method.field),
              principal.popts.getD (if assume_hash then 0 else PCRE2_NOTEMPTY),
              c_str principal.field, c_str canonicalization.field⟩ := by
  unfold canonicalizationRule at h
  split at h
  · cases h
  · split at h
    · cases h
    · rename_i method hm
      split at h
      · cases h
      · split at h
        · cases h
        · rename_i principal hp
          split at h
          · cases h
          · rename_i canonicalization hc
            split at h
            · cases h
            · rename_i hne
              simp only [Except.ok.injEq, Option.some.injEq] at h
              refine ⟨method, principal, canonicalization, hm, hp, hc, ?_, ?_, ?_, h.symm⟩
              · exact fun e => hne (Or.inl e)
              · exact fun e => hne (Or.inr (Or.inl e))
              · exact fun e => hne (Or.inr (Or.inr e))

/-! ## Lemmas: what `AddEntry` appends -/

theorem AddEntry_pattern {Re : Type} (P : Pcre2 Re) (list : CanonicalMapList Re)
    (regex_opts : Nat) (principal canon : Str) (hopts : regex_opts ≠ 0) :
    ((∀ re, P.pcre2_compile principal (regex_opts &&& (0xFFFFFFFF ^^^ PCRE2_NOTEMPTY))
          ≠ .ok re)
        ∧ AddEntry P list regex_opts principal canon = list)
    ∨ ∃ re, P.pcre2_compile principal (regex_opts &&& (0xFFFFFFFF ^^^ PCRE2_NOTEMPTY)) = .ok re
        ∧ AddEntry P list regex_opts principal canon
            = list ++ [.regex 0 (some re) (some canon)] := by
  unfold AddEntry CanonicalMapRegexEntry.add
  simp only [if_pos hopts]
  cases hc : P.pcre2_compile principal (regex_opts &&& (0xFFFFFFFF ^^^ PCRE2_NOTEMPTY)) with
  | ok re =>
    right
    exact ⟨re, rfl, by simp [CanonicalMapList.append]⟩
  | error e =>
    left
    refine ⟨?_, by simp⟩
    intro re h
    cases h

theorem ParseCanonicalization_single_rule {Re : Type} (fs : FileSystem) (P : Pcre2 Re)
    (fuel : Nat) (srcname : Str) (assume_hash allow_include : Bool) (line : Str)
    (methods : METHOD_MAP Re) (r : RuleLine) (hinc : isIncludeLine line = false)
    (hrule : canonicalizationRule assume_hash line = .ok (some r)) :
    ParseCanonicalization fs P (fuel + 1) [line] srcname assume_hash allow_include methods
      = .returned 0 (loadRule P methods r) := by
  rw [ParseCanonicalization_succ, canonicalizationLoop_line _ _ _ _ _ _ line methods hinc, hrule]

/-! ## Lemmas: pattern rules in a lookup -/

theorem regex_matches_of_le {Re : Type} (P : Pcre2 Re) (re : Re) (canon : Option Str)
    (p : Str) (cch options : Nat) (h : (P.pcre2_match re p cch options).1 ≤ 0) :
    (CanonicalMapEntry.regex options (some re) canon).matches P p cch = .ok none := by
  simp [CanonicalMapEntry.matches, CanonicalMapRegexEntry.matches, h]

theorem regex_matches_of_pos {Re : Type} (P : Pcre2 Re) (re : Re) (canon : Option Str)
    (p : Str) (cch options : Nat) (h : 0 < (P.pcre2_match re p cch options).1) :
    ∃ groups, (CanonicalMapEntry.regex options (some re) canon).matches P p cch
      = .ok (some (canon, groups)) := by
  have hn : ¬ (P.pcre2_match re p cch options).1 ≤ 0 := by omega
  simp only [CanonicalMapEntry.matches, CanonicalMapRegexEntry.matches, if_neg hn]
  exact ⟨_, rfl⟩

theorem mask_NOTEMPTY : PCRE2_NOTEMPTY &&& (0xFFFFFFFF ^^^ PCRE2_NOTEMPTY) = 0 := by decide

/-- A pattern added to the empty list whose compiled code does not match
the principal leaves the lookup without match. -/
theorem FindMapping_pattern_no_match {Re : Type} (P : Pcre2 Re) (pattern canon p : Str)
    (h : ∀ re, P.pcre2_compile pattern 0 = .ok re → (P.pcre2_match re p p.length 0).1 ≤ 0) :
    FindMapping P (AddEntry P [] PCRE2_NOTEMPTY pattern canon) p = .ok none
    ∧ tablesAllocated (AddEntry P [] PCRE2_NOTEMPTY pattern canon) := by
  have htab : tablesAllocated (AddEntry P ([] : CanonicalMapList Re) PCRE2_NOTEMPTY pattern
      canon) :=
    AddEntry_tablesAllocated P [] _ _ _ (fun e he => by cases he)
  refine ⟨?_, htab⟩
  rcases AddEntry_pattern P [] PCRE2_NOTEMPTY pattern canon (by decide) with hf | ⟨re, hc, hl⟩
  · rw [hf.2]
    rfl
  · rw [hl, List.nil_append, FindMapping_singleton]
    rw [mask_NOTEMPTY] at hc
    exact regex_matches_of_le P re _ p p.length 0 (h re hc)

theorem ParseCanonicalization_two_rules {Re : Type} (fs : FileSystem) (P : Pcre2 Re)
    (fuel : Nat) (srcname : Str) (assume_hash allow_include : Bool) (line1 line2 : Str)
    (methods : METHOD_MAP Re) (r1 r2 : RuleLine)
    (hinc1 : isIncludeLine line1 = false)
    (hrule1 : canonicalizationRule assume_hash line1 = .ok (some r1))
    (hinc2 : isIncludeLine line2 = false)
    (hrule2 : canonicalizationRule assume_hash line2 = .ok (some r2)) :
    ParseCanonicalization fs P (fuel + 1) [line1, line2] srcname assume_hash allow_include
        methods
      = .returned 0 (loadRule P (loadRule P methods r1) r2) := by
  rw [ParseCanonicalization_succ, canonicalizationLoop_cons,
    canonicalizationLoop_line _ _ _ _ _ _ line1 methods hinc1, hrule1]
  simp only [LoadOutcome.andThen]
  rw [canonicalizationLoop_line _ _ _ _ _ _ line2 _ hinc2, hrule2]

/-- A source of plain lines is loaded to its end: the call returns 0 with
the rules of the lines loaded in order. -/
theorem canonicalizationLoop_plain {Re : Type} (fs : FileSystem) (P : Pcre2 Re)
    (nested : Str → METHOD_MAP Re → LoadOutcome Re) (srcname : Str)
    (assume_hash allow_include : Bool) (src : List Str) :
    ∀ methods : METHOD_MAP Re, (∀ l ∈ src, canonicalizationLinePlain assume_hash l) →
      canonicalizationLoop fs P nested srcname assume_hash allow_include src methods
        = .returned 0
            (loadRules P methods (src.filterMap (canonicalizationRule? assume_hash))) := by
  induction src with
  | nil =>
    intro methods _
    rw [canonicalizationLoop_nil]
    rfl
  | cons line src ih =>
    intro methods h
    obtain ⟨hinc, r, hr⟩ := h line (List.mem_cons_self _ _)
    rw [canonicalizationLoop_cons, canonicalizationLoop_line _ _ _ _ _ _ line methods hinc, hr]
    cases r with
    | none =>
      simp only [LoadOutcome.andThen]
      rw [ih methods (fun l hl => h l (List.mem_cons_of_mem _ hl))]
      simp [canonicalizationRule?, hr]
    | some rule =>
      simp only [LoadOutcome.andThen]
      rw [ih _ (fun l hl => h l (List.mem_cons_of_mem _ hl))]
      simp [canonicalizationRule?, hr, loadRules]

/-! ## Lemmas: a user map of bare words -/

theorem c_str_of_no_NUL (w : Str) (h : NUL ∉ w) : c_str w = w := by
  unfold c_str
  rw [List.takeWhile_eq_self_iff]
  intro c hc
  have : c ≠ NUL := fun e => h (e ▸ hc)
  simpa using this

theorem dropWhile_space_of_bareWord (w rest : Str) (hw : bareWord w) :
    (w ++ rest).dropWhile isFieldSpace = w ++ rest := by
  obtain ⟨hne, hsp, _, _⟩ := hw
  cases w with
  | nil => exact absurd rfl hne
  | cons c tl =>
    have hc : isFieldSpace c = false := hsp c (by simp)
    rw [List.cons_append, List.dropWhile_cons_of_neg (by simp [hc])]

theorem takeWhile_space_of_bareWord (w rest : Str) (hw : bareWord w) :
    (w ++ rest).takeWhile isFieldSpace = [] := by
  obtain ⟨hne, hsp, _, _⟩ := hw
  cases w with
  | nil => exact absurd rfl hne
  | cons c tl =>
    have hc : isFieldSpace c = false := hsp c (by simp)
    rw [List.cons_append, List.takeWhile_cons_of_neg (by simp [hc])]

theorem takeWhile_word (w rest : Str) (hw : ∀ c ∈ w, isFieldSpace c = false)
    (hrest : ∀ c, rest.head? = some c → isFieldSpace c = true) :
    (w ++ rest).takeWhile (fun c => !isFieldSpace c) = w := by
  rw [List.takeWhile_append_of_pos (by intro c hc; simp [hw c hc])]
  cases rest with
  | nil => simp
  | cons c tl =>
    have hc : isFieldSpace c = true := hrest c rfl
    rw [List.takeWhile_cons_of_neg (by simp [hc])]
    simp

theorem head?_append_of_bareWord (w rest : Str) (hw : bareWord w) :
    (w ++ rest).head? = w.head? := by
  obtain ⟨hne, _, _, _⟩ := hw
  cases w with
  | nil => exact absurd rfl hne
  | cons c tl => rfl

/-- A line `key user` of bare words is read as the literal rule of the key
and the user. -/
theorem usermapLine_bare (key user eol : Str) (hk : bareWord key) (hu : bareWord user)
    (hk1 : key.head? ≠ some '#') (hk2 : key.head? ≠ some SLASH)
    (heol : ∀ c ∈ eol, isFieldSpace c = true) :
    usermapLine true (key ++ ' ' :: (user ++ eol)) = .ok (.rule ⟨none, 0, key, user⟩) := by
  have hline_ne : key ++ ' ' :: (user ++ eol) ≠ [] := by
    intro e
    exact hk.1 (List.append_eq_nil.mp e).1
  have hspace : isFieldSpace ' ' = true := by decide
  -- the key field
  have h1 : ParseField (key ++ ' ' :: (user ++ eol)) 0 [] (some 0)
      = .ok ⟨key.length, key, some 0⟩ := by
    have hb := ParseField_bare (key ++ ' ' :: (user ++ eol)) 0 [] (some 0) (Nat.zero_le _)
      (by rw [List.drop_zero, dropWhile_space_of_bareWord _ _ hk,
            head?_append_of_bareWord _ _ hk]; exact hk.2.2.2)
      (by intro _
          rw [List.drop_zero, dropWhile_space_of_bareWord _ _ hk,
            head?_append_of_bareWord _ _ hk]; exact hk2)
    rw [hb, List.drop_zero, dropWhile_space_of_bareWord _ _ hk,
      takeWhile_space_of_bareWord _ _ hk,
      takeWhile_word key _ hk.2.1 (by intro c hc; simp at hc; subst hc; exact hspace)]
    simp
  -- the user field
  have hdrop : (key ++ ' ' :: (user ++ eol)).drop key.length = ' ' :: (user ++ eol) :=
    List.drop_left _ _
  have hdw : (' ' :: (user ++ eol)).dropWhile isFieldSpace = user ++ eol := by
    rw [List.dropWhile_cons_of_pos hspace, dropWhile_space_of_bareWord _ _ hu]
  have htw : (' ' :: (user ++ eol)).takeWhile isFieldSpace = [' '] := by
    rw [List.takeWhile_cons_of_pos hspace, takeWhile_space_of_bareWord _ _ hu]
  have h2 : ParseField (key ++ ' ' :: (user ++ eol)) key.length [] none
      = .ok ⟨key.length + 1 + user.length, user, none⟩ := by
    have hb := ParseField_bare (key ++ ' ' :: (user ++ eol)) key.length [] none
      (by simp)
      (by rw [hdrop, hdw, head?_append_of_bareWord _ _ hu]; exact hu.2.2.2)
      (by intro h; cases h)
    rw [hb, hdrop, hdw, htw,
      takeWhile_word user eol hu.2.1
        (by intro c hc
            cases eol with
            | nil => cases hc
            | cons d tl =>
              simp only [List.head?_cons, Option.some.injEq] at hc
              subst hc
              exact heol _ (by simp))]
    simp
  unfold usermapLine
  rw [if_neg hline_ne]
  simp only [if_true, h1]
  have hcond : ¬ (key.length = 0 ∨ key.head? = some '#') := by
    rintro (h | h)
    · exact hk.1 (List.length_eq_zero.mp h)
    · exact hk1 h
  rw [if_neg hcond]
  simp only [h2]
  have hempty : ¬ (key = [] ∨ user = []) := by
    rintro (h | h)
    · exact hk.1 h
    · exact hu.1 h
  rw [if_neg hempty, c_str_of_no_NUL key hk.2.2.1, c_str_of_no_NUL user hu.2.2.1]
  rfl

theorem ParseUsermap_accepted {Re : Type} (P : Pcre2 Re) (assume_hash : Bool)
    (methods : METHOD_MAP Re) (src : List Str)
    (h : ∀ l ∈ src, usermapLineAccepted assume_hash l) :
    ParseUsermap P src assume_hash methods
      = .returned 0 (loadRules P methods (src.filterMap (usermapRule? assume_hash))) := by
  have := usermapLoop_accepted P assume_hash src [] 0 methods h
  rw [List.append_nil, usermapLoop_nil] at this
  exact this

theorem firstLiteral_cons (k u : Str) (entries : List (Str × Str)) (x : Str) :
    firstLiteral ((k, u) :: entries) x
      = MatchOutcome.orElse (.ok (if x = k then some (some u, [k]) else none))
          (firstLiteral entries x) := by
  unfold firstLiteral
  by_cases h : x = k
  · subst h
    simp [MatchOutcome.orElse]
  · have hkx : ¬ k = x := fun e => h e.symm
    rw [List.find?_cons_of_neg _ (by simpa using hkx), if_neg h]
    rfl

/-- The lookup in the user map after literal rules are loaded: what was
there before, then the first of the loaded pairs with the key. -/
theorem FindMapping_loadRules_literals {Re : Type} (P : Pcre2 Re)
    (entries : List (Str × Str)) (x : Str) :
    ∀ m : METHOD_MAP Re, (∀ k, tablesAllocated (m.listOf k)) →
      FindMapping P
        ((loadRules P m (entries.map (fun e => (⟨none, 0, e.1, e.2⟩ : RuleLine)))).listOf none) x
        = MatchOutcome.orElse (FindMapping P (m.listOf none) x) (firstLiteral entries x) := by
  induction entries with
  | nil =>
    intro m _
    simp only [List.map_nil, loadRules, List.foldl_nil, firstLiteral, List.find?_nil,
      Option.map_none']
    exact (orElse_ok_none_right _).symm
  | cons e entries ih =>
    intro m hm
    obtain ⟨k, u⟩ := e
    have hstep : loadRules P m
        (((k, u) :: entries).map (fun e => (⟨none, 0, e.1, e.2⟩ : RuleLine)))
        = loadRules P (loadRule P m ⟨none, 0, k, u⟩)
            (entries.map (fun e => (⟨none, 0, e.1, e.2⟩ : RuleLine))) := rfl
    rw [hstep, ih _ (loadRule_tablesAllocated P m _ hm), listOf_loadRule, if_pos rfl,
      FindMapping_AddEntry P _ ⟨0, k, u⟩ x (hm none), naiveFind_single_literal P _ x rfl,
      orElse_assoc, firstLiteral_cons]

theorem usermap_rules_of_entries (entries : List (Str × Str)) (eol : Str)
    (heol : ∀ c ∈ eol, isFieldSpace c = true)
    (hentries : ∀ e ∈ entries, bareWord e.1 ∧ e.1.head? ≠ some '#' ∧ e.1.head? ≠ some SLASH
      ∧ bareWord e.2 ∧ BACKSLASH ∉ e.2) :
    (∀ l ∈ entries.map (fun e => e.1 ++ ' ' :: (e.2 ++ eol)), usermapLineAccepted true l)
    ∧ (entries.map (fun e => e.1 ++ ' ' :: (e.2 ++ eol))).filterMap (usermapRule? true)
        = entries.map (fun e => (⟨none, 0, e.1, e.2⟩ : RuleLine)) := by
  have hline : ∀ e ∈ entries,
      usermapLine true (e.1 ++ ' ' :: (e.2 ++ eol)) = .ok (.rule ⟨none, 0, e.1, e.2⟩) := by
    intro e he
    obtain ⟨hk, hk1, hk2, hu, _⟩ := hentries e he
    exact usermapLine_bare e.1 e.2 eol hk hu hk1 hk2 heol
  constructor
  · intro l hl
    obtain ⟨e, he, rfl⟩ := List.mem_map.mp hl
    exact Or.inr ⟨_, hline e he⟩
  · clear hentries
    induction entries with
    | nil => rfl
    | cons e entries ih =>
      have hr : usermapRule? true (e.1 ++ ' ' :: (e.2 ++ eol)) = some ⟨none, 0, e.1, e.2⟩ := by
        simp [usermapRule?, hline e (by simp), UsermapLine.rule?]
      rw [List.map_cons, List.filterMap_cons_some hr, List.map_cons,
        ih (fun e2 h2 => hline e2 (by simp [h2]))]

/-! # The claims, second part -/

/-- C11: bare-word tokenizing. For every line and offset within the line,
when the first character behind the leading spaces, tabs and newlines is not
a double quote (and not a slash when options are requested), `ParseField`
appends to the field the maximal run of characters up to, not including, the
next space, tab or newline or the end of the line, with no escape
processing, leaves the options alone and returns the index of that white
space character or the line length; the run holds no space, tab or
newline. -/
theorem ParseField_bare_word (line : Str) (offset : Nat) (field : Str) (popts : Option Nat)
    (hoff : offset ≤ line.length)
    (hq : ((line.drop offset).dropWhile isFieldSpace).head? ≠ some DQUOTE)
    (hs : popts.isSome → ((line.drop offset).dropWhile isFieldSpace).head? ≠ some SLASH) :
    ∃ spaces word tail : Str,
      spaces = (line.drop offset).takeWhile isFieldSpace
      ∧ word = ((line.drop offset).dropWhile isFieldSpace).takeWhile (fun c => !isFieldSpace c)
      ∧ line.drop offset = spaces ++ (word ++ tail)
      ∧ (∀ c ∈ spaces, isFieldSpace c = true)
      ∧ (∀ c ∈ word, isFieldSpace c = false)
      ∧ (∀ c, (word ++ tail).head? = some c → isFieldSpace c = false)
      ∧ (∀ c, tail.head? = some c → isFieldSpace c = true)
      ∧ ParseField line offset field popts
          = .ok ⟨offset + spaces.length + word.length, field ++ word, popts⟩
      ∧ offset + spaces.length + word.length ≤ line.length
      ∧ line.drop (offset + spaces.length + word.length) = tail := by
  refine ⟨(line.drop offset).takeWhile isFieldSpace,
    ((line.drop offset).dropWhile isFieldSpace).takeWhile (fun c => !isFieldSpace c),
    ((line.drop offset).dropWhile isFieldSpace).dropWhile (fun c => !isFieldSpace c),
    rfl, rfl, ?_, ?_, ?_, ?_, ?_, ParseField_bare line offset field popts hoff hq hs, ?_, ?_⟩
  · rw [List.takeWhile_append_dropWhile, List.takeWhile_append_dropWhile]
  · intro c hc
    exact List.mem_takeWhile_imp hc
  · intro c hc
    simpa using List.mem_takeWhile_imp hc
  · intro c hc
    rw [List.takeWhile_append_dropWhile] at hc
    have h := List.head?_dropWhile_not isFieldSpace (line.drop offset)
    rw [hc] at h
    simpa using h
  · intro c hc
    have h := List.head?_dropWhile_not (fun c => !isFieldSpace c)
      ((line.drop offset).dropWhile isFieldSpace)
    rw [hc] at h
    simpa using h
  · have h1 : (line.drop offset).length
        = ((line.drop offset).takeWhile isFieldSpace).length
          + (((line.drop offset).dropWhile isFieldSpace).takeWhile
              (fun c => !isFieldSpace c)).length
          + (((line.drop offset).dropWhile isFieldSpace).dropWhile
              (fun c => !isFieldSpace c)).length := by
      conv_lhs => rw [← List.takeWhile_append_dropWhile isFieldSpace (line.drop offset),
        ← List.takeWhile_append_dropWhile (fun c => !isFieldSpace c)
          ((line.drop offset).dropWhile isFieldSpace)]
      simp only [List.length_append]
      omega
    rw [List.length_drop] at h1
    omega
  · have h2 : line.drop offset
        = (line.drop offset).takeWhile isFieldSpace
          ++ ((((line.drop offset).dropWhile isFieldSpace).takeWhile
                (fun c => !isFieldSpace c))
              ++ (((line.drop offset).dropWhile isFieldSpace).dropWhile
                (fun c => !isFieldSpace c))) := by
      rw [List.takeWhile_append_dropWhile, List.takeWhile_append_dropWhile]
    have h3 := drop_append_append ((line.drop offset).takeWhile isFieldSpace)
      (((line.drop offset).dropWhile isFieldSpace).takeWhile (fun c => !isFieldSpace c))
      (((line.drop offset).dropWhile isFieldSpace).dropWhile (fun c => !isFieldSpace c))
    rw [← h2, List.drop_drop] at h3
    rw [← h3]
    congr 1
    omega

/-- Witness of C11: on the line ` FS alice` from offset 3 the field is
`alice` and the call returns the line length 9. -/
theorem ParseField_bare_word_witness :
    ∃ spaces word tail : Str,
      spaces = (" FS alice".toList.drop 3).takeWhile isFieldSpace
      ∧ word = ((" FS alice".toList.drop 3).dropWhile isFieldSpace).takeWhile
          (fun c => !isFieldSpace c)
      ∧ " FS alice".toList.drop 3 = spaces ++ (word ++ tail)
      ∧ (∀ c ∈ spaces, isFieldSpace c = true)
      ∧ (∀ c ∈ word, isFieldSpace c = false)
      ∧ (∀ c, (word ++ tail).head? = some c → isFieldSpace c = false)
      ∧ (∀ c, tail.head? = some c → isFieldSpace c = true)
      ∧ ParseField " FS alice".toList 3 [] none
          = .ok ⟨3 + spaces.length + word.length, [] ++ word, none⟩
      ∧ 3 + spaces.length + word.length ≤ " FS alice".toList.length
      ∧ " FS alice".toList.drop (3 + spaces.length + word.length) = tail :=
  ParseField_bare_word " FS alice".toList 3 [] none (by decide) (by decide) (by decide)

/-- Counterexample to C12: between the slashes of `/a\\b/` the text up to
the closing slash is `a\\b`, with no `\/` in it; the field is `a\b`. -/
theorem ParseField_regex_literal_counterexample :
    ParseField [SLASH, 'a', BACKSLASH, BACKSLASH, 'b', SLASH] 0 [] (some 0)
      = .ok ⟨6, ['a', BACKSLASH, 'b'], some PCRE2_NOTEMPTY⟩
    ∧ ['a', BACKSLASH, 'b'] ≠ ['a', BACKSLASH, BACKSLASH, 'b'] := by
  decide

/-- C12, amended: regex-literal tokenizing. When `ParseField` is called with
an options output and the field starts with a slash, the field is the text
up to the next unescaped slash with `\/` yielding `/`, `\\` yielding `\` and
any other `\x` kept as `\x`; the options written are require-non-empty, plus
case-insensitive exactly when an `i` occurs in the run of `i` and `U` letters
right behind the closing slash, plus ungreedy exactly when a `U` occurs in
that run; the returned offset is just past that run. When the field starts
with a double quote the options written are 0. -/
theorem ParseField_regex_literal (line : Str) (offset : Nat) (field : Str) (v : Nat)
    (hoff : offset ≤ line.length) :
    (∀ (tokens : List FieldToken) (mods post : Str),
        (line.drop offset).dropWhile isFieldSpace
          = SLASH :: (tokensSource tokens ++ SLASH :: (mods ++ post)) →
        (∀ t ∈ tokens, t.wellFormed SLASH) →
        (∀ c ∈ mods, c = 'i' ∨ c = 'U') →
        (∀ c, post.head? = some c → c ≠ 'i' ∧ c ≠ 'U') →
        ParseField line offset field (some v)
          = .ok ⟨offset + ((line.drop offset).takeWhile isFieldSpace).length + 1
                  + (tokensSource tokens).length + 1 + mods.length,
                field ++ tokensValue SLASH tokens,
                some (modifierOptions (decide ('i' ∈ mods)) (decide ('U' ∈ mods)))⟩)
    ∧ (∀ tl : Str, (line.drop offset).dropWhile isFieldSpace = DQUOTE :: tl →
        ∃ r, ParseField line offset field (some v) = .ok r ∧ r.popts = some 0) := by
  constructor
  · intro tokens mods post hrest htok hmods hpost
    rw [ParseField_delimited line offset field v SLASH _ hoff hrest (Or.inr rfl),
      fieldLoop_tokens SLASH (by decide) tokens _ _ _ _ htok, fieldLoop_slash_close]
    simp only [if_true]
    have hscan := scanModifiers_run mods post
      (offset + ((line.drop offset).takeWhile isFieldSpace).length + 1
        + (tokensSource tokens).length + 1) false false hmods hpost
    have h0 : modifierOptions false false = PCRE2_NOTEMPTY := by decide
    rw [h0] at hscan
    rw [hscan]
    simp
  · intro tl hrest
    refine ⟨_, ParseField_delimited line offset field v DQUOTE tl hoff hrest (Or.inl rfl), ?_⟩
    rw [fieldLoop_quote_popts]
    simp [DQUOTE_ne_SLASH]

/-- Witness of C12: the field `/a\/b\.c/iU` behind `FS ` gives the text
`a/b\.c` with all three options and the offset behind `U`. -/
theorem ParseField_regex_literal_witness :
    ParseField
        ("FS ".toList ++ SLASH :: (['a', BACKSLASH, SLASH, 'b', BACKSLASH, '.', 'c']
          ++ SLASH :: ("iU".toList ++ " x".toList))) 2 [] (some 0)
      = .ok ⟨2 + (("FS ".toList ++ SLASH :: (['a', BACKSLASH, SLASH, 'b', BACKSLASH, '.', 'c']
                ++ SLASH :: ("iU".toList ++ " x".toList))).drop 2
              |>.takeWhile isFieldSpace).length + 1
              + (tokensSource [.plain 'a', .escaped SLASH, .plain 'b', .escaped '.',
                  .plain 'c']).length + 1 + "iU".toList.length,
            [] ++ tokensValue SLASH [.plain 'a', .escaped SLASH, .plain 'b', .escaped '.',
              .plain 'c'],
            some (modifierOptions (decide ('i' ∈ "iU".toList)) (decide ('U' ∈ "iU".toList)))⟩ :=
  (ParseField_regex_literal _ 2 [] 0 (by decide)).1
    [.plain 'a', .escaped SLASH, .plain 'b', .escaped '.', .plain 'c'] "iU".toList " x".toList
    (by decide) (by decide) (by decide) (by decide)

/-- C13, the code at a failing input: on the line `"ab\` (length 4, no NUL in
it) `ParseField` returns 5 and the field `ab` followed by a NUL; a following
call at the returned position fails its assertion, and so
`ParseCanonicalization` aborts on the line `FS "ab\`. -/
theorem ParseField_trailing_backslash :
    ParseField [DQUOTE, 'a', 'b', BACKSLASH] 0 [] none = .ok ⟨5, ['a', 'b', NUL], none⟩
    ∧ [DQUOTE, 'a', 'b', BACKSLASH].length = 4
    ∧ NUL ∉ [DQUOTE, 'a', 'b', BACKSLASH]
    ∧ ParseField [DQUOTE, 'a', 'b', BACKSLASH] 5 [] none = .error .assertFailed
    ∧ ParseField [SLASH, 'a', 'b', BACKSLASH] 0 [] (some 0)
        = .ok ⟨5, ['a', 'b', NUL], some PCRE2_NOTEMPTY⟩
    ∧ ParseCanonicalization exampleFileSystem examplePcre2 2
        [['F', 'S', ' ', DQUOTE, 'a', 'b', BACKSLASH]] "map".toList false true []
        = .aborted .assertFailed := by
  decide

/-- Counterexample to C14: with `assume_hash = false` the line `FS alice A`,
whose principal field is a bare word, yields a pattern rule. -/
theorem ParseCanonicalization_rule_kind_counterexample :
    ParseCanonicalization exampleFileSystem examplePcre2 1 ["FS alice A".toList] "map".toList
        false true []
      = .returned 0
          [(some "FS".toList, [.regex 0 (some "alice".toList) (some "A".toList)])]
    ∧ (("FS alice A".toList.drop 2).dropWhile isFieldSpace).head? = some 'a' := by
  decide

/-- C14, amended: when a canonicalization source is loaded with
`ParseCanonicalization` and `assume_hash = true`, a well-formed line is handed
to `AddEntry` as a pattern (options not 0) if and only if its principal field
began with a slash, and a bare-word or double-quoted principal field gives a
literal rule, which matches the exact principal text only; with
`assume_hash = false` every well-formed line is handed over as a pattern
(options `PCRE2_NOTEMPTY`). A pattern that compiles is appended as a regex
entry; a literal goes into the last group. -/
theorem ParseCanonicalization_rule_kind {Re : Type} (fs : FileSystem) (P : Pcre2 Re)
    (fuel : Nat) (srcname : Str) (assume_hash allow_include : Bool) (line : Str)
    (methods : METHOD_MAP Re) (r : RuleLine) (method : ParseResult)
    (hinc : isIncludeLine line = false)
    (hrule : canonicalizationRule assume_hash line = .ok (some r))
    (hmethod : ParseField line 0 [] none = .ok method) :
    ParseCanonicalization fs P (fuel + 1) [line] srcname assume_hash allow_include methods
      = .returned 0 (loadRule P methods r)
    ∧ (assume_hash = false → r.regex_opts = PCRE2_NOTEMPTY)
    ∧ (assume_hash = true →
        (r.regex_opts ≠ 0
          ↔ ((line.drop method.offset).dropWhile isFieldSpace).head? = some SLASH))
    ∧ (r.regex_opts ≠ 0 → ∀ list : CanonicalMapList Re,
        AddEntry P list r.regex_opts r.principal r.canonicalization = list
        ∨ ∃ re, AddEntry P list r.regex_opts r.principal r.canonicalization
            = list ++ [.regex 0 (some re) (some r.canonicalization)])
    ∧ (r.regex_opts = 0 → ∀ list : CanonicalMapList Re, tablesAllocated list →
        lastGroupHasKey (AddEntry P list r.regex_opts r.principal r.canonicalization)
          r.principal
        ∧ ∀ x, FindMapping P (AddEntry P list r.regex_opts r.principal r.canonicalization) x
            = MatchOutcome.orElse (FindMapping P list x)
                (.ok (if x = r.principal then some (some r.canonicalization, [r.principal])
                  else none))) := by
  obtain ⟨m, p, c, hm, hp, hc, _, _, _, hr⟩ := canonicalizationRule_eq_some assume_hash line r hrule
  rw [hmethod] at hm
  simp only [Except.ok.injEq] at hm
  subst hm
  refine ⟨ParseCanonicalization_single_rule fs P fuel srcname assume_hash allow_include line
    methods r hinc hrule, ?_, ?_, ?_, ?_⟩
  · intro hah
    subst hah
    simp only [Bool.false_eq_true, if_false] at hp hr
    rw [hr, ParseField_none_popts line method.offset [] p hp]
    rfl
  · intro hah
    subst hah
    simp only [if_true] at hp hr
    rw [hr]
    exact (ParseField_options_iff_slash line method.offset [] p hp).2
  · intro hopts list
    rcases AddEntry_pattern P list r.regex_opts r.principal r.canonicalization hopts with h | h
    · exact Or.inl h.2
    · obtain ⟨re, _, h2⟩ := h
      exact Or.inr ⟨re, h2⟩
  · intro hopts list hlist
    rw [hopts]
    refine ⟨lastGroupHasKey_AddEntry_self P list _ _, fun x => ?_⟩
    rw [FindMapping_AddEntry P list ⟨0, r.principal, r.canonicalization⟩ x hlist,
      naiveFind_single_literal P _ x rfl]

/-- Witness of C14: with `assume_hash = true` the line `FS /a.c/i X` is
handed over as a pattern. -/
theorem ParseCanonicalization_rule_kind_witness :
    ParseCanonicalization exampleFileSystem examplePcre2 (0 + 1) ["FS /a.c/i X".toList]
        "map".toList true true []
      = .returned 0
          (loadRule examplePcre2 []
            ⟨some "FS".toList, modifierOptions true false, "a.c".toList, "X".toList⟩) :=
  (ParseCanonicalization_rule_kind exampleFileSystem examplePcre2 0 "map".toList true true
    "FS /a.c/i X".toList []
    ⟨some "FS".toList, modifierOptions true false, "a.c".toList, "X".toList⟩
    ⟨2, "FS".toList, none⟩ (by decide) (by decide) (by decide)).1

/-- C17: a duplicate literal key is rejected and the first occurrence wins.
When `AddEntry` is called with a literal key that the last literal group of
the list holds, `CanonicalMapHashEntry::add` returns false and leaves the
table, the list is unchanged, every lookup gives what it gave before, and a
lookup of the key that reaches the group returns the value stored first. In
a run of literals a repeated key leaves the built list as it was. -/
theorem AddEntry_duplicate_literal {Re : Type} (P : Pcre2 Re) (list : CanonicalMapList Re)
    (hm : LITERAL_HASH) (key canon : Str)
    (hlast : list.last = some (.hash (some hm))) (hdup : hm.find key ≠ none) :
    (CanonicalMapHashEntry.add (some hm) key canon).2 = false
    ∧ (CanonicalMapHashEntry.add (some hm) key canon).1 = some hm
    ∧ AddEntry P list 0 key canon = list
    ∧ (∀ x, FindMapping P (AddEntry P list 0 key canon) x = FindMapping P list x)
    ∧ (∀ first, hm.find key = some first →
        (∀ e ∈ list.dropLast, e.matches P key key.length = .ok none) →
        FindMapping P (AddEntry P list 0 key canon) key = .ok (some (some first.2, [key])))
    ∧ (∀ (calls lits : List AddEntryCall) (v1 v2 : Str), (∀ c ∈ lits, c.regex_opts = 0) →
        buildList P (calls ++ ⟨0, key, v1⟩ :: (lits ++ [⟨0, key, v2⟩]))
          = buildList P (calls ++ ⟨0, key, v1⟩ :: lits)) := by
  have hsame : AddEntry P list 0 key canon = list :=
    AddEntry_of_duplicate P list key canon ⟨hm, hlast, hdup⟩
  refine ⟨by simp [CanonicalMapHashEntry.add, hdup], by simp [CanonicalMapHashEntry.add, hdup],
    hsame, fun x => by rw [hsame], ?_, ?_⟩
  · intro first hfirst hpre
    rw [hsame]
    have hsplit : list.dropLast ++ [CanonicalMapEntry.hash (some hm)] = list :=
      List.dropLast_append_getLast? _ (by simpa [CanonicalMapList.last] using hlast)
    have hkey : first.1 = key := by
      unfold LITERAL_HASH.find at hfirst
      simpa using List.find?_some hfirst
    refine (FindMapping_eq_some_iff P list key _).mpr
      ⟨list.dropLast, .hash (some hm), [], hsplit.symm, hpre, ?_⟩
    simp [CanonicalMapEntry.matches, CanonicalMapHashEntry.matches, hfirst, hkey]
  · intro calls lits v1 v2 hl
    have hcons : ∀ tail : List AddEntryCall,
        calls ++ (⟨0, key, v1⟩ : AddEntryCall) :: tail = (calls ++ [⟨0, key, v1⟩]) ++ tail := by
      intro tail; simp
    rw [hcons, hcons lits, ← List.append_assoc, buildList_snoc]
    apply AddEntry_of_duplicate
    rw [buildList_append]
    apply lastGroupHasKey_literals P lits key hl
    rw [buildList_snoc]
    exact lastGroupHasKey_AddEntry_self P _ key v1

/-- Witness of C17: `alice` is added a second time to the group that holds
`alice` and `bob`; the lookup still gives the first value. -/
theorem AddEntry_duplicate_literal_witness :
    FindMapping examplePcre2
        (AddEntry examplePcre2
          [.hash (some [("alice".toList, "first".toList), ("bob".toList, "B".toList)])] 0
          "alice".toList "second".toList) "alice".toList
      = .ok (some (some ("alice".toList, "first".toList).2, ["alice".toList])) :=
  (AddEntry_duplicate_literal examplePcre2
    [.hash (some [("alice".toList, "first".toList), ("bob".toList, "B".toList)])]
    [("alice".toList, "first".toList), ("bob".toList, "B".toList)]
    "alice".toList "second".toList rfl (by decide)).2.2.2.2.1
    ("alice".toList, "first".toList) (by decide) (by decide)

/-- C18: an invalid pattern is discarded without other effect. When
`AddEntry` is called with pattern options and the regular expression does not
compile, the list is left as it was; a sequence of calls builds the same list
with or without the failed call, so the literals before and behind it share
one group; and the load of the line leaves every rule list as it was. -/
theorem AddEntry_invalid_pattern {Re : Type} (P : Pcre2 Re) (regex_opts : Nat)
    (principal canon : Str) (hopts : regex_opts ≠ 0)
    (hfail : ∀ re, P.pcre2_compile principal (regex_opts &&& (0xFFFFFFFF ^^^ PCRE2_NOTEMPTY))
      ≠ .ok re) :
    (∀ list : CanonicalMapList Re, AddEntry P list regex_opts principal canon = list)
    ∧ (∀ calls1 calls2 : List AddEntryCall,
        buildList P (calls1 ++ ⟨regex_opts, principal, canon⟩ :: calls2)
          = buildList P (calls1 ++ calls2))
    ∧ (∀ (list : CanonicalMapList Re) (k1 v1 k2 v2 : Str),
        AddEntry P (AddEntry P (AddEntry P list 0 k1 v1) regex_opts principal canon) 0 k2 v2
          = AddEntry P (AddEntry P list 0 k1 v1) 0 k2 v2
        ∧ (AddEntry P (AddEntry P list 0 k1 v1) 0 k2 v2).length
          = (AddEntry P list 0 k1 v1).length)
    ∧ (∀ (methods : METHOD_MAP Re) (method key : Option Str),
        (loadRule P methods ⟨method, regex_opts, principal, canon⟩).listOf key
          = methods.listOf key) := by
  have hsame : ∀ list : CanonicalMapList Re,
      AddEntry P list regex_opts principal canon = list :=
    fun list => AddEntry_of_compile_error P list regex_opts principal canon hopts hfail
  refine ⟨hsame, ?_, ?_, ?_⟩
  · intro calls1 calls2
    rw [buildList_append, buildList_append, List.foldl_cons, hsame]
  · intro list k1 v1 k2 v2
    rw [hsame]
    refine ⟨rfl, ?_⟩
    obtain ⟨hm, hlast, _⟩ := lastGroupHasKey_AddEntry_self P list k1 v1
    have hsplit : (AddEntry P list 0 k1 v1).dropLast ++ [CanonicalMapEntry.hash (some hm)]
        = AddEntry P list 0 k1 v1 :=
      List.dropLast_append_getLast? _ (by simpa [CanonicalMapList.last] using hlast)
    generalize AddEntry P list 0 k1 v1 = l1 at hlast hsplit
    unfold AddEntry
    simp only [ne_eq, not_true_eq_false, if_false, hlast, CanonicalMapHashEntry.is_type]
    rw [← hsplit]
    simp
  · intro methods method key
    rw [listOf_loadRule]
    split
    · exact hsame _
    · rfl

/-- Witness of C18: the pattern `(` does not compile; `alice` and `bob`
around it end up in one group. -/
theorem AddEntry_invalid_pattern_witness :
    buildList examplePcre2
        ([⟨0, "alice".toList, "A".toList⟩] ++ ⟨PCRE2_NOTEMPTY, "(".toList, "x".toList⟩
          :: [⟨0, "bob".toList, "B".toList⟩])
      = buildList examplePcre2
        ([⟨0, "alice".toList, "A".toList⟩] ++ [⟨0, "bob".toList, "B".toList⟩]) :=
  (AddEntry_invalid_pattern examplePcre2 PCRE2_NOTEMPTY "(".toList "x".toList (by decide)
    (by intro re; simp [examplePcre2])).2.1 [⟨0, "alice".toList, "A".toList⟩] [⟨0, "bob".toList, "B".toList⟩]

/-- Counterexample to C19: with the example engine, whose regex rule does not
match `someuser`, the lookup of `someuser` after loading the two lines gives
`unused`, not `someuser`, for either value of `assume_hash`. -/
theorem GetCanonicalization_kerberos_example_counterexample :
    (∃ m, ParseCanonicalization exampleFileSystem examplePcre2 1
          [exampleKerberosLine, exampleSomeuserLine] "map".toList true true [] = .returned 0 m
        ∧ GetCanonicalization examplePcre2 m "KERBEROS".toList "someuser".toList []
            = .ok (0, "unused".toList)
        ∧ GetCanonicalization examplePcre2 m "KERBEROS".toList "someuser".toList []
            ≠ .ok (0, "someuser".toList))
    ∧ (∃ m, ParseCanonicalization exampleFileSystem examplePcre2 1
          [exampleKerberosLine, exampleSomeuserLine] "map".toList false true [] = .returned 0 m
        ∧ GetCanonicalization examplePcre2 m "KERBEROS".toList "someuser".toList []
            = .ok (0, "unused".toList)
        ∧ GetCanonicalization examplePcre2 m "KERBEROS".toList "someuser".toList []
            ≠ .ok (0, "someuser".toList)) :=
  ⟨⟨_, rfl, by decide, by decide⟩, ⟨_, rfl, by decide, by decide⟩⟩

/-- C19, amended: after loading into a fresh engine a canonicalization source
with the two lines `KERBEROS /^(.*)@EXAMPLE\.COM$/ \1` and
`KERBEROS someuser unused`, the regex rule not matching the principal
`someuser`, `GetCanonicalization("KERBEROS", "someuser")` with an empty output
returns 0 and yields the canonical string `unused`: with `assume_hash = true`
through the literal rule, with `assume_hash = false` when the pattern
`someuser` compiles and matches `someuser`. -/
theorem GetCanonicalization_kerberos_example {Re : Type} (fs : FileSystem) (P : Pcre2 Re)
    (fuel : Nat) (srcname : Str) (allow_include : Bool) :
    ((∀ re, P.pcre2_compile exampleKerberosRegex 0 = .ok re →
          (P.pcre2_match re "someuser".toList "someuser".toList.length 0).1 ≤ 0) →
      ∃ m, ParseCanonicalization fs P (fuel + 1) [exampleKerberosLine, exampleSomeuserLine]
            srcname true allow_include [] = .returned 0 m
        ∧ GetCanonicalization P m "KERBEROS".toList "someuser".toList []
            = .ok (0, "unused".toList))
    ∧ ((∀ re, P.pcre2_compile (SLASH :: (exampleKerberosRegex ++ [SLASH])) 0 = .ok re →
          (P.pcre2_match re "someuser".toList "someuser".toList.length 0).1 ≤ 0) →
      (∃ re2, P.pcre2_compile "someuser".toList 0 = .ok re2
          ∧ 0 < (P.pcre2_match re2 "someuser".toList "someuser".toList.length 0).1) →
      ∃ m, ParseCanonicalization fs P (fuel + 1) [exampleKerberosLine, exampleSomeuserLine]
            srcname false allow_include [] = .returned 0 m
        ∧ GetCanonicalization P m "KERBEROS".toList "someuser".toList []
            = .ok (0, "unused".toList)) := by
  have hplain : ∀ groups : List Str,
      PerformSubstitution groups "unused".toList [] = .ok "unused".toList := by
    intro groups
    simpa using PerformSubstitution_plain groups "unused".toList [] (by decide)
  constructor
  · intro h1
    refine ⟨_, ParseCanonicalization_two_rules fs P fuel srcname true allow_include
      exampleKerberosLine exampleSomeuserLine []
      ⟨some "KERBEROS".toList, PCRE2_NOTEMPTY, exampleKerberosRegex, [BACKSLASH, '1']⟩
      ⟨some "KERBEROS".toList, 0, "someuser".toList, "unused".toList⟩
      (by decide) (by decide) (by decide) (by decide), ?_⟩
    have hno := FindMapping_pattern_no_match P exampleKerberosRegex [BACKSLASH, '1']
      "someuser".toList h1
    have hfirst : GetCanonicalization P
        (loadRules P []
          [⟨some "KERBEROS".toList, PCRE2_NOTEMPTY, exampleKerberosRegex, [BACKSLASH, '1']⟩])
        "KERBEROS".toList "someuser".toList [] = .ok (-1, []) := by
      have hl1 : loadRules P []
          [⟨some "KERBEROS".toList, PCRE2_NOTEMPTY, exampleKerberosRegex, [BACKSLASH, '1']⟩]
          = loadRule P []
            ⟨some "KERBEROS".toList, PCRE2_NOTEMPTY, exampleKerberosRegex, [BACKSLASH, '1']⟩ :=
        rfl
      rw [GetCanonicalization_eq, hl1, listOf_loadRule, if_pos rfl, listOf_nil, hno.1]
    have hfind := FindMapping_loaded_literal P
      [⟨some "KERBEROS".toList, PCRE2_NOTEMPTY, exampleKerberosRegex, [BACKSLASH, '1']⟩] []
      "KERBEROS".toList "someuser".toList "unused".toList hfirst
    have hl2 : loadRules P []
        ([⟨some "KERBEROS".toList, PCRE2_NOTEMPTY, exampleKerberosRegex, [BACKSLASH, '1']⟩]
          ++ (⟨some "KERBEROS".toList, 0, "someuser".toList, "unused".toList⟩ : RuleLine) :: [])
        = loadRule P
            (loadRule P []
              ⟨some "KERBEROS".toList, PCRE2_NOTEMPTY, exampleKerberosRegex, [BACKSLASH, '1']⟩)
            ⟨some "KERBEROS".toList, 0, "someuser".toList, "unused".toList⟩ := rfl
    rw [hl2] at hfind
    rw [GetCanonicalization_eq, hfind]
    simp only [hplain]
  · intro h1 ⟨re2, hc2, hm2⟩
    refine ⟨_, ParseCanonicalization_two_rules fs P fuel srcname false allow_include
      exampleKerberosLine exampleSomeuserLine []
      ⟨some "KERBEROS".toList, PCRE2_NOTEMPTY, SLASH :: (exampleKerberosRegex ++ [SLASH]),
        [BACKSLASH, '1']⟩
      ⟨some "KERBEROS".toList, PCRE2_NOTEMPTY, "someuser".toList, "unused".toList⟩
      (by decide) (by decide) (by decide) (by decide), ?_⟩
    have hno := FindMapping_pattern_no_match P (SLASH :: (exampleKerberosRegex ++ [SLASH]))
      [BACKSLASH, '1'] "someuser".toList h1
    rw [GetCanonicalization_eq, listOf_loadRule, if_pos rfl, listOf_loadRule, if_pos rfl,
      listOf_nil]
    simp only []
    rcases AddEntry_pattern P
        (AddEntry P [] PCRE2_NOTEMPTY (SLASH :: (exampleKerberosRegex ++ [SLASH]))
          [BACKSLASH, '1'])
        PCRE2_NOTEMPTY "someuser".toList "unused".toList (by decide) with hf | ⟨re, hc, hl⟩
    · rw [mask_NOTEMPTY] at hf
      exact absurd hc2 (hf.1 re2)
    · rw [mask_NOTEMPTY, hc2] at hc
      simp only [Except.ok.injEq] at hc
      subst hc
      obtain ⟨groups, hg⟩ := regex_matches_of_pos P re2 (some "unused".toList)
        "someuser".toList "someuser".toList.length 0 hm2
      rw [hl, FindMapping_append, hno.1, FindMapping_singleton, hg]
      simp only [MatchOutcome.orElse, hplain]

/-- Witness of C19: the example engine does not match `someuser` with the
regex rule; the lookup gives `unused`. -/
theorem GetCanonicalization_kerberos_example_witness :
    ∃ m, ParseCanonicalization exampleFileSystem examplePcre2 (0 + 1)
          [exampleKerberosLine, exampleSomeuserLine] "map".toList true true [] = .returned 0 m
      ∧ GetCanonicalization examplePcre2 m "KERBEROS".toList "someuser".toList []
          = .ok (0, "unused".toList) :=
  (GetCanonicalization_kerberos_example exampleFileSystem examplePcre2 0 "map".toList true).1
    (by
      intro re h
      have h2 : examplePcre2.pcre2_compile exampleKerberosRegex 0
          = .ok exampleKerberosRegex := by decide
      rw [h2] at h
      cases h
      decide)

/-- C20: reverse user lookup of literal entries. For every user-map source
whose lines are `key user` pairs of bare words, the key starting neither with
`#` nor with a slash and the user holding no backslash, loaded into a fresh
engine with `assume_hash = true`: the load returns 0, `GetUser(k)` with an
empty output returns 0 and yields the user of the first line whose key is
`k`, and `GetUser(x)` returns -1, leaving the output alone, for every `x`
that is not a key of the source. -/
theorem GetUser_literal_usermap {Re : Type} (P : Pcre2 Re) (entries : List (Str × Str))
    (eol : Str) (heol : ∀ c ∈ eol, isFieldSpace c = true)
    (hentries : ∀ e ∈ entries, bareWord e.1 ∧ e.1.head? ≠ some '#' ∧ e.1.head? ≠ some SLASH
      ∧ bareWord e.2 ∧ BACKSLASH ∉ e.2) :
    ∃ m, ParseUsermap P (entries.map (fun e => e.1 ++ ' ' :: (e.2 ++ eol))) true []
          = .returned 0 m
      ∧ (∀ k first, entries.find? (fun e => e.1 == k) = some first →
          GetUser P m k [] = .ok (0, first.2))
      ∧ (∀ x, x ∉ entries.map Prod.fst → ∀ user, GetUser P m x user = .ok (-1, user)) := by
  obtain ⟨hacc, hrules⟩ := usermap_rules_of_entries entries eol heol hentries
  refine ⟨_, ParseUsermap_accepted P true [] _ hacc, ?_, ?_⟩
  · intro k first hfirst
    have hmem : first ∈ entries := List.mem_of_find?_eq_some hfirst
    have hplain := PerformSubstitution_plain [first.1] first.2 [] (hentries first hmem).2.2.2.2
    rw [GetUser_eq, hrules,
      FindMapping_loadRules_literals P entries k []
        (fun key => by rw [listOf_nil]; intro e he; cases he),
      listOf_nil]
    simp only [FindMapping, firstLiteral, hfirst, Option.map_some', MatchOutcome.orElse, hplain,
      List.nil_append]
  · intro x hx user
    have hnone : entries.find? (fun e => e.1 == x) = none := by
      rw [List.find?_eq_none]
      intro e he hex
      exact hx (List.mem_map.mpr ⟨e, he, by simpa using hex⟩)
    rw [GetUser_eq, hrules,
      FindMapping_loadRules_literals P entries x []
        (fun key => by rw [listOf_nil]; intro e he; cases he),
      listOf_nil]
    simp only [FindMapping, firstLiteral, hnone, Option.map_none', MatchOutcome.orElse]

/-- Witness of C20: the line `alice alice_local` gives `GetUser("alice")` =
`alice_local` and `GetUser("bob")` not found. -/
theorem GetUser_literal_usermap_witness :
    ∃ m, ParseUsermap examplePcre2
          ([("alice".toList, "alice_local".toList)].map (fun e => e.1 ++ ' ' :: (e.2 ++ [])))
          true [] = .returned 0 m
      ∧ GetUser examplePcre2 m "alice".toList [] = .ok (0, "alice_local".toList)
      ∧ GetUser examplePcre2 m "bob".toList [] = .ok (-1, []) :=
  (GetUser_literal_usermap examplePcre2 [("alice".toList, "alice_local".toList)] []
    (by decide) (by decide)).imp
    (fun _ h =>
      ⟨h.1, h.2.1 "alice".toList ("alice".toList, "alice_local".toList) (by decide),
        h.2.2 "bob".toList (by decide) []⟩)

/-! # Theorems of the third part -/

/-! ## Lemmas: accounting and reset -/

theorem reset_eq_nil {Re : Type} (methods : METHOD_MAP Re) : reset methods = [] := by
  induction methods with
  | nil => rfl
  | cons it methods ih => rw [reset, ih]

theorem toInt32_of_lt (n : Nat) (h : n < 2 ^ 31) : toInt32 n = n := by
  unfold toInt32
  have h1 : n % 2 ^ 32 = n := Nat.mod_eq_of_lt (by omega)
  rw [h1, if_pos h]

theorem sizeItems_eq {Re : Type} (list : CanonicalMapList Re) :
    ∀ c : SizeCounters, sizeItems list c
      = ⟨c.cRegex + (list.map CanonicalMapEntry.patterns).sum,
          c.cHash + (list.map CanonicalMapEntry.keys).sum,
          c.cEntries + list.length⟩ := by
  induction list with
  | nil => intro c; simp [sizeItems]
  | cons item next ih =>
    intro c
    cases item with
    | base =>
      simp only [sizeItems, CanonicalMapEntry.is_hash_type, ih, List.map_cons, List.sum_cons,
        CanonicalMapEntry.patterns, CanonicalMapEntry.keys, List.length_cons]
      simp
      omega
    | regex o re canon =>
      simp only [sizeItems, CanonicalMapEntry.is_hash_type, ih, List.map_cons, List.sum_cons,
        CanonicalMapEntry.patterns, CanonicalMapEntry.keys, List.length_cons]
      simp
      omega
    | hash hm =>
      cases hm with
      | none =>
        simp only [sizeItems, CanonicalMapEntry.is_hash_type, ih, List.map_cons, List.sum_cons,
          CanonicalMapEntry.patterns, CanonicalMapEntry.keys, List.length_cons]
        simp
        omega
      | some t =>
        simp only [sizeItems, CanonicalMapEntry.is_hash_type, ih, List.map_cons, List.sum_cons,
          CanonicalMapEntry.patterns, CanonicalMapEntry.keys, List.length_cons]
        simp
        omega

theorem sizeMethods_eq {Re : Type} (methods : METHOD_MAP Re) :
    ∀ c : SizeCounters, sizeMethods methods c
      = ⟨c.cRegex + totalPatterns methods, c.cHash + totalKeys methods,
          c.cEntries + totalEntries methods⟩ := by
  induction methods with
  | nil => intro c; simp [sizeMethods, totalPatterns, totalKeys, totalEntries]
  | cons it methods ih =>
    intro c
    rw [sizeMethods, ih, sizeItems_eq]
    simp only [totalPatterns, totalKeys, totalEntries, List.map_cons, List.sum_cons,
      SizeCounters.mk.injEq]
    omega

theorem hash_add_keys {Re : Type} (hm : Option LITERAL_HASH) (k v : Str) :
    (CanonicalMapEntry.hash (CanonicalMapHashEntry.add hm k v).1 : CanonicalMapEntry Re).keys
      = (CanonicalMapEntry.hash hm : CanonicalMapEntry Re).keys
        + (if (CanonicalMapHashEntry.add hm k v).2 then 1 else 0) := by
  unfold CanonicalMapHashEntry.add
  cases hm with
  | none =>
    simp [LITERAL_HASH.find, LITERAL_HASH.assign, CanonicalMapEntry.keys]
  | some t =>
    simp only [Option.getD_some]
    by_cases hf : t.find k = none
    · rw [if_pos hf, LITERAL_HASH_assign_of_find_none t k v hf]
      simp [CanonicalMapEntry.keys]
    · rw [if_neg hf]
      simp [CanonicalMapEntry.keys]

theorem hash_add_patterns {Re : Type} (hm : Option LITERAL_HASH) :
    (CanonicalMapEntry.hash hm : CanonicalMapEntry Re).patterns = 0 := rfl

/-- One `AddEntry` call adds one rule to the list when its `add` call
returns true, and none otherwise; it adds a regex entry only for a pattern
and keys only for a literal. -/
theorem AddEntry_counts {Re : Type} (P : Pcre2 Re) (list : CanonicalMapList Re) (o : Nat)
    (p c : Str) :
    ((AddEntry P list o p c).map CanonicalMapEntry.patterns).sum
        = (list.map CanonicalMapEntry.patterns).sum
          + (if o ≠ 0 ∧ AddEntry.stored P list o p c = true then 1 else 0)
    ∧ ((AddEntry P list o p c).map CanonicalMapEntry.keys).sum
        = (list.map CanonicalMapEntry.keys).sum
          + (if o = 0 ∧ AddEntry.stored P list o p c = true then 1 else 0) := by
  unfold AddEntry AddEntry.stored
  by_cases ho : o ≠ 0
  · simp only [if_pos ho]
    unfold CanonicalMapRegexEntry.add
    cases hc : P.pcre2_compile p (o &&& (0xFFFFFFFF ^^^ PCRE2_NOTEMPTY)) with
    | ok re =>
      simp [CanonicalMapList.append, CanonicalMapEntry.patterns, CanonicalMapEntry.keys, ho]
    | error e => simp
  · have ho0 : o = 0 := by simpa using ho
    simp only [if_neg ho]
    cases ht : CanonicalMapHashEntry.is_type list.last with
    | none =>
      simp only [CanonicalMapList.append, List.map_append, List.map_cons, List.map_nil,
        List.sum_append, List.sum_cons, List.sum_nil, Nat.add_zero, hash_add_keys,
        hash_add_patterns]
      simp [ho0, CanonicalMapEntry.keys]
    | some hm =>
      have hl := is_type_eq_some _ _ ht
      have hsplit : list.dropLast ++ [CanonicalMapEntry.hash hm] = list :=
        List.dropLast_append_getLast? _ (by simpa [CanonicalMapList.last] using hl)
      simp only [List.map_append, List.map_cons, List.map_nil,
        List.sum_append, List.sum_cons, List.sum_nil, Nat.add_zero, hash_add_keys,
        hash_add_patterns]
      constructor
      · conv_rhs => rw [← hsplit]
        simp [ho0, hash_add_patterns]
      · conv_rhs => rw [← hsplit]
        simp only [List.map_append, List.map_cons, List.map_nil, List.sum_append, List.sum_cons,
          List.sum_nil, Nat.add_zero, ho0, true_and]
        rw [Nat.add_assoc]

/-- A sum over the lists of the table after `methods[key] = list`. -/
theorem sum_assign {Re : Type} (f : CanonicalMapList Re → Nat) (hf : f [] = 0)
    (m : METHOD_MAP Re) (k : Option Str) (l : CanonicalMapList Re) :
    ((m.assign k l).map (fun it => f it.2)).sum + f (m.listOf k)
      = (m.map (fun it => f it.2)).sum + f l := by
  induction m with
  | nil => simp [METHOD_MAP.assign, METHOD_MAP.listOf, METHOD_MAP.find, hf]
  | cons kv m ih =>
    by_cases hk : kv.1 = k
    · simp only [METHOD_MAP.assign, if_pos hk, List.map_cons, List.sum_cons]
      have : METHOD_MAP.listOf (kv :: m) k = kv.2 := by
        unfold METHOD_MAP.listOf METHOD_MAP.find
        rw [List.find?_cons_of_pos _ (by simpa using hk)]
        rfl
      rw [this]
      omega
    · simp only [METHOD_MAP.assign, if_neg hk, List.map_cons, List.sum_cons]
      have : METHOD_MAP.listOf (kv :: m) k = METHOD_MAP.listOf m k := by
        unfold METHOD_MAP.listOf METHOD_MAP.find
        rw [List.find?_cons_of_neg _ (by simpa using hk)]
      rw [this]
      omega

theorem listOf_GetMapList {Re : Type} (m : METHOD_MAP Re) (k : Option Str) :
    (GetMapList m k).2 = m.listOf k ∧ (GetMapList m k).1.listOf k = m.listOf k
    ∧ ∀ f : CanonicalMapList Re → Nat, f [] = 0 →
        ((GetMapList m k).1.map (fun it => f it.2)).sum = (m.map (fun it => f it.2)).sum := by
  unfold GetMapList
  cases hf : m.find k with
  | some list => simp [METHOD_MAP.listOf, hf]
  | none =>
    refine ⟨by simp [METHOD_MAP.listOf, hf], ?_, ?_⟩
    · simp [METHOD_MAP.listOf, METHOD_MAP_find_assign, hf]
    · intro f hf0
      have h := sum_assign f hf0 m k []
      simp only [METHOD_MAP.listOf, hf, Option.getD_none, hf0, Nat.add_zero] at h
      exact h

/-- A sum over the lists of the table after one rule is loaded. -/
theorem sum_loadRule {Re : Type} (P : Pcre2 Re) (f : CanonicalMapList Re → Nat) (hf : f [] = 0)
    (m : METHOD_MAP Re) (r : RuleLine) :
    ((loadRule P m r).map (fun it => f it.2)).sum + f (m.listOf r.method)
      = (m.map (fun it => f it.2)).sum
        + f (AddEntry P (m.listOf r.method) r.regex_opts r.principal r.canonicalization) := by
  obtain ⟨h1, h2, h3⟩ := listOf_GetMapList m r.method
  unfold loadRule
  simp only []
  have h := sum_assign f hf (GetMapList m r.method).1 r.method
    (AddEntry P (GetMapList m r.method).2 r.regex_opts r.principal r.canonicalization)
  rw [h2, h3 f hf, h1] at h
  rw [h1]
  exact h

/-- One loaded rule adds one rule to the table when its `add` call returns
true, and none otherwise. -/
theorem totals_loadRule {Re : Type} (P : Pcre2 Re) (m : METHOD_MAP Re) (r : RuleLine) :
    totalPatterns (loadRule P m r) + totalKeys (loadRule P m r)
      = totalPatterns m + totalKeys m
        + (if AddEntry.stored P (GetMapList m r.method).2 r.regex_opts r.principal
            r.canonicalization then 1 else 0) := by
  have hp := sum_loadRule P (fun l => (l.map CanonicalMapEntry.patterns).sum) rfl m r
  have hk := sum_loadRule P (fun l => (l.map CanonicalMapEntry.keys).sum) rfl m r
  obtain ⟨h1, h2⟩ := AddEntry_counts P (m.listOf r.method) r.regex_opts r.principal
    r.canonicalization
  simp only [] at hp hk
  rw [h1] at hp
  rw [h2] at hk
  rw [(listOf_GetMapList m r.method).1]
  unfold totalPatterns totalKeys
  by_cases ho : r.regex_opts = 0
  · simp only [ho, ne_eq, not_true_eq_false, false_and, if_false, true_and, Nat.add_zero]
      at hp hk ⊢
    omega
  · simp only [ho, ne_eq, not_false_eq_true, true_and, false_and, if_false, Nat.add_zero]
      at hp hk ⊢
    omega

theorem totals_loadRules {Re : Type} (P : Pcre2 Re) (rules : List RuleLine) :
    ∀ m : METHOD_MAP Re,
      totalPatterns (loadRules P m rules) + totalKeys (loadRules P m rules)
        = totalPatterns m + totalKeys m + storedRules P m rules := by
  induction rules with
  | nil => intro m; simp [loadRules, storedRules]
  | cons r rules ih =>
    intro m
    have h := ih (loadRule P m r)
    have h1 := totals_loadRule P m r
    simp only [loadRules, List.foldl_cons] at h ⊢
    rw [h, h1, storedRules]
    omega

/-! ## Lemmas: blank lines, comment lines and include lines -/

theorem ParseField_blank (line : Str) (popts : Option Nat)
    (h : ∀ c ∈ line, isFieldSpace c = true) :
    ParseField line 0 [] popts = .ok ⟨line.length, [], popts⟩ := by
  have hd : line.dropWhile isFieldSpace = [] := by
    rw [List.dropWhile_eq_nil_iff]
    exact h
  have ht : line.takeWhile isFieldSpace = line := by
    rw [List.takeWhile_eq_self_iff]
    exact h
  have hb := ParseField_bare line 0 [] popts (Nat.zero_le _)
    (by simp [hd]) (by simp [hd])
  simp only [List.drop_zero, hd, ht, List.takeWhile_nil, List.length_nil, Nat.add_zero,
    Nat.zero_add, List.append_nil] at hb
  exact hb

theorem ParseField_comment (line : Str) (popts : Option Nat)
    (h : (line.dropWhile isFieldSpace).head? = some '#') :
    ∃ first, ParseField line 0 [] popts = .ok first ∧ first.field.head? = some '#' := by
  have hb := ParseField_bare line 0 [] popts (Nat.zero_le _)
    (by simp only [List.drop_zero, h]; decide) (by intro _; simp only [List.drop_zero, h]; decide)
  refine ⟨_, hb, ?_⟩
  simp only [List.drop_zero, List.nil_append]
  cases hd : line.dropWhile isFieldSpace with
  | nil => rw [hd] at h; cases h
  | cons c tl =>
    rw [hd] at h
    simp only [List.head?_cons, Option.some.injEq] at h
    subst h
    rw [List.takeWhile_cons_of_pos (by decide)]
    rfl

theorem skipped_of_blankOrComment (popts : Option Nat) (line : Str)
    (h : blankOrComment popts line) :
    line = [] ∨ ∃ first, ParseField line 0 [] popts = .ok first
      ∧ (first.field.length = 0 ∨ first.field.head? = some '#') := by
  rcases h with h | h | ⟨first, h1, h2⟩
  · exact Or.inl h
  · exact Or.inr ⟨_, ParseField_blank line popts h, Or.inl rfl⟩
  · exact Or.inr ⟨first, h1, Or.inr h2⟩

theorem canonicalizationRule_of_blankOrComment (assume_hash : Bool) (line : Str)
    (h : blankOrComment none line) :
    isIncludeLine line = false ∧ canonicalizationRule assume_hash line = .ok none := by
  rcases skipped_of_blankOrComment none line h with h | ⟨first, h1, h2⟩
  · subst h
    exact ⟨by decide, by unfold canonicalizationRule; rw [if_pos rfl]⟩
  · constructor
    · unfold isIncludeLine
      rw [h1]
      simp only [decide_eq_false_iff_not]
      intro e
      rw [e] at h2
      revert h2
      decide
    · unfold canonicalizationRule
      by_cases he : line = []
      · rw [if_pos he]
      · rw [if_neg he, h1]
        simp only []
        rw [if_pos h2]

theorem usermapLine_of_blankOrComment (assume_hash : Bool) (line : Str)
    (h : blankOrComment (if assume_hash then some 0 else none) line) :
    usermapLine assume_hash line = .ok .skipped := by
  rcases skipped_of_blankOrComment _ line h with h | ⟨first, h1, h2⟩
  · subst h
    unfold usermapLine
    rw [if_pos rfl]
  · unfold usermapLine
    by_cases he : line = []
    · rw [if_pos he]
    · rw [if_neg he, h1]
      simp only []
      rw [if_pos h2]

/-- A line that is no `@include` line and gives no rule can be left out of
the source. -/
theorem canonicalizationLoop_skip {Re : Type} (fs : FileSystem) (P : Pcre2 Re)
    (nested : Str → METHOD_MAP Re → LoadOutcome Re) (srcname : Str)
    (assume_hash allow_include : Bool) (line : Str)
    (hinc : isIncludeLine line = false)
    (hrule : canonicalizationRule assume_hash line = .ok none) (src : List Str)
    (methods : METHOD_MAP Re) :
    canonicalizationLoop fs P nested srcname assume_hash allow_include (line :: src) methods
      = canonicalizationLoop fs P nested srcname assume_hash allow_include src methods := by
  rw [canonicalizationLoop_cons, canonicalizationLoop_line _ _ _ _ _ _ line methods hinc, hrule]
  rfl

theorem ParseCanonicalization_skip {Re : Type} (fs : FileSystem) (P : Pcre2 Re)
    (fuel : Nat) (pre post : List Str) (line srcname : Str) (assume_hash allow_include : Bool)
    (methods : METHOD_MAP Re) (hinc : isIncludeLine line = false)
    (hrule : canonicalizationRule assume_hash line = .ok none) :
    ParseCanonicalization fs P fuel (pre ++ line :: post) srcname assume_hash allow_include
        methods
      = ParseCanonicalization fs P fuel (pre ++ post) srcname assume_hash allow_include
          methods := by
  cases fuel with
  | zero => rfl
  | succ n =>
    rw [ParseCanonicalization_succ, ParseCanonicalization_succ,
      canonicalizationLoop_append, canonicalizationLoop_append]
    congr 1
    funext m
    exact canonicalizationLoop_skip _ _ _ _ _ _ line hinc hrule post m

/-! ## Lemmas: the options of a pattern rule -/

theorem modifierOptions_mask (a b : Bool) :
    modifierOptions a b &&& (0xFFFFFFFF ^^^ PCRE2_NOTEMPTY)
      = (if a then PCRE2_CASELESS else 0) ||| (if b then PCRE2_UNGREEDY else 0) := by
  cases a <;> cases b <;> decide

theorem modifierOptions_and_NOTEMPTY (a b : Bool) :
    modifierOptions a b &&& PCRE2_NOTEMPTY = PCRE2_NOTEMPTY := by
  cases a <;> cases b <;> decide

/-- A rule line read with `assume_hash = true` whose options are not 0 holds
the options of a regex literal. -/
theorem canonicalizationRule_options (line : Str) (r : RuleLine)
    (h : canonicalizationRule true line = .ok (some r)) (hopts : r.regex_opts ≠ 0) :
    ∃ a b, r.regex_opts = modifierOptions a b := by
  obtain ⟨method, principal, canonicalization, _, hp, _, _, _, _, hr⟩ :=
    canonicalizationRule_eq_some true line r h
  simp only [if_true] at hp hr
  have hoff := ParseField_ok_offset _ _ _ _ _ hp
  have hslash := (ParseField_options_iff_slash _ _ _ _ hp).2
  have hro : r.regex_opts = principal.popts.getD 0 := by rw [hr]
  rw [hro] at hopts
  have hhead := hslash.1 hopts
  cases hd : (line.drop method.offset).dropWhile isFieldSpace with
  | nil => rw [hd] at hhead; cases hhead
  | cons ch tl =>
    rw [hd] at hhead
    simp only [List.head?_cons, Option.some.injEq] at hhead
    subst hhead
    have hpf := ParseField_delimited line method.offset [] 0 SLASH tl hoff hd (Or.inr rfl)
    rw [hp] at hpf
    simp only [if_true, Except.ok.injEq] at hpf
    obtain ⟨a, b, hab⟩ := fieldLoop_slash_options tl
      (method.offset + ((line.drop method.offset).takeWhile isFieldSpace).length + 1) []
      false false
    have h0 : modifierOptions false false = PCRE2_NOTEMPTY := by decide
    rw [h0] at hab
    refine ⟨a, b, ?_⟩
    rw [hro, hpf, hab]
    rfl

/-! ## Lemmas: `@include` lines when includes are not allowed -/

/-- An `@include` line in a call with `allow_include = false` is passed
over. -/
theorem canonicalizationLoop_include_rejected_line {Re : Type} (fs : FileSystem) (P : Pcre2 Re)
    (nested : Str → METHOD_MAP Re → LoadOutcome Re) (srcname : Str)
    (assume_hash : Bool) (line : Str) (methods : METHOD_MAP Re)
    (hinc : isIncludeLine line = true) :
    canonicalizationLoop fs P nested srcname assume_hash false [line] methods
      = .returned 0 methods := by
  unfold isIncludeLine at hinc
  rw [canonicalizationLoop]
  simp only [canonicalizationLoop_nil]
  by_cases he : line = []
  · simp [he]
  · simp only [he, if_false]
    cases hm : ParseField line 0 [] none with
    | error f => rw [hm] at hinc; cases hinc
    | ok method =>
      rw [hm] at hinc
      have hfield : method.field = INCLUDE := by simpa using hinc
      simp [hfield]

theorem canonicalizationLoop_include_rejected {Re : Type} (fs : FileSystem) (P : Pcre2 Re)
    (nested : Str → METHOD_MAP Re → LoadOutcome Re) (srcname : Str)
    (assume_hash : Bool) (line : Str) (src : List Str) (methods : METHOD_MAP Re)
    (hinc : isIncludeLine line = true) :
    canonicalizationLoop fs P nested srcname assume_hash false (line :: src) methods
      = canonicalizationLoop fs P nested srcname assume_hash false src methods := by
  rw [canonicalizationLoop_cons, canonicalizationLoop_include_rejected_line _ _ _ _ _ _ _ hinc]
  rfl

/-- What one line does in a call with `allow_include = false`; neither the
file system nor a nested call takes part. -/
theorem canonicalizationLoop_line_no_include {Re : Type} (fs : FileSystem) (P : Pcre2 Re)
    (nested : Str → METHOD_MAP Re → LoadOutcome Re) (srcname : Str)
    (assume_hash : Bool) (line : Str) (methods : METHOD_MAP Re) :
    canonicalizationLoop fs P nested srcname assume_hash false [line] methods
      = if isIncludeLine line = true then .returned 0 methods
        else match canonicalizationRule assume_hash line with
          | .error f => .aborted f
          | .ok none => .returned 0 methods
          | .ok (some r) => .returned 0 (loadRule P methods r) := by
  by_cases hinc : isIncludeLine line = true
  · rw [if_pos hinc, canonicalizationLoop_include_rejected_line _ _ _ _ _ _ _ hinc]
  · rw [if_neg hinc]
    exact canonicalizationLoop_line _ _ _ _ _ _ _ _ (by simpa using hinc)

/-- A call with `allow_include = false` does not depend on the file system,
on the name of the source or on nested calls. -/
theorem canonicalizationLoop_no_include_eq {Re : Type} (fs fs2 : FileSystem) (P : Pcre2 Re)
    (nested nested2 : Str → METHOD_MAP Re → LoadOutcome Re) (srcname srcname2 : Str)
    (assume_hash : Bool) (src : List Str) :
    ∀ methods : METHOD_MAP Re,
      canonicalizationLoop fs P nested srcname assume_hash false src methods
        = canonicalizationLoop fs2 P nested2 srcname2 assume_hash false src methods := by
  induction src with
  | nil => intro methods; rw [canonicalizationLoop_nil, canonicalizationLoop_nil]
  | cons line src ih =>
    intro methods
    rw [canonicalizationLoop_cons, canonicalizationLoop_cons fs2,
      canonicalizationLoop_line_no_include, canonicalizationLoop_line_no_include]
    congr 1
    funext m
    exact ih m

/-- A call with `allow_include = false` never runs out of nesting budget. -/
theorem canonicalizationLoop_no_include_fuel {Re : Type} (fs : FileSystem) (P : Pcre2 Re)
    (nested : Str → METHOD_MAP Re → LoadOutcome Re) (srcname : Str)
    (assume_hash : Bool) (src : List Str) :
    ∀ methods : METHOD_MAP Re,
      canonicalizationLoop fs P nested srcname assume_hash false src methods ≠ .outOfFuel := by
  induction src with
  | nil => intro methods; rw [canonicalizationLoop_nil]; intro h; cases h
  | cons line src ih =>
    intro methods
    rw [canonicalizationLoop_cons, canonicalizationLoop_line_no_include]
    by_cases hinc : isIncludeLine line = true
    · rw [if_pos hinc]; exact ih methods
    · rw [if_neg hinc]
      cases hr : canonicalizationRule assume_hash line with
      | error f => intro h; cases h
      | ok r =>
        cases r with
        | none => exact ih methods
        | some r => exact ih _

/-- The rules of the lines of a source that are not `@include` lines. -/
theorem canonicalizationLoop_no_include {Re : Type} (fs : FileSystem) (P : Pcre2 Re)
    (nested : Str → METHOD_MAP Re → LoadOutcome Re) (srcname : Str)
    (assume_hash : Bool) (src : List Str) :
    ∀ methods : METHOD_MAP Re,
      (∀ l ∈ src, isIncludeLine l = false → ∃ r, canonicalizationRule assume_hash l = .ok r) →
      canonicalizationLoop fs P nested srcname assume_hash false src methods
        = .returned 0
            (loadRules P methods
              ((src.filter (fun l => ! isIncludeLine l)).filterMap
                (canonicalizationRule? assume_hash))) := by
  induction src with
  | nil => intro methods _; rw [canonicalizationLoop_nil]; rfl
  | cons line src ih =>
    intro methods h
    have hsrc : ∀ l ∈ src, isIncludeLine l = false →
        ∃ r, canonicalizationRule assume_hash l = .ok r :=
      fun l hl => h l (List.mem_cons_of_mem _ hl)
    rw [canonicalizationLoop_cons, canonicalizationLoop_line_no_include]
    by_cases hinc : isIncludeLine line = true
    · rw [if_pos hinc]
      simp only [LoadOutcome.andThen]
      rw [ih methods hsrc]
      simp [List.filter, hinc]
    · rw [if_neg hinc]
      have hinc2 : isIncludeLine line = false := by simpa using hinc
      obtain ⟨r, hr⟩ := h line (List.mem_cons_self _ _) hinc2
      rw [hr]
      cases r with
      | none =>
        simp only [LoadOutcome.andThen]
        rw [ih methods hsrc]
        simp [List.filter, hinc2, canonicalizationRule?, hr]
      | some r =>
        simp only [LoadOutcome.andThen]
        rw [ih _ hsrc]
        simp [List.filter, hinc2, canonicalizationRule?, hr, loadRules]

/-! ## Lemmas: the nesting of `ParseCanonicalization` -/

theorem includeFiles_fuel {Re : Type} (nested : Str → METHOD_MAP Re → LoadOutcome Re)
    (hn : ∀ f m, nested f m ≠ .outOfFuel) (file_list : List Str) :
    ∀ methods : METHOD_MAP Re, includeFiles nested file_list methods ≠ .outOfFuel := by
  induction file_list with
  | nil => intro methods h; cases h
  | cons fname file_list ih =>
    intro methods
    rw [includeFiles]
    cases hf : nested fname methods with
    | returned c m2 => exact ih m2
    | aborted f => intro h; cases h
    | outOfFuel => exact absurd hf (hn fname methods)

/-- The loop runs out of budget only when a nested call does. -/
theorem canonicalizationLoop_fuel {Re : Type} (fs : FileSystem) (P : Pcre2 Re)
    (nested : Str → METHOD_MAP Re → LoadOutcome Re)
    (hn : ∀ f m, nested f m ≠ .outOfFuel) (srcname : Str)
    (assume_hash allow_include : Bool) (src : List Str) :
    ∀ methods : METHOD_MAP Re,
      canonicalizationLoop fs P nested srcname assume_hash allow_include src methods
        ≠ .outOfFuel := by
  induction src with
  | nil => intro methods; rw [canonicalizationLoop_nil]; intro h; cases h
  | cons line src ih =>
    intro methods
    rw [canonicalizationLoop]
    repeat' split
    all_goals first
      | exact ih _
      | (intro h; cases h; done)
      | (rename_i hf; exact absurd hf (hn _ _))
      | (rename_i hf; exact absurd hf (includeFiles_fuel nested hn _ _))

/-- A call with `allow_include = false` needs a budget of 1. -/
theorem ParseCanonicalization_no_include_budget {Re : Type} (fs : FileSystem) (P : Pcre2 Re)
    (fuel : Nat) (src : List Str) (srcname : Str) (assume_hash : Bool)
    (methods : METHOD_MAP Re) :
    ParseCanonicalization fs P (fuel + 1) src srcname assume_hash false methods
      = ParseCanonicalization fs P 1 src srcname assume_hash false methods := by
  rw [ParseCanonicalization_succ, ParseCanonicalization_succ fs P 0]
  exact canonicalizationLoop_no_include_eq _ _ _ _ _ _ _ _ _ _

theorem ParseCanonicalization_no_include_fuel {Re : Type} (fs : FileSystem) (P : Pcre2 Re)
    (fuel : Nat) (src : List Str) (srcname : Str) (assume_hash : Bool)
    (methods : METHOD_MAP Re) :
    ParseCanonicalization fs P (fuel + 1) src srcname assume_hash false methods
      ≠ .outOfFuel := by
  rw [ParseCanonicalization_succ]
  exact canonicalizationLoop_no_include_fuel _ _ _ _ _ _ _

/-- A call needs a budget of 2 and gives the same outcome with every larger
one. -/
theorem ParseCanonicalization_budget {Re : Type} (fs : FileSystem) (P : Pcre2 Re)
    (fuel : Nat) (src : List Str) (srcname : Str) (assume_hash allow_include : Bool)
    (methods : METHOD_MAP Re) :
    ParseCanonicalization fs P (fuel + 2) src srcname assume_hash allow_include methods
      = ParseCanonicalization fs P 2 src srcname assume_hash allow_include methods := by
  rw [ParseCanonicalization_succ, ParseCanonicalization_succ fs P 1]
  congr 1
  funext filename methods2
  cases fs.readFile filename with
  | none => rfl
  | some lines => exact ParseCanonicalization_no_include_budget fs P fuel _ _ _ _

theorem ParseCanonicalization_fuel {Re : Type} (fs : FileSystem) (P : Pcre2 Re)
    (fuel : Nat) (src : List Str) (srcname : Str) (assume_hash allow_include : Bool)
    (methods : METHOD_MAP Re) :
    ParseCanonicalization fs P (fuel + 2) src srcname assume_hash allow_include methods
      ≠ .outOfFuel := by
  rw [ParseCanonicalization_succ]
  refine canonicalizationLoop_fuel _ _ _ ?_ _ _ _ _ _
  intro f m
  cases hf : fs.readFile f with
  | none => intro h; cases h
  | some lines => exact ParseCanonicalization_no_include_fuel fs P fuel _ _ _ _

/-! ## Lemmas: rule lines read with `assume_hash = false` -/

theorem usermapLine_eq_rule (assume_hash : Bool) (line : Str) (r : RuleLine)
    (h : usermapLine assume_hash line = .ok (.rule r)) :
    ∃ canonicalization user,
      ParseField line 0 [] (if assume_hash then some 0 else none) = .ok canonicalization
      ∧ ParseField line canonicalization.offset [] none = .ok user
      ∧ r = ⟨none, canonicalization.popts.getD (if assume_hash then 0 else PCRE2_NOTEMPTY),
              c_str canonicalization.field, c_str user.field⟩ := by
  unfold usermapLine at h
  by_cases he : line = []
  · rw [if_pos he] at h; cases h
  · rw [if_neg he] at h
    cases hc : ParseField line 0 [] (if assume_hash then some 0 else none) with
    | error f => rw [hc] at h; cases h
    | ok canonicalization =>
      rw [hc] at h
      simp only [] at h
      by_cases hcond : canonicalization.field.length = 0
          ∨ canonicalization.field.head? = some '#'
      · rw [if_pos hcond] at h; cases h
      · rw [if_neg hcond] at h
        cases hu : ParseField line canonicalization.offset [] none with
        | error f => rw [hu] at h; cases h
        | ok user =>
          rw [hu] at h
          simp only [] at h
          by_cases hempty : canonicalization.field = [] ∨ user.field = []
          · rw [if_pos hempty] at h; cases h
          · rw [if_neg hempty] at h
            simp only [Except.ok.injEq, UsermapLine.rule.injEq] at h
            exact ⟨canonicalization, user, rfl, hu, h.symm⟩

/-- A field that does not start with a double quote, read without options
pointer, is the text up to the next space, tab or newline. -/
theorem ParseField_none_bare (line : Str) (offset : Nat) (r : ParseResult)
    (h : ParseField line offset [] none = .ok r)
    (hq : ((line.drop offset).dropWhile isFieldSpace).head? ≠ some DQUOTE) :
    r.field = ((line.drop offset).dropWhile isFieldSpace).takeWhile
        (fun c => !isFieldSpace c)
    ∧ r.popts = none := by
  have hoff := ParseField_ok_offset _ _ _ _ _ h
  have hb := ParseField_bare line offset [] none hoff hq (fun hsome => by cases hsome)
  rw [h] at hb
  simp only [Except.ok.injEq] at hb
  rw [hb]
  exact ⟨by simp, rfl⟩

theorem canonicalizationRule_default (line : Str) (r : RuleLine)
    (h : canonicalizationRule false line = .ok (some r)) :
    r.regex_opts = PCRE2_NOTEMPTY
    ∧ ∀ method, ParseField line 0 [] none = .ok method →
        ((line.drop method.offset).dropWhile isFieldSpace).head? ≠ some DQUOTE →
        r.principal = c_str (((line.drop method.offset).dropWhile isFieldSpace).takeWhile
          (fun c => !isFieldSpace c)) := by
  obtain ⟨method, principal, canonicalization, hm, hp, _, _, _, _, hr⟩ :=
    canonicalizationRule_eq_some false line r h
  simp only [Bool.false_eq_true, if_false] at hp hr
  have hpo := ParseField_none_popts _ _ _ _ hp
  refine ⟨?_, ?_⟩
  · rw [hr]
    simp [hpo]
  · intro method2 hm2 hq
    rw [hm] at hm2
    cases hm2
    rw [hr]
    simp only []
    rw [(ParseField_none_bare _ _ _ hp hq).1]

theorem usermapLine_default (line : Str) (r : RuleLine)
    (h : usermapLine false line = .ok (.rule r)) :
    r.regex_opts = PCRE2_NOTEMPTY
    ∧ ((line.dropWhile isFieldSpace).head? ≠ some DQUOTE →
        r.principal = c_str ((line.dropWhile isFieldSpace).takeWhile
          (fun c => !isFieldSpace c))) := by
  obtain ⟨canonicalization, user, hc, _, hr⟩ := usermapLine_eq_rule false line r h
  simp only [Bool.false_eq_true, if_false] at hc hr
  have hpo := ParseField_none_popts _ _ _ _ hc
  refine ⟨?_, ?_⟩
  · rw [hr]
    simp [hpo]
  · intro hq
    rw [hr]
    simp only []
    have hb := (ParseField_none_bare line 0 _ hc (by simpa using hq)).1
    simp only [List.drop_zero] at hb
    rw [hb]

/-- A rule with the option set `PCRE2_NOTEMPTY` adds a regex entry or, when
the pattern does not compile, nothing. -/
theorem AddEntry_default {Re : Type} (P : Pcre2 Re) (list : CanonicalMapList Re)
    (pattern canon : Str) :
    ((∀ re, P.pcre2_compile pattern 0 ≠ .ok re)
        ∧ AddEntry P list PCRE2_NOTEMPTY pattern canon = list)
    ∨ ∃ re, P.pcre2_compile pattern 0 = .ok re
        ∧ AddEntry P list PCRE2_NOTEMPTY pattern canon
            = list ++ [.regex 0 (some re) (some canon)] := by
  have h := AddEntry_pattern P list PCRE2_NOTEMPTY pattern canon (by decide)
  rw [mask_NOTEMPTY] at h
  exact h

/-! ## Lemmas: loading a sequence of rules twice -/

theorem orElse_self (a : Except Fault MatchOutcome) : MatchOutcome.orElse a a = a := by
  unfold MatchOutcome.orElse
  split <;> rfl

/-- The lookup in a list after loading a sequence of rules is the lookup in
the list before, followed by a lookup that depends on the rules only. -/
theorem FindMapping_loadRules_orElse {Re : Type} (P : Pcre2 Re) (k : Option Str) (p : Str)
    (rules : List RuleLine) :
    ∃ n : Except Fault MatchOutcome, ∀ (m : METHOD_MAP Re),
      (∀ k, tablesAllocated (m.listOf k)) →
      FindMapping P ((loadRules P m rules).listOf k) p
        = MatchOutcome.orElse (FindMapping P (m.listOf k) p) n := by
  induction rules with
  | nil =>
    exact ⟨.ok none, fun m _ => by rw [orElse_ok_none_right]; rfl⟩
  | cons r rules ih =>
    obtain ⟨n, hn⟩ := ih
    by_cases hk : r.method = k
    · refine ⟨MatchOutcome.orElse
        (naiveFind P (naiveAdd P false [] ⟨r.regex_opts, r.principal, r.canonicalization⟩) p) n,
        ?_⟩
      intro m hm
      have h1 : loadRules P m (r :: rules) = loadRules P (loadRule P m r) rules := rfl
      rw [h1, hn _ (loadRule_tablesAllocated P m r hm), listOf_loadRule, if_pos hk,
        ← orElse_assoc]
      congr 1
      exact FindMapping_AddEntry P (m.listOf k)
        ⟨r.regex_opts, r.principal, r.canonicalization⟩ p (hm k)
    · refine ⟨n, ?_⟩
      intro m hm
      have h1 : loadRules P m (r :: rules) = loadRules P (loadRule P m r) rules := rfl
      rw [h1, hn _ (loadRule_tablesAllocated P m r hm), listOf_loadRule, if_neg hk]

/-- Loading the same rules a second time changes no lookup. -/
theorem FindMapping_loadRules_twice {Re : Type} (P : Pcre2 Re) (k : Option Str) (p : Str)
    (rules : List RuleLine) (m : METHOD_MAP Re) (hm : ∀ k, tablesAllocated (m.listOf k)) :
    FindMapping P ((loadRules P (loadRules P m rules) rules).listOf k) p
      = FindMapping P ((loadRules P m rules).listOf k) p := by
  obtain ⟨n, hn⟩ := FindMapping_loadRules_orElse P k p rules
  rw [hn _ (loadRules_tablesAllocated P rules m hm), hn m hm, orElse_assoc, orElse_self]

/-! ## Lemmas: the rule-list invariant -/

theorem ruleListInvariant_nil {Re : Type} : ruleListInvariant ([] : CanonicalMapList Re) :=
  ⟨List.chain'_nil, fun e he => by cases he⟩

/-- Appending an entry that is no hash entry keeps the invariant. -/
theorem ruleListInvariant_append_other {Re : Type} (list : CanonicalMapList Re)
    (e : CanonicalMapEntry Re) (he : e.is_hash_type = false) (h : ruleListInvariant list) :
    ruleListInvariant (list ++ [e]) := by
  refine ⟨?_, ?_⟩
  · refine List.chain'_append.2 ⟨h.1, List.chain'_singleton e, ?_⟩
    intro x _ y hy
    simp only [List.head?_cons, Option.mem_def, Option.some.injEq] at hy
    subst hy
    intro hxy
    rw [he] at hxy
    cases hxy.2
  · intro x hx hxh
    rcases List.mem_append.1 hx with hx | hx
    · exact h.2 x hx hxh
    · simp only [List.mem_singleton] at hx
      subst hx
      rw [he] at hxh
      cases hxh

/-- Appending a hash entry with a good table after an entry that is no hash
entry keeps the invariant. -/
theorem ruleListInvariant_append_hash {Re : Type} (list : CanonicalMapList Re)
    (hm : LITERAL_HASH) (hne : hm ≠ []) (hnd : (hm.map Prod.fst).Nodup)
    (hlast : ∀ x ∈ list.getLast?, x.is_hash_type = false) (h : ruleListInvariant list) :
    ruleListInvariant (list ++ [.hash (some hm)]) := by
  refine ⟨?_, ?_⟩
  · refine List.chain'_append.2 ⟨h.1, List.chain'_singleton _, ?_⟩
    intro x hx y _ hxy
    rw [hlast x hx] at hxy
    cases hxy.1
  · intro x hx hxh
    rcases List.mem_append.1 hx with hx | hx
    · exact h.2 x hx hxh
    · simp only [List.mem_singleton] at hx
      exact ⟨hm, hx, hne, hnd⟩

/-- Replacing the table of a last hash entry by a good table keeps the
invariant. -/
theorem ruleListInvariant_replace_last {Re : Type} (front : CanonicalMapList Re)
    (old : Option LITERAL_HASH) (hm : LITERAL_HASH) (hne : hm ≠ [])
    (hnd : (hm.map Prod.fst).Nodup) (h : ruleListInvariant (front ++ [.hash old])) :
    ruleListInvariant (front ++ [.hash (some hm)]) := by
  obtain ⟨hfront, _, hrel⟩ := List.chain'_append.1 h.1
  refine ⟨?_, ?_⟩
  · refine List.chain'_append.2 ⟨hfront, List.chain'_singleton _, ?_⟩
    intro x hx y _ hxy
    exact hrel x hx (.hash old) (by simp) ⟨hxy.1, rfl⟩
  · intro x hx hxh
    rcases List.mem_append.1 hx with hx | hx
    · exact h.2 x (List.mem_append_left _ hx) hxh
    · simp only [List.mem_singleton] at hx
      exact ⟨hm, hx, hne, hnd⟩

theorem not_mem_keys_of_find_none (hm : LITERAL_HASH) (k : Str) (h : hm.find k = none) :
    k ∉ hm.map Prod.fst := by
  unfold LITERAL_HASH.find at h
  rw [List.find?_eq_none] at h
  intro hk
  obtain ⟨x, hx, hxk⟩ := List.mem_map.1 hk
  exact h x hx (by simp [hxk])

/-- The table after `CanonicalMapHashEntry::add` on a table with distinct
keys has at least one key and distinct keys. -/
theorem hash_add_table (hm : Option LITERAL_HASH) (k v : Str)
    (hnd : ∀ t, hm = some t → (t.map Prod.fst).Nodup) :
    ∃ t, (CanonicalMapHashEntry.add hm k v).1 = some t ∧ t ≠ []
      ∧ (t.map Prod.fst).Nodup := by
  unfold CanonicalMapHashEntry.add
  have hnd2 : ((hm.getD []).map Prod.fst).Nodup := by
    cases hm with
    | none => simp
    | some t => exact hnd t rfl
  by_cases hf : (hm.getD []).find k = none
  · simp only [hf, if_true]
    rw [LITERAL_HASH_assign_of_find_none _ _ _ hf]
    refine ⟨_, rfl, by simp, ?_⟩
    rw [List.map_append, List.nodup_append]
    refine ⟨hnd2, by simp, ?_⟩
    intro a ha hb
    simp only [List.map_cons, List.map_nil, List.mem_singleton] at hb
    subst hb
    exact not_mem_keys_of_find_none _ _ hf ha
  · simp only [hf, if_false]
    refine ⟨_, rfl, ?_, hnd2⟩
    intro he
    rw [he] at hf
    exact hf rfl

/-- One `AddEntry` call keeps the invariant. -/
theorem AddEntry_ruleListInvariant {Re : Type} (P : Pcre2 Re) (list : CanonicalMapList Re)
    (regex_opts : Nat) (principal canon : Str) (h : ruleListInvariant list) :
    ruleListInvariant (AddEntry P list regex_opts principal canon) := by
  by_cases ho : regex_opts ≠ 0
  · rcases AddEntry_pattern P list regex_opts principal canon ho with hf | ⟨re, _, hl⟩
    · rw [hf.2]; exact h
    · rw [hl]; exact ruleListInvariant_append_other list _ rfl h
  · unfold AddEntry
    simp only [if_neg ho]
    cases hl : CanonicalMapHashEntry.is_type list.last with
    | none =>
      simp only [CanonicalMapList.append]
      obtain ⟨t, ht, hne, hnd⟩ := hash_add_table none principal canon (fun t ht => by cases ht)
      rw [ht]
      refine ruleListInvariant_append_hash list t hne hnd ?_ h
      intro x hx
      have hx2 : list.last = some x := hx
      rw [hx2] at hl
      cases x with
      | base => rfl
      | regex a b c => rfl
      | hash hm => simp [CanonicalMapHashEntry.is_type] at hl
    | some hm =>
      simp only []
      have hlast := is_type_eq_some _ _ hl
      have hsplit : list = list.dropLast ++ [.hash hm] :=
        (List.dropLast_append_getLast? _ (by simpa [CanonicalMapList.last] using hlast)).symm
      have hmem : CanonicalMapEntry.hash hm ∈ list := by
        rw [hsplit]; simp
      obtain ⟨t0, ht0, _, hnd0⟩ := h.2 _ hmem rfl
      obtain ⟨t, ht, hne, hnd⟩ := hash_add_table hm principal canon
        (fun t ht => by
          rw [ht] at ht0
          simp only [CanonicalMapEntry.hash.injEq, Option.some.injEq] at ht0
          rw [ht0]; exact hnd0)
      rw [ht]
      rw [hsplit] at h
      exact ruleListInvariant_replace_last _ hm t hne hnd h

theorem foldl_AddEntry_ruleListInvariant {Re : Type} (P : Pcre2 Re)
    (calls : List AddEntryCall) :
    ∀ list : CanonicalMapList Re, ruleListInvariant list →
      ruleListInvariant
        (calls.foldl (fun list c => AddEntry P list c.regex_opts c.principal c.canonicalization)
          list) := by
  induction calls with
  | nil => intro list h; exact h
  | cons c calls ih =>
    intro list h
    exact ih _ (AddEntry_ruleListInvariant P list _ _ _ h)

theorem loadRule_ruleListInvariant {Re : Type} (P : Pcre2 Re) (m : METHOD_MAP Re)
    (r : RuleLine) (h : ∀ k, ruleListInvariant (m.listOf k)) :
    ∀ k, ruleListInvariant ((loadRule P m r).listOf k) := by
  intro k
  rw [listOf_loadRule]
  by_cases hk : r.method = k
  · rw [if_pos hk]; exact AddEntry_ruleListInvariant P _ _ _ _ (h k)
  · rw [if_neg hk]; exact h k

theorem loadRules_ruleListInvariant {Re : Type} (P : Pcre2 Re) (rules : List RuleLine) :
    ∀ (m : METHOD_MAP Re), (∀ k, ruleListInvariant (m.listOf k)) →
      ∀ k, ruleListInvariant ((loadRules P m rules).listOf k) := by
  induction rules with
  | nil => intro m h; exact h
  | cons r rules ih =>
    intro m h
    exact ih _ (loadRule_ruleListInvariant P m r h)

/-! ## Lemmas: the pointers of a list -/

theorem mem_of_getLast?_eq_some (items : List Nat) (a : Nat)
    (h : items.getLast? = some a) : a ∈ items := by
  rw [← List.dropLast_append_getLast? a h]
  simp

theorem chain_head (next : Nat → Option Nat) (p : Option Nat) (items : List Nat)
    (h : ListPointers.chain next p items) : p = items.head? := by
  cases items with
  | nil => exact h
  | cons a items => exact h.1

theorem entries_of_chain (next : Nat → Option Nat) (items : List Nat) :
    ∀ (p : Option Nat) (fuel : Nat), ListPointers.chain next p items → items.length ≤ fuel →
      ListPointers.entries next fuel p = items := by
  induction items with
  | nil =>
    intro p fuel h _
    have hp : p = none := h
    subst hp
    cases fuel <;> rfl
  | cons a items ih =>
    intro p fuel h hlen
    obtain ⟨hp, hrest⟩ := h
    subst hp
    cases fuel with
    | zero => simp at hlen
    | succ fuel =>
      simp only [ListPointers.entries]
      rw [ih (next a) fuel hrest (by simpa using hlen)]

/-- The chain after `last->next = item; item->next = NULL`. -/
theorem chain_snoc (next : Nat → Option Nat) (item la : Nat) (items : List Nat) :
    ∀ (p : Option Nat), ListPointers.chain next p items → item ∉ items → items.Nodup →
      items.getLast? = some la →
      ListPointers.chain
        (fun a => if a = item then none else if a = la then some item else next a) p
        (items ++ [item]) := by
  induction items with
  | nil => intro p _ _ _ hl; cases hl
  | cons a items ih =>
    intro p h hitem hnd hl
    obtain ⟨hp, hrest⟩ := h
    have hai : a ≠ item := fun e => hitem (by simp [e])
    have hitem2 : item ∉ items := fun e => hitem (List.mem_cons_of_mem _ e)
    refine ⟨hp, ?_⟩
    cases items with
    | nil =>
      simp only [List.getLast?_singleton, Option.some.injEq] at hl
      subst hl
      simp only [if_neg hai, if_true, List.nil_append]
      exact ⟨rfl, by simp [ListPointers.chain]⟩
    | cons b items =>
      have hl2 : (b :: items).getLast? = some la := by
        rw [List.getLast?_cons_cons] at hl; exact hl
      have hla : la ∈ b :: items := mem_of_getLast?_eq_some _ _ hl2
      have hnd2 := List.nodup_cons.1 hnd
      have hala : a ≠ la := fun e => hnd2.1 (e ▸ hla)
      simp only [if_neg hai, if_neg hala]
      exact ih (next a) hrest hitem2 hnd2.2 hl2

/-- One `append` of an entry that is not in the list. -/
theorem append_chain (l : ListPointers) (items : List Nat) (item : Nat)
    (hc : ListPointers.chain l.next l.first items) (hl : l.last = items.getLast?)
    (hnd : items.Nodup) (hitem : item ∉ items) :
    ∃ l2, l.append item = .ok l2 ∧ ListPointers.chain l2.next l2.first (items ++ [item])
      ∧ l2.last = (items ++ [item]).getLast? := by
  have hfirst := chain_head _ _ _ hc
  cases items with
  | nil =>
    simp only [List.head?_nil] at hfirst
    simp only [List.getLast?_nil] at hl
    refine ⟨⟨some item, some item, fun a => if a = item then none else l.next a⟩, ?_, ?_, ?_⟩
    · unfold ListPointers.append
      simp [hfirst, hl]
    · exact ⟨rfl, by simp [ListPointers.chain]⟩
    · simp
  | cons a items =>
    simp only [List.head?_cons] at hfirst
    obtain ⟨la, hla⟩ : ∃ la, (a :: items).getLast? = some la := by
      cases hg : (a :: items).getLast? with
      | none => simp at hg
      | some la => exact ⟨la, rfl⟩
    rw [hla] at hl
    have hai : item ≠ a := fun e => hitem (by simp [e])
    have hlai : item ≠ la := fun e => hitem (e ▸ mem_of_getLast?_eq_some _ _ hla)
    refine ⟨⟨some a, some item,
      fun x => if x = item then none else if x = la then some item else l.next x⟩, ?_, ?_, ?_⟩
    · unfold ListPointers.append
      simp [hfirst, hl, hai, hlai]
    · exact chain_snoc l.next item la (a :: items) (some a) (hfirst ▸ hc) hitem hnd hla
    · exact (List.getLast?_concat (a :: items)).symm

theorem appendAll_chain (items : List Nat) :
    ∀ (l : ListPointers) (before : List Nat),
      ListPointers.chain l.next l.first before → l.last = before.getLast? →
      (before ++ items).Nodup →
      ∃ l2, l.appendAll items = .ok l2
        ∧ ListPointers.chain l2.next l2.first (before ++ items)
        ∧ l2.last = (before ++ items).getLast? := by
  induction items with
  | nil =>
    intro l before hc hl _
    exact ⟨l, rfl, by simpa using hc, by simpa using hl⟩
  | cons item items ih =>
    intro l before hc hl hnd
    have hnd1 : (before ++ [item] ++ items).Nodup := by simpa using hnd
    have hnd2 : (before ++ [item]).Nodup := (List.nodup_append.1 hnd1).1
    have hnd3 := List.nodup_append.1 hnd2
    have hitem : item ∉ before := fun e => hnd3.2.2 e (by simp)
    obtain ⟨l1, h1, hc1, hl1⟩ := append_chain l before item hc hl hnd3.1 hitem
    obtain ⟨l2, h2, hc2, hl2⟩ := ih l1 (before ++ [item]) hc1 hl1 hnd1
    refine ⟨l2, ?_, by simpa using hc2, by simpa using hl2⟩
    rw [ListPointers.appendAll, h1]
    exact h2

/-! # The claims, third part -/

/-- C21: blank and comment lines are ignored. In `ParseCanonicalization` and
in `ParseUsermap` a line that is empty, that holds only spaces, tabs and
newlines, or whose first field starts with `#`, whatever follows on the line,
leaves the method table as it is and the load goes on with the next line: the
source with the line loads as the source without it, and in `ParseUsermap`
the line only advances the line counter. A line whose first character behind
the leading white space is `#` is such a line. -/
theorem blank_and_comment_lines_ignored {Re : Type} (fs : FileSystem) (P : Pcre2 Re)
    (nested : Str → METHOD_MAP Re → LoadOutcome Re) (srcname : Str)
    (assume_hash allow_include : Bool) (line : Str) :
    (blankOrComment none line →
      (∀ (src : List Str) (methods : METHOD_MAP Re),
        canonicalizationLoop fs P nested srcname assume_hash allow_include (line :: src) methods
          = canonicalizationLoop fs P nested srcname assume_hash allow_include src methods)
      ∧ (∀ (fuel : Nat) (pre post : List Str) (methods : METHOD_MAP Re),
        ParseCanonicalization fs P fuel (pre ++ line :: post) srcname assume_hash allow_include
            methods
          = ParseCanonicalization fs P fuel (pre ++ post) srcname assume_hash allow_include
            methods)
      ∧ (∀ (fuel : Nat) (methods : METHOD_MAP Re),
        ParseCanonicalization fs P (fuel + 1) [line] srcname assume_hash allow_include methods
          = .returned 0 methods))
    ∧ (blankOrComment (if assume_hash then some 0 else none) line →
      (∀ (src : List Str) (n : Int) (methods : METHOD_MAP Re),
        usermapLoop P assume_hash (line :: src) n methods
          = usermapLoop P assume_hash src (incrementInt n) methods)
      ∧ (∀ methods : METHOD_MAP Re,
        ParseUsermap P [line] assume_hash methods = .returned 0 methods)
      ∧ (∀ (pre post : List Str) (methods : METHOD_MAP Re),
        (∀ l ∈ pre ++ post, usermapLineAccepted assume_hash l) →
        ParseUsermap P (pre ++ line :: post) assume_hash methods
          = ParseUsermap P (pre ++ post) assume_hash methods))
    ∧ ((line.dropWhile isFieldSpace).head? = some '#' →
      ∀ popts : Option Nat, blankOrComment popts line) := by
  refine ⟨?_, ?_, ?_⟩
  · intro h
    obtain ⟨hinc, hrule⟩ := canonicalizationRule_of_blankOrComment assume_hash line h
    refine ⟨fun src methods => canonicalizationLoop_skip _ _ _ _ _ _ line hinc hrule src methods,
      fun fuel pre post methods =>
        ParseCanonicalization_skip fs P fuel pre post line srcname _ _ methods hinc hrule, ?_⟩
    intro fuel methods
    rw [ParseCanonicalization_succ, canonicalizationLoop_line _ _ _ _ _ _ line methods hinc,
      hrule]
  · intro h
    have hline := usermapLine_of_blankOrComment assume_hash line h
    have hacc : usermapLineAccepted assume_hash line := Or.inl hline
    have hnone : usermapRule? assume_hash line = none := by
      simp [usermapRule?, hline, UsermapLine.rule?]
    refine ⟨?_, ?_, ?_⟩
    · intro src n methods
      rw [usermapLoop_cons, hline]
    · intro methods
      unfold ParseUsermap
      rw [usermapLoop_cons, hline]
      simp only []
      rw [usermapLoop_nil]
    · intro pre post methods hall
      have h1 : ∀ l ∈ pre ++ line :: post, usermapLineAccepted assume_hash l := by
        intro l hl
        rcases List.mem_append.mp hl with hl | hl
        · exact hall l (List.mem_append_left _ hl)
        · rcases List.mem_cons.mp hl with rfl | hl
          · exact hacc
          · exact hall l (List.mem_append_right _ hl)
      rw [ParseUsermap_accepted P assume_hash methods _ h1,
        ParseUsermap_accepted P assume_hash methods _ hall]
      simp [List.filterMap_append, List.filterMap_cons_none hnone]
  · intro h popts
    exact Or.inr (Or.inr (ParseField_comment line popts h))

/-- Witness of C21: the comment line ` # FS alice A` between two rules of a
canonicalization source. -/
theorem blank_and_comment_lines_ignored_witness :
    ParseCanonicalization exampleFileSystem examplePcre2 2
        (["FS bob B".toList] ++ " # FS alice A".toList :: ["FS carol C".toList])
        "map".toList true true []
      = ParseCanonicalization exampleFileSystem examplePcre2 2
        (["FS bob B".toList] ++ ["FS carol C".toList]) "map".toList true true [] :=
  ((blank_and_comment_lines_ignored exampleFileSystem examplePcre2
      (fun _ m => .returned 0 m) "map".toList true true " # FS alice A".toList).1
    (Or.inr (Or.inr ⟨⟨2, "#".toList, none⟩, by decide, by decide⟩))).2.1
    2 ["FS bob B".toList] ["FS carol C".toList] []

/-- C22: `@include` lines are rejected when includes are not allowed. In a
call of `ParseCanonicalization` with `allow_include = false`, a line whose
first field is `@include` is passed over: the outcome of a source with the
line is the outcome of the source without it, so no rule is added for it and
the lines before and after it are processed; the outcome is the same with
every file system and every budget for nested calls, so no file or directory
is read; every call that returns returns 0; and when no assertion of
`ParseField` fails on the other lines, the call returns 0 with the rules of
the lines that are not `@include` lines loaded in order. -/
theorem include_rejected_when_not_allowed {Re : Type} (fs : FileSystem) (P : Pcre2 Re)
    (fuel : Nat) (srcname : Str) (assume_hash : Bool) (methods : METHOD_MAP Re) :
    (∀ (pre post : List Str) (line : Str), isIncludeLine line = true →
      ParseCanonicalization fs P (fuel + 1) (pre ++ line :: post) srcname assume_hash false
          methods
        = ParseCanonicalization fs P (fuel + 1) (pre ++ post) srcname assume_hash false methods)
    ∧ (∀ (line : Str), isIncludeLine line = true →
      ParseCanonicalization fs P (fuel + 1) [line] srcname assume_hash false methods
        = .returned 0 methods)
    ∧ (∀ (fs2 : FileSystem) (fuel2 : Nat) (srcname2 : Str) (src : List Str),
      ParseCanonicalization fs P (fuel + 1) src srcname assume_hash false methods
        = ParseCanonicalization fs2 P (fuel2 + 1) src srcname2 assume_hash false methods)
    ∧ (∀ (src : List Str) (code : Int) (m : METHOD_MAP Re),
      ParseCanonicalization fs P (fuel + 1) src srcname assume_hash false methods
        = .returned code m → code = 0)
    ∧ (∀ (src : List Str),
      (∀ l ∈ src, isIncludeLine l = false → ∃ r, canonicalizationRule assume_hash l = .ok r) →
      ParseCanonicalization fs P (fuel + 1) src srcname assume_hash false methods
        = .returned 0
            (loadRules P methods
              ((src.filter (fun l => ! isIncludeLine l)).filterMap
                (canonicalizationRule? assume_hash)))) := by
  refine ⟨?_, ?_, ?_, ?_, ?_⟩
  · intro pre post line hinc
    rw [ParseCanonicalization_succ, ParseCanonicalization_succ, canonicalizationLoop_append,
      canonicalizationLoop_append _ _ _ _ _ _ pre post]
    congr 1
    funext m
    exact canonicalizationLoop_include_rejected _ _ _ _ _ _ _ _ hinc
  · intro line hinc
    rw [ParseCanonicalization_succ]
    exact canonicalizationLoop_include_rejected_line _ _ _ _ _ _ _ hinc
  · intro fs2 fuel2 srcname2 src
    rw [ParseCanonicalization_succ, ParseCanonicalization_succ]
    exact canonicalizationLoop_no_include_eq _ _ _ _ _ _ _ _ _ _
  · intro src code m h
    rw [ParseCanonicalization_succ] at h
    exact canonicalizationLoop_code _ _ _ _ _ _ _ _ _ _ h
  · intro src h
    rw [ParseCanonicalization_succ]
    exact canonicalizationLoop_no_include _ _ _ _ _ _ _ h

/-- Witness of C22: the source with the lines `@include map` and
`FS alice A`, in a file system where `map` is a file with a rule, gives the
rule of the second line only. -/
theorem include_rejected_when_not_allowed_witness :
    ParseCanonicalization exampleLoopFileSystem examplePcre2 (0 + 1)
        ["@include map".toList, "FS alice A".toList] "map".toList true false []
      = .returned 0
          (loadRules examplePcre2 []
            ((["@include map".toList, "FS alice A".toList].filter
                (fun l => ! isIncludeLine l)).filterMap (canonicalizationRule? true))) :=
  (include_rejected_when_not_allowed exampleLoopFileSystem examplePcre2 0 "map".toList true
    []).2.2.2.2 ["@include map".toList, "FS alice A".toList]
    (by
      intro l hl hinc
      simp only [List.mem_cons, List.mem_singleton, List.not_mem_nil, or_false] at hl
      rcases hl with rfl | rfl
      · exact absurd hinc (by decide)
      · exact ⟨some ⟨some "FS".toList, 0, "alice".toList, "A".toList⟩, by decide⟩)

/-- C23: reset discards every rule. After `reset()`, and after `clear()`, the
method table is empty, `size()` returns 0, and `GetCanonicalization` and
`GetUser` return -1, leaving the output alone, for every method and
principal; loading a source afterwards ends as loading it into a fresh
engine does, so every later lookup gives the same result. -/
theorem reset_discards_rules {Re : Type} (P : Pcre2 Re) (methods : METHOD_MAP Re) :
    reset methods = []
    ∧ clear methods = []
    ∧ (size (reset methods)).1 = 0
    ∧ (size (clear methods)).1 = 0
    ∧ (∀ method principal out : Str,
        GetCanonicalization P (reset methods) method principal out = .ok (-1, out)
        ∧ GetCanonicalization P (clear methods) method principal out = .ok (-1, out))
    ∧ (∀ principal out : Str,
        GetUser P (reset methods) principal out = .ok (-1, out)
        ∧ GetUser P (clear methods) principal out = .ok (-1, out))
    ∧ (∀ (fs : FileSystem) (fuel : Nat) (src : List Str) (srcname : Str)
        (assume_hash allow_include : Bool),
        ParseCanonicalization fs P fuel src srcname assume_hash allow_include (reset methods)
          = ParseCanonicalization fs P fuel src srcname assume_hash allow_include [])
    ∧ (∀ (src : List Str) (assume_hash : Bool),
        ParseUsermap P src assume_hash (reset methods) = ParseUsermap P src assume_hash [])
    ∧ (∀ rules : List RuleLine, ∀ method principal out : Str,
        GetCanonicalization P (loadRules P (reset methods) rules) method principal out
          = GetCanonicalization P (loadRules P [] rules) method principal out) := by
  have h : reset methods = [] := reset_eq_nil methods
  have hc : clear methods = [] := h
  rw [hc, h]
  have h0 : toInt32 (0 + 0) = 0 := by decide
  refine ⟨rfl, rfl, h0, h0, ?_, ?_, ?_, ?_, ?_⟩
  · intro method principal out
    exact ⟨rfl, rfl⟩
  · intro principal out
    exact ⟨rfl, rfl⟩
  · intros; rfl
  · intros; rfl
  · intros; rfl

/-- Counterexample to C24 as stated: the line `FS /.*/i x`, loaded with
`assume_hash = true` and an engine that shows its options, is read with the
options require-non-empty and case-insensitive, but the rule it stores holds
the option set 0 and an expression compiled with case-insensitive alone; the
lookup of the empty principal matches, which the engine refuses when
require-non-empty is among the options of the match. -/
theorem pattern_rule_options_counterexample :
    canonicalizationRule true "FS /.*/i x".toList
        = .ok (some ⟨some "FS".toList, PCRE2_NOTEMPTY ||| PCRE2_CASELESS, ".*".toList,
            "x".toList⟩)
    ∧ ParseCanonicalization exampleFileSystem optionsPcre2 1 ["FS /.*/i x".toList]
        "map".toList true true []
        = .returned 0
            [(some "FS".toList, [.regex 0 (some (".*".toList, PCRE2_CASELESS)) (some "x".toList)])]
    ∧ GetCanonicalization optionsPcre2
        [(some "FS".toList, [.regex 0 (some (".*".toList, PCRE2_CASELESS)) (some "x".toList)])]
        "FS".toList [] [] = .ok (0, "x".toList)
    ∧ (optionsPcre2.pcre2_match (".*".toList, PCRE2_CASELESS) [] 0 PCRE2_NOTEMPTY).1 = -1 := by
  decide

/-- C24, amended: a pattern rule keeps its options in its compiled expression
only. For a rule created from a `/regex/` field, whose options are
require-non-empty with case-insensitive and ungreedy as the trailing `i` and
`U` select, `AddEntry` removes require-non-empty, which only marks the field
as a pattern, and compiles the pattern with exactly the case-insensitive and
ungreedy options selected; when the pattern compiles, the entry appended holds
the compiled expression, the template and the option set 0, and matching the
entry calls the engine with the option set 0. A rule line read with
`assume_hash = true` that has options holds the options of such a field. -/
theorem pattern_rule_options {Re : Type} (P : Pcre2 Re) (list : CanonicalMapList Re)
    (caseless ungreedy : Bool) (pattern canon : Str) :
    modifierOptions caseless ungreedy &&& PCRE2_NOTEMPTY = PCRE2_NOTEMPTY
    ∧ (∀ re, P.pcre2_compile pattern
          ((if caseless then PCRE2_CASELESS else 0) ||| (if ungreedy then PCRE2_UNGREEDY else 0))
          = .ok re →
        AddEntry P list (modifierOptions caseless ungreedy) pattern canon
          = list ++ [.regex 0 (some re) (some canon)]
        ∧ ∀ (principal : Str) (cch : Nat),
            (CanonicalMapEntry.regex 0 (some re) (some canon)).matches P principal cch
              = CanonicalMapRegexEntry.matches P 0 (some re) (some canon) principal cch
            ∧ ((P.pcre2_match re principal cch 0).1 ≤ 0 →
                (CanonicalMapEntry.regex 0 (some re) (some canon)).matches P principal cch
                  = .ok none)
            ∧ (0 < (P.pcre2_match re principal cch 0).1 →
                ∃ groups,
                  (CanonicalMapEntry.regex 0 (some re) (some canon)).matches P principal cch
                    = .ok (some (some canon, groups))))
    ∧ ((∀ re, P.pcre2_compile pattern
          ((if caseless then PCRE2_CASELESS else 0) ||| (if ungreedy then PCRE2_UNGREEDY else 0))
          ≠ .ok re) →
        AddEntry P list (modifierOptions caseless ungreedy) pattern canon = list)
    ∧ ∀ (line : Str) (r : RuleLine), canonicalizationRule true line = .ok (some r) →
        r.regex_opts ≠ 0 → ∃ a b, r.regex_opts = modifierOptions a b := by
  refine ⟨modifierOptions_and_NOTEMPTY _ _, ?_, ?_, ?_⟩
  · intro re hc
    rw [← modifierOptions_mask] at hc
    refine ⟨?_, ?_⟩
    · rcases AddEntry_pattern P list _ pattern canon (modifierOptions_ne_zero caseless ungreedy)
        with hf | ⟨re2, hc2, hl⟩
      · exact absurd hc (hf.1 re)
      · rw [hc] at hc2
        cases hc2
        exact hl
    · intro principal cch
      exact ⟨rfl, regex_matches_of_le P re _ principal cch 0,
        regex_matches_of_pos P re _ principal cch 0⟩
  · intro hno
    rcases AddEntry_pattern P list _ pattern canon (modifierOptions_ne_zero caseless ungreedy)
      with hf | ⟨re2, hc2, _⟩
    · exact hf.2
    · rw [modifierOptions_mask] at hc2
      exact absurd hc2 (hno re2)
  · intro line r h hopts
    exact canonicalizationRule_options line r h hopts

/-- Witness of C24: the pattern `.*` with the modifier `i` and the engine that
shows its options. -/
theorem pattern_rule_options_witness :
    AddEntry optionsPcre2 [] (modifierOptions true false) ".*".toList "x".toList
      = [] ++ [.regex 0 (some (".*".toList, PCRE2_CASELESS)) (some "x".toList)] :=
  ((pattern_rule_options optionsPcre2 [] true false ".*".toList "x".toList).2.1
    (".*".toList, PCRE2_CASELESS) (by decide)).1

/-- C25: the rule-list invariant. Every list built from the empty list by a
sequence of `AddEntry` calls, and every list of a method table loaded from an
empty engine, has no two neighbours that are both literal groups, and every
literal group in it has a table with at least one key and pairwise distinct
keys; each `AddEntry` call keeps this. On the pointers of the list: after
`append` of entries at pairwise distinct addresses to the empty list, the
chain of `next` fields from `first` passes exactly these entries in order and
ends with `NULL`, and `last` is the final one of them. -/
theorem rule_list_invariant {Re : Type} (P : Pcre2 Re) :
    (∀ calls : List AddEntryCall, ruleListInvariant (buildList P calls))
    ∧ (∀ (rules : List RuleLine) (k : Option Str),
        ruleListInvariant ((loadRules P [] rules).listOf k))
    ∧ (∀ (list : CanonicalMapList Re) (regex_opts : Nat) (principal canon : Str),
        ruleListInvariant list →
        ruleListInvariant (AddEntry P list regex_opts principal canon))
    ∧ (∀ items : List Nat, items.Nodup →
        ∃ l, ListPointers.empty.appendAll items = .ok l
          ∧ l.first = items.head? ∧ l.last = items.getLast?
          ∧ ListPointers.chain l.next l.first items
          ∧ ∀ fuel, items.length ≤ fuel → ListPointers.entries l.next fuel l.first = items) := by
  refine ⟨?_, ?_, ?_, ?_⟩
  · intro calls
    exact foldl_AddEntry_ruleListInvariant P calls [] ruleListInvariant_nil
  · intro rules k
    exact loadRules_ruleListInvariant P rules [] (fun _ => ruleListInvariant_nil) k
  · intro list regex_opts principal canon h
    exact AddEntry_ruleListInvariant P list regex_opts principal canon h
  · intro items hnd
    obtain ⟨l, h1, hc, hl⟩ := appendAll_chain items ListPointers.empty [] rfl rfl
      (by simpa using hnd)
    simp only [List.nil_append] at hc hl
    exact ⟨l, h1, chain_head _ _ _ hc, hl, hc,
      fun fuel hf => entries_of_chain _ _ _ _ hc hf⟩

/-- Witness of C25: three entries at the addresses 10, 20 and 30. -/
theorem rule_list_invariant_witness :
    ∃ l, ListPointers.empty.appendAll [10, 20, 30] = .ok l
      ∧ l.first = [10, 20, 30].head? ∧ l.last = [10, 20, 30].getLast?
      ∧ ListPointers.chain l.next l.first [10, 20, 30]
      ∧ ∀ fuel, [10, 20, 30].length ≤ fuel
          → ListPointers.entries l.next fuel l.first = [10, 20, 30] :=
  (rule_list_invariant examplePcre2).2.2.2 [10, 20, 30] (by decide)

/-- C26: `size()` returns the number of pattern entries plus the number of
keys of all literal groups, over every list of the method table, the user map
included, as long as that number is below 2^31; `cRegex` and `cHash` are the
two parts and add up to the returned value, and `cEntries` is the number of
list positions. Loading rules raises the number by the number of `AddEntry`
calls whose `add` call returned true, so after a reset it is the number of
such calls. -/
theorem size_counts_stored_rules {Re : Type} (P : Pcre2 Re) (methods : METHOD_MAP Re)
    (rules : List RuleLine) :
    (totalPatterns methods + totalKeys methods < 2 ^ 31 →
      (size methods).1 = ((totalPatterns methods + totalKeys methods : Nat) : Int)
      ∧ (size methods).2.cRegex = (totalPatterns methods : Int)
      ∧ (size methods).2.cHash = (totalKeys methods : Int)
      ∧ (size methods).2.cRegex + (size methods).2.cHash = (size methods).1)
    ∧ (totalEntries methods < 2 ^ 31 →
      (size methods).2.cEntries = (totalEntries methods : Int))
    ∧ totalPatterns (loadRules P methods rules) + totalKeys (loadRules P methods rules)
        = totalPatterns methods + totalKeys methods + storedRules P methods rules
    ∧ totalPatterns (loadRules P (reset methods) rules)
          + totalKeys (loadRules P (reset methods) rules)
        = storedRules P [] rules
    ∧ (storedRules P [] rules < 2 ^ 31 →
        (size (loadRules P (reset methods) rules)).1 = (storedRules P [] rules : Int)) := by
  have hsize : ∀ m : METHOD_MAP Re, totalPatterns m + totalKeys m < 2 ^ 31 →
      (size m).1 = ((totalPatterns m + totalKeys m : Nat) : Int) := by
    intro m hlt
    unfold size
    simp only [sizeMethods_eq, Nat.zero_add]
    exact toInt32_of_lt _ hlt
  have hreset : totalPatterns (loadRules P (reset methods) rules)
        + totalKeys (loadRules P (reset methods) rules) = storedRules P [] rules := by
    rw [reset_eq_nil, totals_loadRules P rules []]
    simp [totalPatterns, totalKeys]
  refine ⟨?_, ?_, totals_loadRules P rules methods, hreset, ?_⟩
  · intro hlt
    refine ⟨hsize methods hlt, ?_, ?_, ?_⟩
    · unfold size
      simp only [sizeMethods_eq, Nat.zero_add]
      exact toInt32_of_lt _ (by omega)
    · unfold size
      simp only [sizeMethods_eq, Nat.zero_add]
      exact toInt32_of_lt _ (by omega)
    · unfold size
      simp only [sizeMethods_eq, Nat.zero_add]
      rw [toInt32_of_lt _ hlt, toInt32_of_lt (totalPatterns methods) (by omega),
        toInt32_of_lt (totalKeys methods) (by omega)]
      push_cast
      rfl
  · intro hlt
    unfold size
    simp only [sizeMethods_eq, Nat.zero_add]
    exact toInt32_of_lt _ hlt
  · intro hlt
    rw [hsize _ (by rw [hreset]; exact hlt), hreset]

/-- Witness of C26: a table with a pattern and two literal groups of three
keys in all has size 4. -/
theorem size_counts_stored_rules_witness :
    (size
      ([(some "FS".toList,
          [.hash (some [("alice".toList, "A".toList), ("bob".toList, "B".toList)]),
           .regex 0 (some ".*".toList) (some "x".toList)]),
        (none, [.hash (some [("carol".toList, "C".toList)])])] : METHOD_MAP Str)).1
      = ((totalPatterns
          ([(some "FS".toList,
              [.hash (some [("alice".toList, "A".toList), ("bob".toList, "B".toList)]),
               .regex 0 (some ".*".toList) (some "x".toList)]),
            (none, [.hash (some [("carol".toList, "C".toList)])])] : METHOD_MAP Str)
        + totalKeys
          ([(some "FS".toList,
              [.hash (some [("alice".toList, "A".toList), ("bob".toList, "B".toList)]),
               .regex 0 (some ".*".toList) (some "x".toList)]),
            (none, [.hash (some [("carol".toList, "C".toList)])])] : METHOD_MAP Str) : Nat)
          : Int) :=
  ((size_counts_stored_rules examplePcre2
    ([(some "FS".toList,
        [.hash (some [("alice".toList, "A".toList), ("bob".toList, "B".toList)]),
         .regex 0 (some ".*".toList) (some "x".toList)]),
      (none, [.hash (some [("carol".toList, "C".toList)])])] : METHOD_MAP Str) []).1
    (by decide)).1

/-- C27: include recursion is bounded to one level. With the file system a
map from paths to line lists and from directories to file lists,
`ParseCanonicalization` ends on every input: a budget of two nested calls is
never used up and every larger budget gives the same outcome. Every nested
parse started for an `@include` is the call
`ParseCanonicalizationFile(name, assume_hash, false)`; such a parse starts no
parse of its own, a budget of one call is enough for it. So no parse runs
more than one level below the top-level call, also when a file includes
itself: in the example every path is a file that holds `@include map` and a
rule, and the load returns 0 with that rule. -/
theorem include_recursion_bounded {Re : Type} (fs : FileSystem) (P : Pcre2 Re) (fuel : Nat)
    (src : List Str) (srcname : Str) (assume_hash allow_include : Bool)
    (methods : METHOD_MAP Re) :
    ParseCanonicalization fs P (fuel + 2) src srcname assume_hash allow_include methods
        ≠ .outOfFuel
    ∧ ParseCanonicalization fs P (fuel + 2) src srcname assume_hash allow_include methods
        = ParseCanonicalization fs P 2 src srcname assume_hash allow_include methods
    ∧ ParseCanonicalization fs P (fuel + 1) src srcname assume_hash allow_include methods
        = canonicalizationLoop fs P
            (fun filename methods2 =>
              ParseCanonicalizationFile fs P fuel filename assume_hash false methods2)
            srcname assume_hash allow_include src methods
    ∧ (∀ (filename : Str) (methods2 : METHOD_MAP Re),
        ParseCanonicalizationFile fs P (fuel + 1) filename assume_hash false methods2
            ≠ .outOfFuel
        ∧ ParseCanonicalizationFile fs P (fuel + 1) filename assume_hash false methods2
            = ParseCanonicalizationFile fs P 1 filename assume_hash false methods2)
    ∧ ParseCanonicalization exampleLoopFileSystem examplePcre2 2
        ["@include map".toList, "FS alice A".toList] "map".toList true true []
        = .returned 0 [(some "FS".toList, [.hash (some [("alice".toList, "A".toList)])])] := by
  refine ⟨ParseCanonicalization_fuel _ _ _ _ _ _ _ _, ParseCanonicalization_budget _ _ _ _ _ _ _ _,
    ?_, ?_, by decide⟩
  · rw [ParseCanonicalization_succ]
    rfl
  · intro filename methods2
    unfold ParseCanonicalizationFile
    cases fs.readFile filename with
    | none => exact ⟨(fun h => by cases h), rfl⟩
    | some lines =>
      exact ⟨ParseCanonicalization_no_include_fuel _ _ _ _ _ _ _,
        ParseCanonicalization_no_include_budget _ _ _ _ _ _ _⟩

/-- C28: with `assume_hash = false` every rule is a pattern rule. A line from
which `ParseCanonicalization` or `ParseUsermap` takes a rule with
`assume_hash = false` has its principal field read without options pointer,
the rule carries the option set `PCRE2_NOTEMPTY`, which is not 0, and the
loader hands that rule to `AddEntry`; `AddEntry` then appends a regex entry
with the principal as pattern text or, when the pattern does not compile,
leaves the list as it is, and in neither case touches a literal group. A
principal field that starts with a slash is read as a bare word: the pattern
text is the field up to the next space, tab or newline, the leading slash, a
trailing slash and modifier letters included. -/
theorem default_mode_rules_are_patterns {Re : Type} (P : Pcre2 Re) (fs : FileSystem)
    (fuel : Nat) (srcname : Str) (allow_include : Bool) (methods : METHOD_MAP Re)
    (list : CanonicalMapList Re) (line : Str) (r : RuleLine) :
    (canonicalizationRule false line = .ok (some r) →
      r.regex_opts = PCRE2_NOTEMPTY ∧ r.regex_opts ≠ 0
      ∧ (isIncludeLine line = false →
          ParseCanonicalization fs P (fuel + 1) [line] srcname false allow_include methods
            = .returned 0 (loadRule P methods r))
      ∧ (((∀ re, P.pcre2_compile r.principal 0 ≠ .ok re)
            ∧ AddEntry P list r.regex_opts r.principal r.canonicalization = list)
          ∨ ∃ re, P.pcre2_compile r.principal 0 = .ok re
            ∧ AddEntry P list r.regex_opts r.principal r.canonicalization
                = list ++ [.regex 0 (some re) (some r.canonicalization)])
      ∧ ∀ method, ParseField line 0 [] none = .ok method →
          ((line.drop method.offset).dropWhile isFieldSpace).head? = some SLASH →
          r.principal
            = c_str (((line.drop method.offset).dropWhile isFieldSpace).takeWhile
                (fun c => !isFieldSpace c)))
    ∧ (usermapLine false line = .ok (.rule r) →
      r.regex_opts = PCRE2_NOTEMPTY ∧ r.regex_opts ≠ 0
      ∧ ParseUsermap P [line] false methods = .returned 0 (loadRule P methods r)
      ∧ (((∀ re, P.pcre2_compile r.principal 0 ≠ .ok re)
            ∧ AddEntry P list r.regex_opts r.principal r.canonicalization = list)
          ∨ ∃ re, P.pcre2_compile r.principal 0 = .ok re
            ∧ AddEntry P list r.regex_opts r.principal r.canonicalization
                = list ++ [.regex 0 (some re) (some r.canonicalization)])
      ∧ ((line.dropWhile isFieldSpace).head? = some SLASH →
          r.principal
            = c_str ((line.dropWhile isFieldSpace).takeWhile (fun c => !isFieldSpace c)))) := by
  have hne : PCRE2_NOTEMPTY ≠ 0 := by decide
  have hsq : SLASH ≠ DQUOTE := by decide
  constructor
  · intro h
    obtain ⟨hopts, hprin⟩ := canonicalizationRule_default line r h
    refine ⟨hopts, by rw [hopts]; exact hne, ?_, ?_, ?_⟩
    · intro hinc
      exact ParseCanonicalization_single_rule fs P fuel srcname false allow_include line methods
        r hinc h
    · rw [hopts]
      exact AddEntry_default P list _ _
    · intro method hm hs
      exact hprin method hm (by rw [hs]; simpa using hsq)
  · intro h
    obtain ⟨hopts, hprin⟩ := usermapLine_default line r h
    refine ⟨hopts, by rw [hopts]; exact hne, ?_, ?_, ?_⟩
    · unfold ParseUsermap
      rw [usermapLoop_cons, h]
      simp only []
      rw [usermapLoop_nil]
    · rw [hopts]
      exact AddEntry_default P list _ _
    · intro hs
      exact hprin (by rw [hs]; simpa using hsq)

/-- Witness of C28: the line `FS /a/i x` read with `assume_hash = false`
gives the pattern text `/a/i`. -/
theorem default_mode_rules_are_patterns_witness :
    RuleLine.principal ⟨some "FS".toList, PCRE2_NOTEMPTY, "/a/i".toList, "x".toList⟩
      = c_str ((("FS /a/i x".toList.drop 2).dropWhile isFieldSpace).takeWhile
          (fun c => !isFieldSpace c)) :=
  ((default_mode_rules_are_patterns examplePcre2 exampleFileSystem 0 "map".toList true [] []
    "FS /a/i x".toList ⟨some "FS".toList, PCRE2_NOTEMPTY, "/a/i".toList, "x".toList⟩).1
    (by decide)).2.2.2.2 ⟨2, "FS".toList, none⟩ (by decide) (by decide)

/-- C29: loading is idempotent with respect to lookups. For every source
without `@include` line on whose lines no assertion of `ParseField` fails,
every setting of the flags and every engine state whose literal groups have
their tables, a fresh engine among them: the first load returns 0, a second
load of the same source right after it returns 0, and for every method,
principal and output the engine loaded twice gives the same
`GetCanonicalization` result, return code and output, as the engine loaded
once. The regex engine is the same deterministic oracle in both. -/
theorem loading_twice_same_lookups {Re : Type} (fs : FileSystem) (P : Pcre2 Re) (fuel : Nat)
    (src : List Str) (srcname : Str) (assume_hash allow_include : Bool)
    (methods : METHOD_MAP Re) (hmethods : ∀ k, tablesAllocated (methods.listOf k))
    (hsrc : ∀ l ∈ src, canonicalizationLinePlain assume_hash l) :
    ∃ once twice,
      ParseCanonicalization fs P (fuel + 1) src srcname assume_hash allow_include methods
        = .returned 0 once
      ∧ ParseCanonicalization fs P (fuel + 1) src srcname assume_hash allow_include once
        = .returned 0 twice
      ∧ ∀ (method principal out : Str),
          GetCanonicalization P twice method principal out
            = GetCanonicalization P once method principal out := by
  refine ⟨loadRules P methods (src.filterMap (canonicalizationRule? assume_hash)),
    loadRules P (loadRules P methods (src.filterMap (canonicalizationRule? assume_hash)))
      (src.filterMap (canonicalizationRule? assume_hash)), ?_, ?_, ?_⟩
  · rw [ParseCanonicalization_succ]
    exact canonicalizationLoop_plain _ _ _ _ _ _ _ _ hsrc
  · rw [ParseCanonicalization_succ]
    exact canonicalizationLoop_plain _ _ _ _ _ _ _ _ hsrc
  · intro method principal out
    rw [GetCanonicalization_eq, GetCanonicalization_eq,
      FindMapping_loadRules_twice P _ _ _ methods hmethods]

/-- Witness of C29: the two lines of the Kerberos example, loaded twice into
a fresh engine. -/
theorem loading_twice_same_lookups_witness :
    ∃ once twice,
      ParseCanonicalization exampleFileSystem examplePcre2 (0 + 1)
          [exampleKerberosLine, exampleSomeuserLine] "map".toList true true []
        = .returned 0 once
      ∧ ParseCanonicalization exampleFileSystem examplePcre2 (0 + 1)
          [exampleKerberosLine, exampleSomeuserLine] "map".toList true true once
        = .returned 0 twice
      ∧ ∀ (method principal out : Str),
          GetCanonicalization examplePcre2 twice method principal out
            = GetCanonicalization examplePcre2 once method principal out :=
  loading_twice_same_lookups exampleFileSystem examplePcre2 0
    [exampleKerberosLine, exampleSomeuserLine] "map".toList true true []
    (fun k e he => by cases he)
    (by
      intro l hl
      simp only [List.mem_cons, List.mem_singleton, List.not_mem_nil, or_false] at hl
      rcases hl with rfl | rfl
      · exact ⟨rfl, _, rfl⟩
      · exact ⟨rfl, _, rfl⟩)

/-- C30, the code at a failing input: on a template whose last character is a
lone backslash, here `a\`, the scan appends a NUL to the output and steps past
the terminating NUL, for every capture-group list and every output so far. A
map file reaches it: the line `FS alice a\` loads the literal rule with the
template `a\`, and the lookup of `alice` then runs the scan past the end. -/
theorem PerformSubstitution_trailing_backslash :
    (∀ (groups : List Str) (output : Str),
      PerformSubstitution groups ['a', BACKSLASH] output
        = .error (.pastTerminator (output ++ ['a', NUL])))
    ∧ ParseCanonicalization exampleFileSystem examplePcre2 1
        ["FS alice a".toList ++ [BACKSLASH]] "map".toList true true []
        = .returned 0 [(some "FS".toList, [.hash (some [("alice".toList, ['a', BACKSLASH])])])]
    ∧ GetCanonicalization examplePcre2
        [(some "FS".toList, [.hash (some [("alice".toList, ['a', BACKSLASH])])])]
        "FS".toList "alice".toList []
        = .error (.pastTerminator ['a', NUL]) := by
  refine ⟨?_, by decide, by decide⟩
  intro groups output
  have h : 'a' ≠ BACKSLASH := by decide
  simp [PerformSubstitution, h]

end MapFile
